import Mathlib

/-!
# MemMngr: a shallow embedding of `src/MemMngr.h`

The C++ program keeps one `MemEntry_t` record per live allocation in a
hand-written doubly-linked list (`List<T>` / `MemList`) and maintains three
32-bit counters in `MemMngr`.

Modelling decisions.

* Pointers are natural numbers, `0` is `NULL`.  The `Node` objects and the
  `MemEntry_t` objects live in two typed stores (`Ptr → Option _`); `none`
  means "no live object at this address".  Reading or writing through `NULL`
  or through an address without a live object is undefined behaviour and is
  reported as `Err.undefined`.
* `malloc` is the environment: every call site takes the address `malloc`
  returned as an extra argument (`0` when it returned `NULL`).
* `unsigned int` is 32 bits wide and `size_t` is 64 bits wide (g++, LP64);
  arithmetic on them is written with explicit `% 2^32` / `% 2^64`.
* `assert` aborts the process (`Err.allocLimit`, `Err.sizeGrowing`);
  `throw bad_alloc()` is `Err.bad_alloc`.  Every operation returns the state
  it had reached when it stopped, so that a caught exception can be followed
  by further calls.
* The two `while` loops take a fuel argument: one unit per executed loop body.
  `Err.fuel` is not a behaviour of the program, it only says that the budget
  was too small.
* `cout << ...` is modelled by the list of inserted items (`Tok`).
* The blocks handed to the program are not modelled: `malloc(size)` only
  contributes its result and `free(p)` changes nothing in the manager.
* Sequences of calls (`Run`) continue after a `bad_alloc`, stop at an abort or
  at undefined behaviour, and assume of `malloc` what `Call.Allowed` says.
-/

namespace MM

/-- A machine address; `0` is `NULL`. -/
abbrev Ptr := Nat

/-- Modulus of `unsigned int` arithmetic. -/
def UINT_MOD : Nat := 4294967296

/-- Modulus of `size_t` arithmetic. -/
def SIZE_MOD : Nat := 18446744073709551616

/-- How an operation can stop without returning normally. -/
inductive Err
  | allocLimit
  | sizeGrowing
  | bad_alloc
  | undefined
  | fuel
  deriving DecidableEq

/-- Equality of results is decidable. -/
instance instDecidableEqExcept {ε α : Type} [DecidableEq ε] [DecidableEq α] :
    DecidableEq (Except ε α)
  | .ok a, .ok b =>
    if h : a = b then isTrue (by rw [h]) else isFalse (fun h2 => h (by cases h2; rfl))
  | .error a, .error b =>
    if h : a = b then isTrue (by rw [h]) else isFalse (fun h2 => h (by cases h2; rfl))
  | .ok _, .error _ => isFalse (fun h => by cases h)
  | .error _, .ok _ => isFalse (fun h => by cases h)

/-- The items inserted into `cout`. -/
inductive Tok
  | str (s : String)
  | ptr (p : Ptr)
  | num (n : Nat)
  | endl
  deriving DecidableEq

/-- The enumeration `MemType`. -/
inductive MemType
  | Single
  | Array
  deriving DecidableEq

/-- The class `Node<T>`: element pointer, previous node, next node. -/
structure Node where
  itsElement : Ptr
  itsPrevious : Ptr
  itsNext : Ptr
  deriving DecidableEq

/-- The struct `MemEntry`.  `itsFile` is a `const char*`; it is modelled by the
string it points to, `none` being `NULL`. -/
structure MemEntry where
  itsMemPtr : Ptr
  itsSize : Nat
  itsType : MemType
  itsAllocNumber : Nat
  itsFile : Option String
  itsLine : Nat
  deriving DecidableEq

/-- The record written by `MemEntry::init`. -/
def MemEntry.init : MemEntry :=
  { itsMemPtr := 0, itsSize := 0, itsType := MemType.Single, itsAllocNumber := 0,
    itsFile := none, itsLine := 0 }

/-- Reading through a pointer: `none` for `NULL` and for dangling addresses. -/
def deref {α : Type} (mem : Ptr → Option α) (p : Ptr) : Option α :=
  if p = 0 then none else mem p

/-- Writing a field through a pointer: read the object, store the changed one. -/
def modify {α : Type} (mem : Ptr → Option α) (p : Ptr) (f : α → α) :
    Option (Ptr → Option α) :=
  match deref mem p with
  | none => none
  | some v => some (Function.update mem p (some (f v)))

/-- The class `List<MemEntry_t*>` (and its subclass `MemList`): the three
fields of the object together with the store of the `Node` objects it
allocates in `add` and frees in `remove`. -/
structure MemList where
  itsSize : Nat
  itsFirst : Ptr
  itsLast : Ptr
  nodes : Ptr → Option Node

/-- The method `List::init` applied to a list that owns no node. -/
def MemList.init : MemList :=
  { itsSize := 0, itsFirst := 0, itsLast := 0, nodes := fun _ => none }

/-- The method `List::size`. -/
def MemList.size (l : MemList) : Nat := l.itsSize

/-- The method `List::first`. -/
def MemList.first (l : MemList) : Ptr := l.itsFirst

/-- The method `List::last`. -/
def MemList.last (l : MemList) : Ptr := l.itsLast

/-- The two assignments `tail->itsNext = node; node->itsPrevious = tail;` of
`List::add`. -/
def linkAfter (mem : Ptr → Option Node) (tail node : Ptr) : Option (Ptr → Option Node) :=
  match modify mem tail (fun n => { n with itsNext := node }) with
  | none => none
  | some mem1 => modify mem1 node (fun n => { n with itsPrevious := tail })

/-- The method `List::add`.  `node` is what `malloc(sizeof(Node<T>))` returned. -/
def MemList.add (element : Ptr) (node : Ptr) (l : MemList) : Except Err Bool × MemList :=
  if ¬ (l.itsSize < (l.itsSize + 1) % UINT_MOD) then (.error .sizeGrowing, l)
  else if node = 0 then (.error .bad_alloc, l)
  else
    let mem0 := Function.update l.nodes node (some ⟨element, 0, 0⟩)
    let linked : Option (Ptr → Option Node) :=
      match l.itsSize with
      | 0 => some mem0
      | 1 => linkAfter mem0 l.itsFirst node
      | _ => linkAfter mem0 l.itsLast node
    match linked with
    | none => (.error .undefined, { l with nodes := mem0 })
    | some mem1 =>
      (.ok true,
        { itsSize := (l.itsSize + 1) % UINT_MOD,
          itsFirst := if l.itsSize = 0 then node else l.itsFirst,
          itsLast := node,
          nodes := mem1 })

/-- The search loop of `List::remove`, started with `current`.  `some c` is the
node the loop stopped at, `none` stands for `return false`. -/
def MemList.removeFind (nodes : Ptr → Option Node) (element : Ptr) :
    Nat → Ptr → Except Err (Option Ptr)
  | fuel, current =>
    match deref nodes current with
    | none => .error .undefined
    | some n =>
      if element = n.itsElement then .ok (some current)
      else if n.itsPrevious = 0 then .ok none
      else
        match fuel with
        | 0 => .error .fuel
        | k + 1 => MemList.removeFind nodes element k n.itsPrevious

/-- The statement `if (previous) previous->itsNext = next; else itsFirst = next;`
of `List::remove`. -/
def MemList.setNextOf (l : MemList) (previous next : Ptr) : Option MemList :=
  if previous ≠ 0 then
    match modify l.nodes previous (fun q => { q with itsNext := next }) with
    | none => none
    | some mem => some { l with nodes := mem }
  else some { l with itsFirst := next }

/-- The statement `if (next) next->itsPrevious = previous; else itsLast = previous;`
of `List::remove`. -/
def MemList.setPreviousOf (l : MemList) (previous next : Ptr) : Option MemList :=
  if next ≠ 0 then
    match modify l.nodes next (fun q => { q with itsPrevious := previous }) with
    | none => none
    | some mem => some { l with nodes := mem }
  else some { l with itsLast := previous }

/-- The pointer updates of `List::remove` once `current` has been found: the two
neighbours are linked to each other, the node is destroyed and freed, and
`itsSize--` is performed on the `unsigned int`. -/
def MemList.unlink (l : MemList) (current : Ptr) : Option MemList :=
  match deref l.nodes current with
  | none => none
  | some n =>
    match l.setNextOf n.itsPrevious n.itsNext with
    | none => none
    | some l1 =>
      match l1.setPreviousOf n.itsPrevious n.itsNext with
      | none => none
      | some l2 =>
        some { l2 with
          nodes := Function.update l2.nodes current none,
          itsSize := (l2.itsSize + UINT_MOD - 1) % UINT_MOD }

/-- The method `List::remove`. -/
def MemList.remove (fuel : Nat) (element : Ptr) (l : MemList) : Except Err Bool × MemList :=
  match MemList.removeFind l.nodes element fuel l.itsLast with
  | .error e => (.error e, l)
  | .ok none => (.ok false, l)
  | .ok (some current) =>
    match l.unlink current with
    | none => (.error .undefined, l)
    | some l1 => (.ok true, l1)

/-- The loop of `MemList::getEntry`, started with `node`.  The result is the
entry pointer, `0` when the loop ran off the head of the list. -/
def MemList.getEntryLoop (nodes : Ptr → Option Node) (entries : Ptr → Option MemEntry)
    (memPtr : Ptr) : Nat → Ptr → Except Err Ptr
  | fuel, node =>
    if node = 0 then .ok 0
    else
      match fuel with
      | 0 => .error .fuel
      | k + 1 =>
        match nodes node with
        | none => .error .undefined
        | some n =>
          match deref entries n.itsElement with
          | none => .error .undefined
          | some candidate =>
            if memPtr = candidate.itsMemPtr then .ok n.itsElement
            else MemList.getEntryLoop nodes entries memPtr k n.itsPrevious

/-- The method `MemList::getEntry`. -/
def MemList.getEntry (fuel : Nat) (l : MemList) (entries : Ptr → Option MemEntry)
    (memPtr : Ptr) : Except Err Ptr :=
  MemList.getEntryLoop l.nodes entries memPtr fuel l.itsLast

/-- Head-to-tail iteration with `first()`, `next()` and `getElement()`, for at
most `k` nodes: the element pointers met on the way. -/
def walkNext (nodes : Ptr → Option Node) : Nat → Ptr → List Ptr
  | 0, _ => []
  | k + 1, p =>
    match deref nodes p with
    | none => []
    | some n => n.itsElement :: walkNext nodes k n.itsNext

/-- Tail-to-head iteration with `last()`, `previous()` and `getElement()`. -/
def walkPrev (nodes : Ptr → Option Node) : Nat → Ptr → List Ptr
  | 0, _ => []
  | k + 1, p =>
    match deref nodes p with
    | none => []
    | some n => n.itsElement :: walkPrev nodes k n.itsPrevious

/-- The elements of the list from head to tail (`size()` steps of `next()`). -/
def MemList.elements (l : MemList) : List Ptr :=
  walkNext l.nodes l.itsSize l.itsFirst

/-- The constant `MemMngr::ALLOCLIMIT`. -/
def ALLOCLIMIT : Nat := 1073741824

/-- The class `MemMngr`: its three counters, the list it owns, and the store of
the `MemEntry_t` objects it allocates in `memAlloc` and frees in `memFree`. -/
structure MemMngr where
  itsAllocCounter : Nat
  itsMemSize : Nat
  itsMemSizeMax : Nat
  itsMemEntries : MemList
  entries : Ptr → Option MemEntry

/-- The constructor `MemMngr::MemMngr`. -/
def MemMngr.fresh : MemMngr :=
  { itsAllocCounter := 0, itsMemSize := 0, itsMemSizeMax := 0,
    itsMemEntries := MemList.init, entries := fun _ => none }

/-- The method `MemMngr::printAlloc`. -/
def printAlloc (entry : MemEntry) : List Tok :=
  [Tok.str "operator new",
   Tok.str (if entry.itsType = MemType.Array then "[]" else "  "),
   Tok.str "(", Tok.num entry.itsSize, Tok.str "):\t", Tok.ptr entry.itsMemPtr,
   Tok.str ": #", Tok.num entry.itsAllocNumber, Tok.endl]

/-- The text `printFree` adds when the kinds differ. -/
def WRONG_DELETE : String := ", *** Wrong delete ***"

/-- The method `MemMngr::printFree`.  `file` and `line` are not printed. -/
def printFree (type : MemType) (entry : MemEntry) (_file : Option String) (_line : Nat) :
    List Tok :=
  [Tok.str "operator delete",
   Tok.str (if type = MemType.Array then "[]" else "  "),
   Tok.str ":", Tok.str "\t", Tok.ptr entry.itsMemPtr, Tok.str ", ", Tok.str "#",
   Tok.num entry.itsAllocNumber]
  ++ (if type ≠ entry.itsType then [Tok.str WRONG_DELETE] else [])
  ++ [Tok.endl]

/-- The check `assert(itsMemSize + size < ALLOCLIMIT)`; the sum is formed in
`size_t`. -/
def MemMngr.ceilingOk (m : MemMngr) (size : Nat) : Bool :=
  decide ((m.itsMemSize + size) % SIZE_MOD < ALLOCLIMIT)

/-- The method `MemMngr::memAlloc`.  `entryPtr`, `memPtr` and `nodePtr` are what
the three calls of `malloc` returned: for the `MemEntry_t`, for the requested
block, and (inside `List::add`) for the node. -/
def MemMngr.memAlloc (type : MemType) (size : Nat) (file : Option String) (line : Nat)
    (entryPtr memPtr nodePtr : Ptr) (m : MemMngr) : Except Err (Ptr × List Tok) × MemMngr :=
  if ¬ m.ceilingOk size then (.error .allocLimit, m)
  else if entryPtr = 0 then (.error .bad_alloc, m)
  else
    let m1 := { m with entries := Function.update m.entries entryPtr (some MemEntry.init) }
    if memPtr = 0 then (.error .bad_alloc, m1)
    else
      let memSize := ((m1.itsMemSize + size) % SIZE_MOD) % UINT_MOD
      let m2 := { m1 with
        itsMemSize := memSize,
        itsMemSizeMax := max memSize m1.itsMemSizeMax,
        itsAllocCounter := (m1.itsAllocCounter + 1) % UINT_MOD }
      let entry : MemEntry :=
        { itsMemPtr := memPtr, itsSize := size, itsType := type,
          itsAllocNumber := m2.itsAllocCounter, itsFile := file, itsLine := line }
      let m3 := { m2 with entries := Function.update m2.entries entryPtr (some entry) }
      match m3.itsMemEntries.add entryPtr nodePtr with
      | (.error e, l) => (.error e, { m3 with itsMemEntries := l })
      | (.ok _, l) => (.ok (memPtr, printAlloc entry), { m3 with itsMemEntries := l })

/-- The method `MemMngr::memFree`.  The result of `remove` is ignored, as in
the source; `entry->itsSize` is read after it.  `free(p)` returns the block to
the environment and changes nothing in the manager. -/
def MemMngr.memFree (fuel : Nat) (type : MemType) (p : Ptr) (file : Option String)
    (line : Nat) (m : MemMngr) : Except Err (List Tok) × MemMngr :=
  match m.itsMemEntries.getEntry fuel m.entries p with
  | .error e => (.error e, m)
  | .ok entry =>
    match m.itsMemEntries.remove fuel entry with
    | (.error e, l) => (.error e, { m with itsMemEntries := l })
    | (.ok _, l) =>
      match deref m.entries entry with
      | none => (.error .undefined, { m with itsMemEntries := l })
      | some r =>
        (.ok (printFree type r file line),
          { m with
            itsMemEntries := l,
            itsMemSize := ((m.itsMemSize + SIZE_MOD - r.itsSize % SIZE_MOD) % SIZE_MOD) % UINT_MOD,
            entries := Function.update m.entries entry none })

/-- The records of the registry from head to tail. -/
def MemMngr.records (m : MemMngr) : List MemEntry :=
  m.itsMemEntries.elements.filterMap (deref m.entries)

/-! ## The shape of a well-formed list -/

/-- A node address paired with the element pointer stored in that node. -/
abbrev Cell := Ptr × Ptr

/-- The address of the first cell, or `nxt` when there is none. -/
def hdAddr (nxt : Ptr) : List Cell → Ptr
  | [] => nxt
  | c :: _ => c.1

/-- The address of the last cell, or `prev` when there is none. -/
def lastAddr (prev : Ptr) : List Cell → Ptr
  | [] => prev
  | c :: cs => lastAddr c.1 cs

/-- The store holds the cells `cs` as a doubly-linked segment: the first node
points back to `prev`, the last node points forward to `nxt`, and neighbours
point at each other. -/
def Seg (nodes : Ptr → Option Node) (nxt : Ptr) : Ptr → List Cell → Prop
  | _, [] => True
  | prev, c :: cs =>
    c.1 ≠ 0 ∧ nodes c.1 = some ⟨c.2, prev, hdAddr nxt cs⟩ ∧ Seg nodes nxt c.1 cs

/-- The list object `l` represents the cells `cs` (head to tail). -/
structure MemList.Repr (l : MemList) (cs : List Cell) : Prop where
  seg : Seg l.nodes 0 0 cs
  nodup : (cs.map Prod.fst).Nodup
  first : l.itsFirst = hdAddr 0 cs
  last : l.itsLast = lastAddr 0 cs
  size : l.itsSize = cs.length

/-! ## The registry behind a manager -/

/-- A cell of the registry together with the record its element points to. -/
abbrev Slot := Cell × MemEntry

/-- The registry of `m` is a well-formed list over the cells of `xs`, the
element pointer of every cell refers to the live record paired with it, no
record is linked twice and `itsSize` has not wrapped. -/
structure MemMngr.Inv (m : MemMngr) (xs : List Slot) : Prop where
  repr : m.itsMemEntries.Repr (xs.map Prod.fst)
  recs : ∀ x ∈ xs, deref m.entries x.1.2 = some x.2
  elems : (xs.map (fun x => x.1.2)).Nodup
  small : xs.length < UINT_MOD

/-- The record `memAlloc` stores for a request. -/
def MemMngr.newEntry (m : MemMngr) (type : MemType) (size : Nat) (file : Option String)
    (line : Nat) (memPtr : Ptr) : MemEntry :=
  { itsMemPtr := memPtr, itsSize := size, itsType := type,
    itsAllocNumber := (m.itsAllocCounter + 1) % UINT_MOD, itsFile := file, itsLine := line }

/-- The state of `memAlloc` after "update statistics" and "manage entry", just
before `itsMemEntries->add(entry)`. -/
def MemMngr.booked (m : MemMngr) (size : Nat) (entryPtr : Ptr) (entry : MemEntry) : MemMngr :=
  { itsAllocCounter := (m.itsAllocCounter + 1) % UINT_MOD,
    itsMemSize := ((m.itsMemSize + size) % SIZE_MOD) % UINT_MOD,
    itsMemSizeMax := max (((m.itsMemSize + size) % SIZE_MOD) % UINT_MOD) m.itsMemSizeMax,
    itsMemEntries := m.itsMemEntries,
    entries := Function.update m.entries entryPtr (some entry) }

/-- The registry of `m` is a well-formed doubly-linked list of live records. -/
def MemMngr.WellFormed (m : MemMngr) : Prop := ∃ xs, m.Inv xs

/-- The sum of the `itsSize` fields of a list of records. -/
def sumSizes (rs : List MemEntry) : Nat := (rs.map MemEntry.itsSize).sum

/-- A consistent manager state: the registry is a well-formed list of live
records, `itsMemSize` accounts for every record in it and is below the limit,
and `itsMemSizeMax` is not below `itsMemSize`. -/
structure MemMngr.Valid (m : MemMngr) : Prop where
  inv : m.WellFormed
  bytes : sumSizes m.records ≤ m.itsMemSize
  limit : m.itsMemSize < ALLOCLIMIT
  peak : m.itsMemSize ≤ m.itsMemSizeMax

/-! ## Sequences of calls -/

/-- The largest request `malloc` can satisfy (`PTRDIFF_MAX`). -/
def PTRDIFF_MAX : Nat := 9223372036854775807

/-- A call of one of the two public methods of `MemMngr`.  A `memAlloc` call
carries what its three `malloc` calls return. -/
inductive Call
  | memAlloc (type : MemType) (size : Nat) (file : Option String) (line : Nat)
      (entryPtr memPtr nodePtr : Ptr)
  | memFree (type : MemType) (p : Ptr) (file : Option String) (line : Nat)

/-- Running one call: whether it returned, and the state it left. -/
def Call.exec (fuel : Nat) : Call → MemMngr → Except Err Unit × MemMngr
  | .memAlloc type size file line entryPtr memPtr nodePtr, m =>
    let r := m.memAlloc type size file line entryPtr memPtr nodePtr
    (r.1.map (fun _ => ()), r.2)
  | .memFree type p file line, m =>
    let r := m.memFree fuel type p file line
    (r.1.map (fun _ => ()), r.2)

/-- What the environment guarantees for a call made in state `m`: the arguments
are `size_t` values, `malloc` returns `NULL` or an address that holds no live
object, and it never satisfies a request above `PTRDIFF_MAX`. -/
def Call.Allowed : Call → MemMngr → Prop
  | .memAlloc _ size _ line entryPtr memPtr nodePtr, m =>
    size < SIZE_MOD ∧ line < SIZE_MOD ∧
    (entryPtr ≠ 0 → m.entries entryPtr = none) ∧
    (nodePtr ≠ 0 → m.itsMemEntries.nodes nodePtr = none) ∧
    (memPtr ≠ 0 → size ≤ PTRDIFF_MAX)
  | .memFree _ _ _ line, _ => line < SIZE_MOD

/-- The process is still running after the call: it returned, or it threw
`bad_alloc` (which the caller may catch). -/
def survives : Except Err Unit → Bool
  | .ok _ => true
  | .error .bad_alloc => true
  | .error _ => false

/-- One executed call: its fuel, the call, and the state it was made in. -/
structure Event where
  fuel : Nat
  call : Call
  before : MemMngr

/-- The outcome of an executed call. -/
def Event.result (ev : Event) : Except Err Unit := (ev.call.exec ev.fuel ev.before).1

/-- The state after an executed call. -/
def Event.after (ev : Event) : MemMngr := (ev.call.exec ev.fuel ev.before).2

/-- The call is a `memAlloc` that returned. -/
def Event.allocOk (ev : Event) : Bool :=
  match ev.call, ev.result with
  | .memAlloc .., .ok _ => true
  | _, _ => false

/-- The call is a `memFree` that returned. -/
def Event.freeOk (ev : Event) : Bool :=
  match ev.call, ev.result with
  | .memFree .., .ok _ => true
  | _, _ => false

/-- The state `m` is reached from a freshly constructed manager by the calls
of `log` (most recent first), each made under the guarantees of the
environment and each leaving the process running. -/
inductive Run : List Event → MemMngr → Prop
  | fresh : Run [] MemMngr.fresh
  | step {log : List Event} {m : MemMngr} (fuel : Nat) (call : Call) :
      Run log m → call.Allowed m → survives (call.exec fuel m).1 = true →
      Run (⟨fuel, call, m⟩ :: log) (call.exec fuel m).2

/-- The values `itsMemSize` has had: initially and after every call of the log. -/
def liveHistory (log : List Event) : List Nat :=
  log.map (fun ev => ev.after.itsMemSize) ++ [MemMngr.fresh.itsMemSize]

/-- The largest element of a list of numbers. -/
def maxOf : List Nat → Nat
  | [] => 0
  | x :: xs => max x (maxOf xs)

/-- The block address `malloc` returned to a `memAlloc` call has no record in
the registry of `m`. -/
def Call.FreshBlock : Call → MemMngr → Prop
  | .memAlloc _ _ _ _ _ memPtr _, m => memPtr ≠ 0 → ∀ r ∈ m.records, r.itsMemPtr ≠ memPtr
  | .memFree .., _ => True

/-- Every `memAlloc` of the log got from `malloc` a block address that had no
record in the registry at that moment. -/
def AddrFresh (log : List Event) : Prop :=
  ∀ ev ∈ log, ev.call.FreshBlock ev.before

/-- The number of `memAlloc` calls of the log that returned. -/
def allocsOk (log : List Event) : Nat := log.countP Event.allocOk

/-- The number of `memFree` calls of the log that returned. -/
def freesOk (log : List Event) : Nat := log.countP Event.freeOk

/-- The bytes a call added to `itsMemSize` without adding a record: the size
of a `memAlloc` request whose entry and block were allocated but for which
`malloc` returned `NULL` inside `List::add`. -/
def Event.lostBytes (ev : Event) : Nat :=
  match ev.call with
  | .memAlloc _ size _ _ entryPtr memPtr nodePtr =>
    if entryPtr ≠ 0 ∧ memPtr ≠ 0 ∧ nodePtr = 0 ∧ ev.result = .error .bad_alloc then size else 0
  | .memFree .. => 0

/-- The bytes lost in this way over a whole log. -/
def lostBytes (log : List Event) : Nat := (log.map Event.lostBytes).sum

/-- The guarantees of the environment can be checked on concrete states. -/
instance Call.decAllowed (c : Call) (m : MemMngr) : Decidable (c.Allowed m) :=
  match c with
  | .memAlloc _ size _ line entryPtr memPtr nodePtr =>
    inferInstanceAs (Decidable (size < SIZE_MOD ∧ line < SIZE_MOD ∧
      (entryPtr ≠ 0 → m.entries entryPtr = none) ∧
      (nodePtr ≠ 0 → m.itsMemEntries.nodes nodePtr = none) ∧
      (memPtr ≠ 0 → size ≤ PTRDIFF_MAX)))
  | .memFree _ _ _ line => inferInstanceAs (Decidable (line < SIZE_MOD))

/-! ## Concrete calls used as examples

Calls in the style of `Demo.cpp` (`new int`, `new int[100]`, `delete pi1`),
with addresses chosen for the three `malloc` results of each allocation. -/

/-- The sentinel `UNKNOWN` of `MemMngr_brugr9.cpp`. -/
def UNKNOWN : String := "<unknown>"

/-- A `memAlloc` call as `new int` makes it, with call site `Demo.cpp:62`. -/
def demoAlloc1 : Call := .memAlloc .Single 4 (some "Demo.cpp") 62 100 200 300

/-- A `memAlloc` call as `new int[100]` makes it, with call site `Demo.cpp:63`. -/
def demoAlloc2 : Call := .memAlloc .Array 400 (some "Demo.cpp") 63 101 201 301

/-- The `memFree` call as `delete pi1` makes it. -/
def demoFree1 : Call := .memFree .Single 200 (some UNKNOWN) 0

/-- The state after `demoAlloc1`. -/
def demoState1 : MemMngr := (demoAlloc1.exec 0 MemMngr.fresh).2

/-- The state after `demoAlloc1`, `demoAlloc2`. -/
def demoState2 : MemMngr := (demoAlloc2.exec 0 demoState1).2

/-- The state after `demoAlloc1`, `demoAlloc2`, `demoFree1`. -/
def demoState3 : MemMngr := (demoFree1.exec 2 demoState2).2

/-- The log of the two allocations. -/
def demoLog2 : List Event :=
  [⟨0, demoAlloc2, demoState1⟩, ⟨0, demoAlloc1, MemMngr.fresh⟩]

/-- The log of the two allocations and the release. -/
def demoLog3 : List Event := ⟨2, demoFree1, demoState2⟩ :: demoLog2

/-- A `new int` for which `malloc` returns `NULL` inside `List::add`. -/
def lostAlloc : Call := .memAlloc .Single 4 (some UNKNOWN) 0 100 200 0

/-- The state after `lostAlloc` on a fresh manager. -/
def lostState : MemMngr := (lostAlloc.exec 0 MemMngr.fresh).2

/-- The record stored by `demoAlloc1`. -/
def demoEntry1 : MemEntry :=
  { itsMemPtr := 200, itsSize := 4, itsType := .Single, itsAllocNumber := 1,
    itsFile := some "Demo.cpp", itsLine := 62 }

/-- The record stored by `demoAlloc2`. -/
def demoEntry2 : MemEntry :=
  { itsMemPtr := 201, itsSize := 400, itsType := .Array, itsAllocNumber := 2,
    itsFile := some "Demo.cpp", itsLine := 63 }

/-- The addresses of the records of the registry, head to tail. -/
def MemMngr.addresses (m : MemMngr) : List Ptr := m.records.map MemEntry.itsMemPtr

/-- What claim C8 says about one executed call: a `memAlloc` that returned has
appended one record for the returned address, carrying the requested size and
kind, and that address now has exactly one record; an address that had exactly
one record before the call still has exactly one unless the call is a `memFree`
of that address, in which case it has none. -/
def Event.KeepsAddresses (ev : Event) : Prop :=
  (∀ type size file line e p n, ev.call = .memAlloc type size file line e p n →
      ev.result = .ok () →
      ∃ r, ev.after.records = ev.before.records ++ [r] ∧ r.itsMemPtr = p ∧
        r.itsSize = size ∧ r.itsType = type ∧ ev.after.addresses.count p = 1) ∧
    (∀ p, ev.before.addresses.count p = 1 →
      ((∀ type file line, ev.call ≠ .memFree type p file line) →
          ev.after.addresses.count p = 1) ∧
        ((∃ type file line, ev.call = .memFree type p file line) →
          ev.after.addresses.count p = 0))

/-! ## Lists on their own -/

/-- Following `itsNext` from `p` until `NULL`: the nodes visited, at most `k`. -/
def chainNext (nodes : Ptr → Option Node) : Nat → Ptr → List Ptr
  | 0, _ => []
  | k + 1, p =>
    match deref nodes p with
    | none => []
    | some n => p :: chainNext nodes k n.itsNext

/-- Following `itsPrevious` from `p` until `NULL`: the nodes visited, at most `k`. -/
def chainPrev (nodes : Ptr → Option Node) : Nat → Ptr → List Ptr
  | 0, _ => []
  | k + 1, p =>
    match deref nodes p with
    | none => []
    | some n => p :: chainPrev nodes k n.itsPrevious

/-- The list `l` is reached from an empty list by calls of `List::add` and
`List::remove` that return or throw `bad_alloc`; `malloc` hands `add` either
`NULL` or an address that holds no live node. -/
inductive ListRun : MemList → Prop
  | init : ListRun MemList.init
  | add {l : MemList} (element node : Ptr) :
      ListRun l → (node ≠ 0 → l.nodes node = none) →
      ((l.add element node).1 = .ok true ∨ (l.add element node).1 = .error .bad_alloc) →
      ListRun (l.add element node).2
  | remove {l : MemList} (fuel : Nat) (element : Ptr) :
      ListRun l → (∃ b, (l.remove fuel element).1 = .ok b) →
      ListRun (l.remove fuel element).2

/-- The list after `add(10)`, `add(20)`, `add(30)` with nodes 300, 301, 302. -/
def demoList3 : MemList :=
  (((MemList.init.add 10 300).2.add 20 301).2.add 30 302).2

/-- The list `demoList3` after `remove(20)`. -/
def demoList2 : MemList := (demoList3.remove 3 20).2

/-! ## Teardown -/

/-- The method `List::clear` of `List<MemEntry_t*>`.  `element` is the `T*`
stored in the last node; `*element` reads a `MemEntry_t*` at that address, which
is where `add` was given a `MemEntry_t`, so the value read is the first member
of that record, `itsMemPtr`; reading through a freed record is undefined.
`rfuel` is the fuel of each `remove`, the other number bounds the iterations of
the `do ... while`. -/
def MemList.clear (rfuel : Nat) (entries : Ptr → Option MemEntry) :
    Nat → MemList → Except Err Unit × MemList
  | fuel, l =>
    match deref l.nodes l.itsLast with
    | none => (.error .undefined, l)
    | some n =>
      match deref entries n.itsElement with
      | none => (.error .undefined, l)
      | some r =>
        match l.remove rfuel r.itsMemPtr with
        | (.error e, l2) => (.error e, l2)
        | (.ok false, l2) => (.ok (), l2)
        | (.ok true, l2) =>
          match fuel with
          | 0 => (.error .fuel, l2)
          | k + 1 => MemList.clear rfuel entries k l2

/-- The line of dashes `atExit` prints first and last. -/
def DASHES : String := "--------------------------------------------------------"

/-- The insertions of `atExit` for one leaked record. -/
def leakLine (r : MemEntry) (file : String) : List Tok :=
  [Tok.str "#", Tok.num r.itsAllocNumber, Tok.str ",",
   Tok.str "\t", Tok.ptr r.itsMemPtr, Tok.str ", size: ", Tok.num r.itsSize,
   Tok.str "\t", Tok.str file, Tok.str ":", Tok.num r.itsLine,
   Tok.endl]

/-- The `do ... while (node)` loop of `atExit`, started with `node`: it prints
the record of the node, frees the block and the record, and goes to the
previous node.  Inserting a `NULL` `const char*` into `cout` is undefined. -/
def atExitLoop (nodes : Ptr → Option Node) :
    Nat → Ptr → (Ptr → Option MemEntry) → Except Err (List Tok) × (Ptr → Option MemEntry)
  | fuel, node, entries =>
    match deref nodes node with
    | none => (.error .undefined, entries)
    | some n =>
      match deref entries n.itsElement with
      | none => (.error .undefined, entries)
      | some r =>
        match r.itsFile with
        | none => (.error .undefined, entries)
        | some f =>
          let entries2 := Function.update entries n.itsElement none
          if n.itsPrevious = 0 then (.ok (leakLine r f), entries2)
          else
            match fuel with
            | 0 => (.error .fuel, entries2)
            | k + 1 =>
              match atExitLoop nodes k n.itsPrevious entries2 with
              | (.error e, entries3) => (.error e, entries3)
              | (.ok out, entries3) => (.ok (leakLine r f ++ out), entries3)

/-- The statistics lines of `atExit`. -/
def reportHead (leaks memSize memSizeMax : Nat) : List Tok :=
  [Tok.str DASHES, Tok.endl,
   Tok.str "MemMngr::atExit()", Tok.endl,
   Tok.str "No. of memory leaks: ", Tok.str "\t", Tok.num leaks, Tok.endl,
   Tok.str "Total size of leaks: ", Tok.str "\t", Tok.num memSize, Tok.str " bytes", Tok.endl,
   Tok.str "Max. memory used: ", Tok.str "\t", Tok.num memSizeMax, Tok.str " bytes", Tok.endl]

/-- The insertions of `atExit` between the statistics and the leak lines. -/
def leaksTitle : List Tok := [Tok.endl, Tok.str "Memory leaks:", Tok.endl]

/-- The closing line of `atExit`. -/
def reportFoot : List Tok := [Tok.str DASHES, Tok.endl]

/-- The method `MemMngr::atExit`.  It is `const` but frees the records. -/
def MemMngr.atExit (fuel : Nat) (m : MemMngr) : Except Err (List Tok) × MemMngr :=
  let leaks := m.itsMemEntries.size
  let head := reportHead leaks m.itsMemSize m.itsMemSizeMax
  if leaks ≠ 0 then
    match atExitLoop m.itsMemEntries.nodes fuel m.itsMemEntries.last m.entries with
    | (.error e, entries2) => (.error e, { m with entries := entries2 })
    | (.ok out, entries2) =>
      (.ok (head ++ leaksTitle ++ out ++ reportFoot), { m with entries := entries2 })
  else (.ok (head ++ reportFoot), m)

/-- The destructor `MemMngr::~MemMngr`: `atExit()`, then the destructor of the
list, which is `clear()`.  The final `free(itsMemEntries)` is not modelled. -/
def MemMngr.destroy (fuel : Nat) (m : MemMngr) : Except Err (List Tok) × MemMngr :=
  match m.atExit fuel with
  | (.error e, m1) => (.error e, m1)
  | (.ok out, m1) =>
    match m1.itsMemEntries.clear fuel m1.entries fuel with
    | (.error e, l) => (.error e, { m1 with itsMemEntries := l })
    | (.ok _, l) => (.ok out, { m1 with itsMemEntries := l })

/-- The report as the specification describes it: the leak count, the total of
leaked bytes and the peak, then, when there are leaks, one line per leaked
record in the order given, each with sequence number, address, size and
call-site file and line. -/
def shutdownReport (count liveBytes peakBytes : Nat) (leaks : List MemEntry) : List Tok :=
  reportHead count liveBytes peakBytes
    ++ (if leaks = [] then []
        else leaksTitle ++ (leaks.map (fun r => leakLine r (r.itsFile.getD ""))).flatten)
    ++ reportFoot

/-! ## The four hooks of `MemMngr_brugr9.cpp` -/

/-- The globals of `MemMngr_brugr9.cpp`: the manager `memMngr` and the pending
call site `__file__`, `__line__`. -/
structure Globals where
  memMngr : MemMngr
  file : Option String
  line : Nat

/-- The globals after static initialisation. -/
def Globals.start : Globals :=
  { memMngr := MemMngr.fresh, file := some UNKNOWN, line := 0 }

/-- The assignments `__file__=__FILE__, __line__=__LINE__` of the macro `new`. -/
def Globals.capture (file : String) (line : Nat) (g : Globals) : Globals :=
  { g with file := some file, line := line }

/-- The hook `operator new`.  When `memAlloc` throws, the two assignments after
it are not executed. -/
def operatorNew (size : Nat) (entryPtr memPtr nodePtr : Ptr) (g : Globals) :
    Except Err (Ptr × List Tok) × Globals :=
  match g.memMngr.memAlloc .Single size g.file g.line entryPtr memPtr nodePtr with
  | (.error e, m) => (.error e, { g with memMngr := m })
  | (.ok r, m) => (.ok r, { memMngr := m, file := some UNKNOWN, line := 0 })

/-- The hook `operator new[]`. -/
def operatorNewArray (size : Nat) (entryPtr memPtr nodePtr : Ptr) (g : Globals) :
    Except Err (Ptr × List Tok) × Globals :=
  match g.memMngr.memAlloc .Array size g.file g.line entryPtr memPtr nodePtr with
  | (.error e, m) => (.error e, { g with memMngr := m })
  | (.ok r, m) => (.ok r, { memMngr := m, file := some UNKNOWN, line := 0 })

/-- The hook `operator delete`. -/
def operatorDelete (fuel : Nat) (p : Ptr) (g : Globals) : Except Err (List Tok) × Globals :=
  match g.memMngr.memFree fuel .Single p g.file g.line with
  | (.error e, m) => (.error e, { g with memMngr := m })
  | (.ok out, m) => (.ok out, { memMngr := m, file := some UNKNOWN, line := 0 })

/-- The hook `operator delete[]`. -/
def operatorDeleteArray (fuel : Nat) (p : Ptr) (g : Globals) :
    Except Err (List Tok) × Globals :=
  match g.memMngr.memFree fuel .Array p g.file g.line with
  | (.error e, m) => (.error e, { g with memMngr := m })
  | (.ok out, m) => (.ok out, { memMngr := m, file := some UNKNOWN, line := 0 })

/-- The pending call site after the macro `new` at `Demo.cpp:62`. -/
def hookStart : Globals := Globals.start.capture "Demo.cpp" 62

/-- `operator new(4)` for which `malloc` returns `NULL` for the block. -/
def hookFailed : Except Err (Ptr × List Tok) × Globals := operatorNew 4 100 0 0 hookStart

/-- A later `operator new(4)`, reached without the macro, that succeeds. -/
def hookLater : Except Err (Ptr × List Tok) × Globals := operatorNew 4 101 201 301 hookFailed.2

/-! ## Sequence numbers -/

/-- The call reached "update statistics" in `memAlloc`: the assertion held and
`malloc` returned a record and a block. -/
def Event.booked (ev : Event) : Bool :=
  match ev.call with
  | .memAlloc _ size _ _ entryPtr memPtr _ =>
    ev.before.ceilingOk size && (decide (entryPtr ≠ 0) && decide (memPtr ≠ 0))
  | .memFree .. => false

/-- The number of calls of the log that reached "update statistics". -/
def bookings (log : List Event) : Nat := log.countP Event.booked

/-- The sequence number a `memAlloc` that returned has stored: the
`itsAllocNumber` of the tail record after the call. -/
def Event.assigned (ev : Event) : Option Nat :=
  if ev.allocOk then ev.after.records.getLast?.map MemEntry.itsAllocNumber else none

/-- A manager with an empty registry, no live record, and the given counter
and peak. -/
def idle (counter peak : Nat) : MemMngr :=
  { itsAllocCounter := counter, itsMemSize := 0, itsMemSizeMax := peak,
    itsMemEntries := MemList.init, entries := fun _ => none }

/-- The call of `new char`: one byte, record at 100, block at 200, node at 300. -/
def cycleAlloc : Call := .memAlloc .Single 1 (some UNKNOWN) 0 100 200 300

/-- The call of `delete` for the block at 200. -/
def cycleFree : Call := .memFree .Single 200 (some UNKNOWN) 0

/-- The state after `n` rounds of `new char` followed by `delete`. -/
def cycleState : Nat → MemMngr
  | 0 => MemMngr.fresh
  | n + 1 => (cycleFree.exec 1 (cycleAlloc.exec 0 (cycleState n)).2).2

/-- The log of `n` rounds of `new char` followed by `delete`. -/
def cycleLog : Nat → List Event
  | 0 => []
  | n + 1 =>
    ⟨1, cycleFree, (cycleAlloc.exec 0 (cycleState n)).2⟩ ::
      ⟨0, cycleAlloc, cycleState n⟩ :: cycleLog n

/-- The state between `new char` and `delete` in a round: one record at 100 for
the block at 200, linked by the node at 300. -/
def busy (counter peak : Nat) : MemMngr :=
  { itsAllocCounter := counter, itsMemSize := 1, itsMemSizeMax := peak,
    itsMemEntries :=
      { itsSize := 1, itsFirst := 300, itsLast := 300,
        nodes := Function.update (fun _ => none) 300 (some ⟨100, 0, 0⟩) },
    entries := Function.update (fun _ => none) 100
      (some ⟨200, 1, .Single, counter, some UNKNOWN, 0⟩) }

/-! ## Arithmetic on `itsMemSize` -/

/-- The arithmetic of the call on `itsMemSize` did not wrap: a `memAlloc` has
left `itsMemSize` alone or has added `size` to it with a sum below the limit, a
`memFree` has subtracted the size of a record of the released address, which
was not larger than `itsMemSize`. -/
def Event.NoWrap (ev : Event) : Prop :=
  match ev.call with
  | .memAlloc _ size _ _ _ _ _ =>
    ev.after.itsMemSize = ev.before.itsMemSize ∨
      (ev.after.itsMemSize = ev.before.itsMemSize + size ∧
        ev.before.itsMemSize + size < ALLOCLIMIT)
  | .memFree _ p _ _ =>
    ∃ r ∈ ev.before.records, r.itsMemPtr = p ∧ r.itsSize ≤ ev.before.itsMemSize ∧
      ev.after.itsMemSize + r.itsSize = ev.before.itsMemSize

/-- A request of `2^64 - 404` bytes made in `demoState2`, where `itsMemSize` is
404: the sum wraps to 0 in `size_t`, the assertion holds, and `malloc` returns
`NULL` for the block. -/
def hugeAlloc : Call := .memAlloc .Array 18446744073709551212 (some UNKNOWN) 0 102 0 0

/-- The state after `hugeAlloc`. -/
def hugeState : MemMngr := (hugeAlloc.exec 0 demoState2).2

/-- The log of the two allocations and `hugeAlloc`. -/
def hugeLog : List Event := ⟨0, hugeAlloc, demoState2⟩ :: demoLog2

/-- The same request with a `malloc` that returns a block for it. -/
def servedHugeAlloc : Call := .memAlloc .Array 18446744073709551212 (some UNKNOWN) 0 102 202 302

/-! ## A record without a file name -/

@[simp]
theorem hdAddr_nil (nxt : Ptr) : hdAddr nxt [] = nxt := rfl

@[simp]
theorem hdAddr_cons (nxt : Ptr) (c : Cell) (cs : List Cell) :
    hdAddr nxt (c :: cs) = c.1 := rfl

@[simp]
theorem lastAddr_nil (prev : Ptr) : lastAddr prev [] = prev := rfl

@[simp]
theorem lastAddr_cons (prev : Ptr) (c : Cell) (cs : List Cell) :
    lastAddr prev (c :: cs) = lastAddr c.1 cs := rfl

@[simp]
theorem Seg_nil (nodes : Ptr → Option Node) (nxt prev : Ptr) :
    Seg nodes nxt prev [] ↔ True := Iff.rfl

theorem Seg_cons (nodes : Ptr → Option Node) (nxt prev : Ptr) (c : Cell) (cs : List Cell) :
    Seg nodes nxt prev (c :: cs) ↔
      c.1 ≠ 0 ∧ nodes c.1 = some ⟨c.2, prev, hdAddr nxt cs⟩ ∧ Seg nodes nxt c.1 cs := Iff.rfl

theorem lastAddr_append (prev : Ptr) (xs ys : List Cell) :
    lastAddr prev (xs ++ ys) = lastAddr (lastAddr prev xs) ys := by
  induction xs generalizing prev with
  | nil => rfl
  | cons c xs ih => simpa using ih c.1

theorem hdAddr_append (nxt : Ptr) (xs ys : List Cell) :
    hdAddr nxt (xs ++ ys) = hdAddr (hdAddr nxt ys) xs := by
  cases xs <;> rfl

theorem Seg_append (nodes : Ptr → Option Node) (nxt prev : Ptr) (xs ys : List Cell) :
    Seg nodes nxt prev (xs ++ ys) ↔
      Seg nodes (hdAddr nxt ys) prev xs ∧ Seg nodes nxt (lastAddr prev xs) ys := by
  induction xs generalizing prev with
  | nil => simp
  | cons c xs ih =>
    rw [List.cons_append, Seg_cons, Seg_cons, ih c.1, hdAddr_append, lastAddr_cons]
    tauto

theorem Seg_frame {nodes nodes2 : Ptr → Option Node} {nxt prev : Ptr} {cs : List Cell}
    (h : Seg nodes nxt prev cs) (hf : ∀ c ∈ cs, nodes2 c.1 = nodes c.1) :
    Seg nodes2 nxt prev cs := by
  induction cs generalizing prev with
  | nil => trivial
  | cons c cs ih =>
    obtain ⟨h0, h1, h2⟩ := h
    refine ⟨h0, ?_, ih h2 (fun d hd => hf d (List.mem_cons_of_mem _ hd))⟩
    rw [hf c (List.mem_cons_self _ _)]; exact h1

theorem Seg_ne_zero {nodes : Ptr → Option Node} {nxt prev : Ptr} {cs : List Cell}
    (h : Seg nodes nxt prev cs) : ∀ c ∈ cs, c.1 ≠ 0 := by
  induction cs generalizing prev with
  | nil => intro c hc; cases hc
  | cons d cs ih =>
    intro c hc
    rcases List.mem_cons.1 hc with rfl | hc
    · exact h.1
    · exact ih h.2.2 c hc

theorem Seg_live {nodes : Ptr → Option Node} {nxt prev : Ptr} {cs : List Cell}
    (h : Seg nodes nxt prev cs) : ∀ c ∈ cs, ∃ n, nodes c.1 = some n ∧ n.itsElement = c.2 := by
  induction cs generalizing prev with
  | nil => intro c hc; cases hc
  | cons d cs ih =>
    intro c hc
    rcases List.mem_cons.1 hc with rfl | hc
    · exact ⟨_, h.2.1, rfl⟩
    · exact ih h.2.2 c hc

theorem lastAddr_ne_zero {nodes : Ptr → Option Node} {nxt prev : Ptr} {cs : List Cell}
    (h : Seg nodes nxt prev cs) (hne : cs ≠ []) (p : Ptr) : lastAddr p cs ≠ 0 := by
  obtain ⟨xs, c, rfl⟩ : ∃ xs c, cs = xs ++ [c] := by
    rcases List.eq_nil_or_concat cs with h0 | ⟨xs, c, h1⟩
    · exact absurd h0 hne
    · exact ⟨xs, c, by simpa using h1⟩
  rw [lastAddr_append]
  exact Seg_ne_zero h c (by simp)

theorem walkNext_of_Seg {nodes : Ptr → Option Node} {nxt prev : Ptr} {cs : List Cell}
    (h : Seg nodes nxt prev cs) :
    walkNext nodes cs.length (hdAddr nxt cs) = cs.map Prod.snd := by
  induction cs generalizing prev with
  | nil => rfl
  | cons c cs ih =>
    obtain ⟨h0, h1, h2⟩ := h
    simp [walkNext, deref, h0, h1, ih h2]

theorem MemList.Repr.elements {l : MemList} {cs : List Cell} (h : l.Repr cs) :
    l.elements = cs.map Prod.snd := by
  unfold MemList.elements
  rw [h.size, h.first]
  exact walkNext_of_Seg h.seg

/-! ## `List::add` on a well-formed list -/

theorem linkAfter_eq {mem : Ptr → Option Node} {tail node : Ptr} {t n : Node}
    (ht : tail ≠ 0) (hn : node ≠ 0) (hne : tail ≠ node)
    (h1 : mem tail = some t) (h2 : mem node = some n) :
    linkAfter mem tail node =
      some (Function.update (Function.update mem tail (some { t with itsNext := node }))
        node (some { n with itsPrevious := tail })) := by
  simp [linkAfter, modify, deref, ht, hn, h1, h2, Function.update_noteq (Ne.symm hne)]

theorem MemList.add_linked {l : MemList} {xs : List Cell} {c : Cell}
    (h : l.Repr (xs ++ [c])) (mem0 : Ptr → Option Node) (node : Ptr) :
    (match l.itsSize with
      | 0 => some mem0
      | 1 => linkAfter mem0 l.itsFirst node
      | _ => linkAfter mem0 l.itsLast node) = linkAfter mem0 c.1 node := by
  have hl : l.itsLast = c.1 := by rw [h.last, lastAddr_append]; rfl
  cases xs with
  | nil =>
    have hs : l.itsSize = 1 := by rw [h.size]; rfl
    have hf : l.itsFirst = c.1 := by rw [h.first]; rfl
    rw [hs, hf]
  | cons d ds =>
    have hs : l.itsSize = ds.length + 1 + 1 := by rw [h.size]; simp
    rw [hs, hl]
    rfl

theorem MemList.add_spec {l : MemList} {cs : List Cell} (h : l.Repr cs)
    (hsz : cs.length + 1 < UINT_MOD) (element node : Ptr) (hn : node ≠ 0)
    (hfresh : l.nodes node = none) :
    (l.add element node).1 = .ok true ∧
      (l.add element node).2.Repr (cs ++ [(node, element)]) := by
  have hsize : l.itsSize + 1 < UINT_MOD := by rw [h.size]; exact hsz
  have hmod : (l.itsSize + 1) % UINT_MOD = l.itsSize + 1 := Nat.mod_eq_of_lt hsize
  have hnotin : ∀ d ∈ cs, d.1 ≠ node := by
    intro d hd he
    obtain ⟨n, hn1, _⟩ := Seg_live h.seg d hd
    rw [he, hfresh] at hn1; cases hn1
  have hnd : ((cs ++ [(node, element)]).map Prod.fst).Nodup := by
    rw [List.map_append, List.nodup_append]
    refine ⟨h.nodup, by simp, ?_⟩
    intro a ha hb
    simp only [List.map_cons, List.map_nil, List.mem_singleton] at hb
    obtain ⟨d, hd, rfl⟩ := List.mem_map.1 ha
    exact hnotin d hd hb
  rcases List.eq_nil_or_concat cs with rfl | ⟨xs, c, rfl⟩
  · have hs0 : l.itsSize = 0 := h.size
    have hadd : l.add element node = (.ok true,
        { itsSize := 1, itsFirst := node, itsLast := node,
          nodes := Function.update l.nodes node (some ⟨element, 0, 0⟩) }) := by
      unfold MemList.add
      rw [hmod]
      simp only [hs0, Nat.lt_add_one, not_true_eq_false, if_false, hn]
      rfl
    rw [hadd]
    exact ⟨rfl,
      { seg := by simp [Seg_cons, hn]
        nodup := hnd
        first := by simp
        last := by simp
        size := by simp }⟩
  · have hxc : xs.concat c = xs ++ [c] := by simp
    rw [hxc] at h hnotin hnd hsz ⊢
    have hseg := (Seg_append _ _ _ _ _).1 h.seg
    obtain ⟨hsx, hc0, hcn, _⟩ := hseg
    have hcne : c.1 ≠ node := hnotin c (by simp)
    have hspos : l.itsSize ≠ 0 := by rw [h.size]; simp
    have hm0c : Function.update l.nodes node (some ⟨element, 0, 0⟩) c.1
        = some ⟨c.2, lastAddr 0 xs, 0⟩ := by
      rw [Function.update_noteq hcne]; simpa using hcn
    have hm0n : Function.update l.nodes node (some (⟨element, 0, 0⟩ : Node)) node
        = some ⟨element, 0, 0⟩ := Function.update_same _ _ _
    have hadd : l.add element node = (.ok true,
        { itsSize := l.itsSize + 1, itsFirst := l.itsFirst, itsLast := node,
          nodes := Function.update
            (Function.update (Function.update l.nodes node (some ⟨element, 0, 0⟩)) c.1
              (some ⟨c.2, lastAddr 0 xs, node⟩))
            node (some ⟨element, c.1, 0⟩) }) := by
      unfold MemList.add
      rw [hmod]
      simp only [Nat.lt_add_one, not_true_eq_false, if_false, hn, hspos]
      rw [MemList.add_linked h, linkAfter_eq hc0 hn hcne hm0c hm0n]
    rw [hadd]
    have hxnd : ∀ d ∈ xs, d.1 ≠ c.1 := by
      intro d hd he
      have := h.nodup
      rw [List.map_append, List.nodup_append] at this
      exact this.2.2 (List.mem_map_of_mem _ hd) (by simp [he])
    exact ⟨rfl,
      { seg := by
          rw [List.append_assoc, Seg_append]
          refine ⟨?_, ?_⟩
          · refine Seg_frame hsx ?_
            intro d hd
            show Function.update (Function.update (Function.update l.nodes node _) c.1 _)
              node _ d.1 = _
            rw [Function.update_noteq (hnotin d (by simp [hd])),
              Function.update_noteq (hxnd d hd),
              Function.update_noteq (hnotin d (by simp [hd]))]
          · simp [Seg_cons, hn, hc0, Function.update_noteq hcne]
        nodup := hnd
        first := by
          show l.itsFirst = _
          rw [h.first, hdAddr_append, hdAddr_append]
          cases xs <;> rfl
        last := by simp [lastAddr_append]
        size := by simp [h.size] }⟩

/-! ## The backward scans on a well-formed list -/

theorem Seg_last {nodes : Ptr → Option Node} {nxt prev : Ptr} {xs : List Cell} {a : Cell}
    (h : Seg nodes nxt prev (xs ++ [a])) :
    Seg nodes a.1 prev xs ∧ a.1 ≠ 0 ∧ nodes a.1 = some ⟨a.2, lastAddr prev xs, nxt⟩ := by
  obtain ⟨h1, h2, h3, _⟩ := (Seg_append _ _ _ _ _).1 h
  exact ⟨h1, h2, h3⟩

theorem lastAddr_ne_zero_of_prev {nodes : Ptr → Option Node} {nxt prev : Ptr} {cs : List Cell}
    (h : Seg nodes nxt prev cs) {p : Ptr} (hp : p ≠ 0) : lastAddr p cs ≠ 0 := by
  cases cs with
  | nil => exact hp
  | cons c cs => exact lastAddr_ne_zero h (by simp) p

theorem MemList.removeFind_found {nodes : Ptr → Option Node} {element : Ptr} (pre : List Cell)
    (n : Ptr) (post : List Cell) :
    ∀ (nxt prev : Ptr) (fuel : Nat),
      Seg nodes nxt prev (pre ++ (n, element) :: post) →
      (∀ d ∈ post, d.2 ≠ element) → post.length ≤ fuel →
      MemList.removeFind nodes element fuel (lastAddr n post) = .ok (some n) := by
  induction post using List.reverseRecOn with
  | nil =>
    intro nxt prev fuel h _ _
    obtain ⟨_, h2⟩ := (Seg_append _ _ _ _ _).1 h
    obtain ⟨h0, h1, _⟩ := h2
    unfold MemList.removeFind
    simp [deref, h0, h1]
  | append_singleton post d ih =>
    intro nxt prev fuel h habs hf
    have h2 : Seg nodes nxt prev ((pre ++ (n, element) :: post) ++ [d]) := by
      simpa using h
    obtain ⟨hs, hd0, hdn⟩ := Seg_last h2
    have hn0 : n ≠ 0 := ((Seg_append _ _ _ _ _).1 hs).2.1
    have hprev : lastAddr prev (pre ++ (n, element) :: post) = lastAddr n post := by
      rw [lastAddr_append]; rfl
    rw [hprev] at hdn
    have hpne : lastAddr n post ≠ 0 :=
      lastAddr_ne_zero_of_prev ((Seg_append _ _ _ _ _).1 hs).2.2.2 hn0
    have hde : ¬ element = d.2 := fun he => habs d (by simp) he.symm
    obtain ⟨k, rfl⟩ : ∃ k, fuel = k + 1 := by
      cases fuel with
      | zero => simp at hf
      | succ k => exact ⟨k, rfl⟩
    rw [lastAddr_append]
    unfold MemList.removeFind
    simp only [lastAddr_cons, lastAddr_nil, deref, hd0, if_false, hdn, hde, hpne]
    exact ih d.1 prev k hs (fun e he => habs e (by simp [he])) (by simpa using hf)

theorem MemList.removeFind_absent {nodes : Ptr → Option Node} {element : Ptr} (cs : List Cell) :
    ∀ (nxt : Ptr) (fuel : Nat),
      cs ≠ [] → Seg nodes nxt 0 cs → (∀ d ∈ cs, d.2 ≠ element) → cs.length ≤ fuel + 1 →
      MemList.removeFind nodes element fuel (lastAddr 0 cs) = .ok none := by
  induction cs using List.reverseRecOn with
  | nil => intro _ _ h; exact absurd rfl h
  | append_singleton xs d ih =>
    intro nxt fuel _ h habs hf
    obtain ⟨hs, hd0, hdn⟩ := Seg_last h
    have hde : ¬ element = d.2 := fun he => habs d (by simp) he.symm
    rw [lastAddr_append]
    unfold MemList.removeFind
    simp only [lastAddr_cons, lastAddr_nil, deref, hd0, if_false, hdn, hde]
    by_cases hx : xs = []
    · subst hx; simp
    · have hpne : lastAddr 0 xs ≠ 0 := lastAddr_ne_zero hs hx 0
      simp only [hpne, if_false]
      obtain ⟨k, rfl⟩ : ∃ k, fuel = k + 1 := by
        cases fuel with
        | zero =>
          cases xs with
          | nil => exact absurd rfl hx
          | cons _ _ => simp at hf
        | succ k => exact ⟨k, rfl⟩
      exact ih d.1 k hx hs (fun e he => habs e (by simp [he])) (by simpa using hf)

theorem MemList.getEntryLoop_found {nodes : Ptr → Option Node}
    {entries : Ptr → Option MemEntry} {memPtr : Ptr} (pre : List Cell) (c : Cell) (r : MemEntry)
    (post : List Cell) :
    ∀ (nxt prev : Ptr) (fuel : Nat),
      Seg nodes nxt prev (pre ++ c :: post) →
      deref entries c.2 = some r → r.itsMemPtr = memPtr →
      (∀ d ∈ post, ∃ q, deref entries d.2 = some q ∧ q.itsMemPtr ≠ memPtr) →
      post.length + 1 ≤ fuel →
      MemList.getEntryLoop nodes entries memPtr fuel (lastAddr c.1 post) = .ok c.2 := by
  induction post using List.reverseRecOn with
  | nil =>
    intro nxt prev fuel h hr hp _ hf
    obtain ⟨_, h2⟩ := (Seg_append _ _ _ _ _).1 h
    obtain ⟨h0, h1, _⟩ := h2
    obtain ⟨k, rfl⟩ : ∃ k, fuel = k + 1 := by
      cases fuel with
      | zero => simp at hf
      | succ k => exact ⟨k, rfl⟩
    unfold MemList.getEntryLoop
    simp [h0, h1, hr, hp]
  | append_singleton post d ih =>
    intro nxt prev fuel h hr hp habs hf
    have h2 : Seg nodes nxt prev ((pre ++ c :: post) ++ [d]) := by
      simpa using h
    obtain ⟨hs, hd0, hdn⟩ := Seg_last h2
    have hprev : lastAddr prev (pre ++ c :: post) = lastAddr c.1 post := by
      rw [lastAddr_append]; rfl
    rw [hprev] at hdn
    obtain ⟨q, hq, hqp⟩ := habs d (by simp)
    obtain ⟨k, rfl⟩ : ∃ k, fuel = k + 1 := by
      cases fuel with
      | zero => simp at hf
      | succ k => exact ⟨k, rfl⟩
    rw [lastAddr_append]
    unfold MemList.getEntryLoop
    simp only [lastAddr_cons, lastAddr_nil, hd0, if_false, hdn, hq, Ne.symm hqp]
    exact ih d.1 prev k hs hr hp (fun e he => habs e (by simp [he])) (by simpa using hf)

theorem MemList.getEntryLoop_absent {nodes : Ptr → Option Node}
    {entries : Ptr → Option MemEntry} {memPtr : Ptr} (cs : List Cell) :
    ∀ (nxt : Ptr) (fuel : Nat),
      Seg nodes nxt 0 cs →
      (∀ d ∈ cs, ∃ q, deref entries d.2 = some q ∧ q.itsMemPtr ≠ memPtr) →
      cs.length ≤ fuel →
      MemList.getEntryLoop nodes entries memPtr fuel (lastAddr 0 cs) = .ok 0 := by
  induction cs using List.reverseRecOn with
  | nil =>
    intro _ fuel _ _ _
    unfold MemList.getEntryLoop
    simp
  | append_singleton xs d ih =>
    intro nxt fuel h habs hf
    obtain ⟨hs, hd0, hdn⟩ := Seg_last h
    obtain ⟨q, hq, hqp⟩ := habs d (by simp)
    obtain ⟨k, rfl⟩ : ∃ k, fuel = k + 1 := by
      cases fuel with
      | zero => simp at hf
      | succ k => exact ⟨k, rfl⟩
    rw [lastAddr_append]
    unfold MemList.getEntryLoop
    simp only [lastAddr_cons, lastAddr_nil, hd0, if_false, hdn, hq, Ne.symm hqp]
    exact ih d.1 k hs (fun e he => habs e (by simp [he])) (by simpa using hf)

/-! ## Unlinking a node of a well-formed list -/

theorem MemList.setNextOf_spec {l : MemList} {pre : List Cell} {nxt : Ptr}
    (hseg : Seg l.nodes nxt 0 pre) (hnd : (pre.map Prod.fst).Nodup)
    (hfirst : l.itsFirst = hdAddr nxt pre) (nxt2 : Ptr) :
    ∃ l1, l.setNextOf (lastAddr 0 pre) nxt2 = some l1 ∧ Seg l1.nodes nxt2 0 pre ∧
      l1.itsFirst = hdAddr nxt2 pre ∧ l1.itsLast = l.itsLast ∧ l1.itsSize = l.itsSize ∧
      ∀ q, (∀ d ∈ pre, d.1 ≠ q) → l1.nodes q = l.nodes q := by
  rcases List.eq_nil_or_concat pre with rfl | ⟨xs, a, rfl⟩
  · exact ⟨{ l with itsFirst := nxt2 }, by simp [MemList.setNextOf], trivial, rfl, rfl, rfl,
      fun _ _ => rfl⟩
  · have hxa : xs.concat a = xs ++ [a] := by simp
    rw [hxa] at hseg hnd hfirst ⊢
    obtain ⟨hs, ha0, han⟩ := Seg_last hseg
    have hxnd : ∀ d ∈ xs, d.1 ≠ a.1 := by
      intro d hd he
      rw [List.map_append, List.nodup_append] at hnd
      exact hnd.2.2 (List.mem_map_of_mem _ hd) (by simp [he])
    refine ⟨{ l with nodes := Function.update l.nodes a.1 (some ⟨a.2, lastAddr 0 xs, nxt2⟩) },
      ?_, ?_, ?_, rfl, rfl, ?_⟩
    · simp [MemList.setNextOf, lastAddr_append, ha0, modify, deref, han]
    · rw [Seg_append]
      refine ⟨Seg_frame hs ?_, ?_⟩
      · intro d hd
        exact Function.update_noteq (hxnd d hd) _ _
      · simp [Seg_cons, ha0]
    · show l.itsFirst = _
      rw [hfirst, hdAddr_append, hdAddr_append]
      cases xs <;> rfl
    · intro q hq
      exact Function.update_noteq (Ne.symm (hq a (by simp))) _ _

theorem MemList.setPreviousOf_spec {l : MemList} {post : List Cell} {prev : Ptr}
    (hseg : Seg l.nodes 0 prev post) (hnd : (post.map Prod.fst).Nodup)
    (hlast : l.itsLast = lastAddr prev post) (prev2 : Ptr) :
    ∃ l1, l.setPreviousOf prev2 (hdAddr 0 post) = some l1 ∧ Seg l1.nodes 0 prev2 post ∧
      l1.itsLast = lastAddr prev2 post ∧ l1.itsFirst = l.itsFirst ∧ l1.itsSize = l.itsSize ∧
      ∀ q, (∀ d ∈ post, d.1 ≠ q) → l1.nodes q = l.nodes q := by
  cases post with
  | nil =>
    exact ⟨{ l with itsLast := prev2 }, by simp [MemList.setPreviousOf], trivial, rfl, rfl, rfl,
      fun _ _ => rfl⟩
  | cons b ys =>
    obtain ⟨hb0, hbn, hs⟩ := hseg
    have hynd : ∀ d ∈ ys, d.1 ≠ b.1 := by
      intro d hd he
      rw [List.map_cons, List.nodup_cons] at hnd
      exact hnd.1 (List.mem_map.2 ⟨d, hd, he⟩)
    refine ⟨{ l with nodes := Function.update l.nodes b.1 (some ⟨b.2, prev2, hdAddr 0 ys⟩) },
      ?_, ?_, ?_, rfl, rfl, ?_⟩
    · simp [MemList.setPreviousOf, hb0, modify, deref, hbn]
    · rw [Seg_cons]
      refine ⟨hb0, by simp, Seg_frame hs ?_⟩
      intro d hd
      exact Function.update_noteq (hynd d hd) _ _
    · show l.itsLast = _
      rw [hlast]; rfl
    · intro q hq
      exact Function.update_noteq (Ne.symm (hq b (by simp))) _ _

theorem MemList.unlink_spec {l : MemList} {pre post : List Cell} {n e : Ptr}
    (h : l.Repr (pre ++ (n, e) :: post)) (hsz : l.itsSize < UINT_MOD) :
    ∃ l2, l.unlink n = some l2 ∧ l2.Repr (pre ++ post) := by
  obtain ⟨hpre, hn0, hnn, hpost⟩ := (Seg_append _ _ _ _ _).1 h.seg
  have hnd := h.nodup
  rw [List.map_append, List.map_cons, List.nodup_append, List.nodup_cons] at hnd
  obtain ⟨hnd1, ⟨hnpost, hnd2⟩, hdisj⟩ := hnd
  have hpre_n : ∀ d ∈ pre, d.1 ≠ n := by
    intro d hd he
    exact hdisj (List.mem_map_of_mem _ hd) (by simp [he])
  have hpost_n : ∀ d ∈ post, d.1 ≠ n := by
    intro d hd he
    exact hnpost (List.mem_map.2 ⟨d, hd, he⟩)
  have hpre_post : ∀ d ∈ pre, ∀ d2 ∈ post, d.1 ≠ d2.1 := by
    intro d hd d2 hd2 he
    exact hdisj (List.mem_map_of_mem _ hd)
      (List.mem_cons_of_mem _ (List.mem_map.2 ⟨d2, hd2, he.symm⟩))
  have hfirst : l.itsFirst = hdAddr n pre := by
    rw [h.first, hdAddr_append]; rfl
  obtain ⟨l1, hl1, hseg1, hfirst1, hlast1, hsize1, hframe1⟩ :=
    MemList.setNextOf_spec hpre hnd1 hfirst (hdAddr 0 post)
  have hpost1 : Seg l1.nodes 0 n post :=
    Seg_frame hpost (fun d hd => hframe1 d.1 (fun d2 hd2 => hpre_post d2 hd2 d hd))
  have hlast : l1.itsLast = lastAddr n post := by
    rw [hlast1, h.last, lastAddr_append]; rfl
  obtain ⟨l2, hl2, hseg2, hlast2, hfirst2, hsize2, hframe2⟩ :=
    MemList.setPreviousOf_spec hpost1 hnd2 hlast (lastAddr 0 pre)
  have hpre2 : Seg l2.nodes (hdAddr 0 post) 0 pre :=
    Seg_frame hseg1 (fun d hd => hframe2 d.1 (fun d2 hd2 => (hpre_post d hd d2 hd2).symm))
  have hlen : l.itsSize = pre.length + post.length + 1 := by
    rw [h.size]; simp; omega
  refine ⟨{ l2 with nodes := Function.update l2.nodes n none,
                    itsSize := (l2.itsSize + UINT_MOD - 1) % UINT_MOD }, ?_, ?_⟩
  · unfold MemList.unlink
    simp only [deref, hn0, if_false, hnn, hl1, hl2]
  · exact
      { seg := by
          rw [Seg_append]
          refine ⟨Seg_frame hpre2 ?_, Seg_frame hseg2 ?_⟩
          · intro d hd; exact Function.update_noteq (hpre_n d hd) _ _
          · intro d hd; exact Function.update_noteq (hpost_n d hd) _ _
        nodup := by
          rw [List.map_append, List.nodup_append]
          refine ⟨hnd1, hnd2, ?_⟩
          intro a ha hb
          exact hdisj ha (List.mem_cons_of_mem _ hb)
        first := by
          show l2.itsFirst = _
          rw [hfirst2, hfirst1, hdAddr_append]
        last := by
          show l2.itsLast = _
          rw [hlast2, lastAddr_append]
        size := by
          show (l2.itsSize + UINT_MOD - 1) % UINT_MOD = _
          rw [hsize2, hsize1, hlen, List.length_append]
          rw [hlen] at hsz
          have : pre.length + post.length + 1 + UINT_MOD - 1
              = pre.length + post.length + UINT_MOD := by omega
          rw [this, Nat.add_mod_right, Nat.mod_eq_of_lt (by omega)] }

theorem MemList.remove_found {l : MemList} {pre post : List Cell} {n e : Ptr}
    (h : l.Repr (pre ++ (n, e) :: post)) (hsz : l.itsSize < UINT_MOD)
    (hpost : ∀ d ∈ post, d.2 ≠ e) (fuel : Nat) (hf : post.length ≤ fuel) :
    ∃ l2, l.remove fuel e = (.ok true, l2) ∧ l2.Repr (pre ++ post) := by
  obtain ⟨l2, hl2, hrep⟩ := MemList.unlink_spec h hsz
  refine ⟨l2, ?_, hrep⟩
  have hlast : l.itsLast = lastAddr n post := by
    rw [h.last, lastAddr_append]; rfl
  unfold MemList.remove
  rw [hlast, MemList.removeFind_found pre n post 0 0 fuel h.seg hpost hf]
  simp only [hl2]

theorem MemList.remove_absent {l : MemList} {cs : List Cell} (h : l.Repr cs) (hne : cs ≠ [])
    (e : Ptr) (habs : ∀ d ∈ cs, d.2 ≠ e) (fuel : Nat) (hf : cs.length ≤ fuel + 1) :
    l.remove fuel e = (.ok false, l) := by
  unfold MemList.remove
  rw [h.last, MemList.removeFind_absent cs 0 fuel hne h.seg habs hf]

theorem MemList.remove_empty {l : MemList} (h : l.Repr []) (e : Ptr) (fuel : Nat) :
    l.remove fuel e = (.error .undefined, l) := by
  have hl : l.itsLast = 0 := h.last
  unfold MemList.remove MemList.removeFind
  cases fuel <;> simp [hl, deref]

/-! ## `memAlloc` and `memFree` on a well-formed registry -/

theorem filterMap_deref_slots {entries : Ptr → Option MemEntry} {xs : List Slot}
    (h : ∀ x ∈ xs, deref entries x.1.2 = some x.2) :
    ((xs.map Prod.fst).map Prod.snd).filterMap (deref entries) = xs.map Prod.snd := by
  induction xs with
  | nil => rfl
  | cons x xs ih =>
    have hx := h x (List.mem_cons_self _ _)
    simp only [List.map_cons, List.filterMap_cons, hx]
    rw [ih (fun y hy => h y (List.mem_cons_of_mem _ hy))]

theorem MemMngr.Inv.records {m : MemMngr} {xs : List Slot} (h : m.Inv xs) :
    m.records = xs.map Prod.snd := by
  unfold MemMngr.records
  rw [h.repr.elements]
  exact filterMap_deref_slots h.recs

theorem MemMngr.Inv.size_eq {m : MemMngr} {xs : List Slot} (h : m.Inv xs) :
    m.itsMemEntries.itsSize = xs.length := by
  rw [h.repr.size]; simp

theorem MemMngr.memAlloc_reject (m : MemMngr) (type : MemType) (size : Nat)
    (file : Option String) (line : Nat) (e p n : Ptr) (h : m.ceilingOk size = false) :
    m.memAlloc type size file line e p n = (.error .allocLimit, m) := by
  simp [MemMngr.memAlloc, h]

theorem MemMngr.memAlloc_noEntry (m : MemMngr) (type : MemType) (size : Nat)
    (file : Option String) (line : Nat) (p n : Ptr) (h : m.ceilingOk size = true) :
    m.memAlloc type size file line 0 p n = (.error .bad_alloc, m) := by
  simp [MemMngr.memAlloc, h]

theorem MemMngr.memAlloc_noBlock (m : MemMngr) (type : MemType) (size : Nat)
    (file : Option String) (line : Nat) (e n : Ptr) (h : m.ceilingOk size = true)
    (he : e ≠ 0) :
    m.memAlloc type size file line e 0 n =
      (.error .bad_alloc,
        { m with entries := Function.update m.entries e (some MemEntry.init) }) := by
  simp [MemMngr.memAlloc, h, he]

theorem MemMngr.memAlloc_booked (m : MemMngr) (type : MemType) (size : Nat)
    (file : Option String) (line : Nat) (e p n : Ptr) (h : m.ceilingOk size = true)
    (he : e ≠ 0) (hp : p ≠ 0) :
    m.memAlloc type size file line e p n =
      (match (m.itsMemEntries.add e n).1 with
        | .error er => .error er
        | .ok _ => .ok (p, printAlloc (m.newEntry type size file line p)),
       { m.booked size e (m.newEntry type size file line p) with
         itsMemEntries := (m.itsMemEntries.add e n).2 }) := by
  unfold MemMngr.memAlloc
  simp only [h, not_true_eq_false, if_false, he, hp]
  have hupd : Function.update (Function.update m.entries e (some MemEntry.init)) e
      (some (m.newEntry type size file line p))
      = Function.update m.entries e (some (m.newEntry type size file line p)) :=
    Function.update_idem _ _ _
  rcases hadd : m.itsMemEntries.add e n with ⟨res, l2⟩
  cases res <;> simp [hadd, MemMngr.booked, MemMngr.newEntry, hupd]

theorem MemMngr.Inv.elem_live {m : MemMngr} {xs : List Slot} (h : m.Inv xs) :
    ∀ x ∈ xs, x.1.2 ≠ 0 ∧ m.entries x.1.2 = some x.2 := by
  intro x hx
  have := h.recs x hx
  unfold deref at this
  by_cases h0 : x.1.2 = 0
  · simp [h0] at this
  · simpa [h0] using this

theorem MemMngr.Inv.entries_frame {m : MemMngr} {xs : List Slot} (h : m.Inv xs)
    {e : Ptr} (hfe : m.entries e = none) (v : Option MemEntry) :
    ∀ x ∈ xs, deref (Function.update m.entries e v) x.1.2 = some x.2 := by
  intro x hx
  obtain ⟨h0, h1⟩ := h.elem_live x hx
  have hne : x.1.2 ≠ e := by
    intro he; rw [he, hfe] at h1; cases h1
  simp [deref, h0, Function.update_noteq hne, h1]

theorem MemMngr.memAlloc_ok {m : MemMngr} {xs : List Slot} (hinv : m.Inv xs)
    (type : MemType) (size : Nat) (file : Option String) (line : Nat) (e p n : Ptr)
    (hceil : m.ceilingOk size = true) (he : e ≠ 0) (hp : p ≠ 0) (hn : n ≠ 0)
    (hfe : m.entries e = none) (hfn : m.itsMemEntries.nodes n = none)
    (hlen : xs.length + 1 < UINT_MOD) :
    (m.memAlloc type size file line e p n).1
        = .ok (p, printAlloc (m.newEntry type size file line p)) ∧
      (m.memAlloc type size file line e p n).2.Inv
        (xs ++ [((n, e), m.newEntry type size file line p)]) ∧
      (m.memAlloc type size file line e p n).2.itsMemSize
        = ((m.itsMemSize + size) % SIZE_MOD) % UINT_MOD ∧
      (m.memAlloc type size file line e p n).2.itsMemSizeMax
        = max (((m.itsMemSize + size) % SIZE_MOD) % UINT_MOD) m.itsMemSizeMax ∧
      (m.memAlloc type size file line e p n).2.itsAllocCounter
        = (m.itsAllocCounter + 1) % UINT_MOD := by
  have hlen2 : (xs.map Prod.fst).length + 1 < UINT_MOD := by simpa using hlen
  obtain ⟨hres, hrep⟩ := MemList.add_spec hinv.repr hlen2 e n hn hfn
  rw [MemMngr.memAlloc_booked m type size file line e p n hceil he hp]
  refine ⟨by rw [hres], ?_, rfl, rfl, rfl⟩
  have hnotin : ∀ x ∈ xs, x.1.2 ≠ e := by
    intro x hx hxe
    have := (hinv.elem_live x hx).2
    rw [hxe, hfe] at this; cases this
  exact
    { repr := by simpa using hrep
      recs := by
        intro x hx
        rcases List.mem_append.1 hx with hx | hx
        · exact hinv.entries_frame hfe _ x hx
        · simp only [List.mem_singleton] at hx
          subst hx
          simp [deref, he, MemMngr.booked]
      elems := by
        rw [List.map_append, List.nodup_append]
        refine ⟨hinv.elems, by simp, ?_⟩
        intro a ha hb
        simp only [List.map_cons, List.map_nil, List.mem_singleton] at hb
        obtain ⟨x, hx, rfl⟩ := List.mem_map.1 ha
        exact hnotin x hx hb
      small := by
        simp only [List.length_append, List.length_singleton]
        omega }

theorem MemMngr.memAlloc_noNode {m : MemMngr} {xs : List Slot} (hinv : m.Inv xs)
    (type : MemType) (size : Nat) (file : Option String) (line : Nat) (e p : Ptr)
    (hceil : m.ceilingOk size = true) (he : e ≠ 0) (hp : p ≠ 0)
    (hlen : xs.length + 1 < UINT_MOD) :
    m.memAlloc type size file line e p 0 =
      (.error .bad_alloc, m.booked size e (m.newEntry type size file line p)) := by
  have hsz : m.itsMemEntries.itsSize + 1 < UINT_MOD := by rw [hinv.size_eq]; exact hlen
  have hadd : m.itsMemEntries.add e 0 = (.error .bad_alloc, m.itsMemEntries) := by
    unfold MemList.add
    rw [Nat.mod_eq_of_lt hsz]
    simp
  rw [MemMngr.memAlloc_booked m type size file line e p 0 hceil he hp, hadd]
  rfl

theorem MemMngr.memAlloc_full {m : MemMngr} {xs : List Slot} (hinv : m.Inv xs)
    (type : MemType) (size : Nat) (file : Option String) (line : Nat) (e p n : Ptr)
    (hceil : m.ceilingOk size = true) (he : e ≠ 0) (hp : p ≠ 0)
    (hlen : ¬ xs.length + 1 < UINT_MOD) :
    (m.memAlloc type size file line e p n).1 = .error .sizeGrowing := by
  have hsz : m.itsMemEntries.itsSize + 1 = UINT_MOD := by
    rw [hinv.size_eq]; have := hinv.small; omega
  have hadd : m.itsMemEntries.add e n = (.error .sizeGrowing, m.itsMemEntries) := by
    unfold MemList.add
    rw [hsz]
    simp
  rw [MemMngr.memAlloc_booked m type size file line e p n hceil he hp, hadd]

theorem MemMngr.Inv.booked {m : MemMngr} {xs : List Slot} (hinv : m.Inv xs)
    (size : Nat) (e : Ptr) (entry : MemEntry) (hfe : m.entries e = none) :
    (m.booked size e entry).Inv xs :=
  { repr := hinv.repr
    recs := hinv.entries_frame hfe _
    elems := hinv.elems
    small := hinv.small }

theorem MemMngr.Inv.leaked {m : MemMngr} {xs : List Slot} (hinv : m.Inv xs)
    (e : Ptr) (v : Option MemEntry) (hfe : m.entries e = none) :
    MemMngr.Inv { m with entries := Function.update m.entries e v } xs :=
  { repr := hinv.repr
    recs := hinv.entries_frame hfe _
    elems := hinv.elems
    small := hinv.small }

theorem MemMngr.Inv.elem_ne {m : MemMngr} {pre post : List Slot} {x : Slot}
    (hinv : m.Inv (pre ++ x :: post)) : ∀ y ∈ pre ++ post, y.1.2 ≠ x.1.2 := by
  have h := hinv.elems
  rw [List.map_append, List.map_cons, List.nodup_append, List.nodup_cons] at h
  obtain ⟨_, ⟨h2, _⟩, h3⟩ := h
  intro y hy hyx
  rcases List.mem_append.1 hy with hy | hy
  · exact h3 (List.mem_map.2 ⟨y, hy, rfl⟩) (by rw [hyx]; exact List.mem_cons_self _ _)
  · exact h2 (List.mem_map.2 ⟨y, hy, hyx⟩)

theorem MemMngr.memFree_ok {m : MemMngr} {pre post : List Slot} {x : Slot}
    (hinv : m.Inv (pre ++ x :: post))
    (hpost : ∀ y ∈ post, y.2.itsMemPtr ≠ x.2.itsMemPtr)
    (type : MemType) (file : Option String) (line fuel : Nat)
    (hf : post.length + 1 ≤ fuel) :
    (m.memFree fuel type x.2.itsMemPtr file line).1 = .ok (printFree type x.2 file line) ∧
      (m.memFree fuel type x.2.itsMemPtr file line).2.Inv (pre ++ post) ∧
      (m.memFree fuel type x.2.itsMemPtr file line).2.itsMemSize
        = ((m.itsMemSize + SIZE_MOD - x.2.itsSize % SIZE_MOD) % SIZE_MOD) % UINT_MOD ∧
      (m.memFree fuel type x.2.itsMemPtr file line).2.itsMemSizeMax = m.itsMemSizeMax ∧
      (m.memFree fuel type x.2.itsMemPtr file line).2.itsAllocCounter
        = m.itsAllocCounter := by
  have hne := hinv.elem_ne
  have hrepr : m.itsMemEntries.Repr
      (pre.map Prod.fst ++ (x.1.1, x.1.2) :: post.map Prod.fst) := by
    simpa using hinv.repr
  have hlast : m.itsMemEntries.itsLast = lastAddr x.1.1 (post.map Prod.fst) := by
    rw [hrepr.last, lastAddr_append]; rfl
  have hx := hinv.recs x (by simp)
  have hget : m.itsMemEntries.getEntry fuel m.entries x.2.itsMemPtr = .ok x.1.2 := by
    unfold MemList.getEntry
    rw [hlast]
    refine MemList.getEntryLoop_found (pre.map Prod.fst) x.1 x.2 (post.map Prod.fst) 0 0 fuel
      (by simpa using hinv.repr.seg) hx rfl ?_ (by simpa using hf)
    intro d hd
    obtain ⟨y, hy, rfl⟩ := List.mem_map.1 hd
    exact ⟨y.2, hinv.recs y (by simp [hy]), hpost y hy⟩
  have hsz : m.itsMemEntries.itsSize < UINT_MOD := by
    rw [hinv.size_eq]; exact hinv.small
  obtain ⟨l2, hl2, hrep2⟩ := MemList.remove_found hrepr hsz
    (by
      intro d hd
      obtain ⟨y, hy, rfl⟩ := List.mem_map.1 hd
      exact hne y (by simp [hy]))
    fuel (by simp only [List.length_map]; omega)
  have hfree : m.memFree fuel type x.2.itsMemPtr file line =
      (.ok (printFree type x.2 file line),
        { m with
          itsMemEntries := l2,
          itsMemSize :=
            ((m.itsMemSize + SIZE_MOD - x.2.itsSize % SIZE_MOD) % SIZE_MOD) % UINT_MOD,
          entries := Function.update m.entries x.1.2 none }) := by
    unfold MemMngr.memFree
    simp only [hget, hl2, hx]
  rw [hfree]
  refine ⟨rfl, ?_, rfl, rfl, rfl⟩
  exact
    { repr := by simpa using hrep2
      recs := by
        intro y hy
        have hy2 : y ∈ pre ++ x :: post := by
          rcases List.mem_append.1 hy with h1 | h1
          · simp [h1]
          · simp [h1]
        obtain ⟨h0, h1⟩ := hinv.elem_live y hy2
        simp [deref, h0, Function.update_noteq (hne y hy), h1]
      elems := by
        have h := hinv.elems
        rw [List.map_append, List.map_cons, List.nodup_append, List.nodup_cons] at h
        rw [List.map_append, List.nodup_append]
        exact ⟨h.1, h.2.1.2, fun a ha hb => h.2.2 ha (List.mem_cons_of_mem _ hb)⟩
      small := by
        have := hinv.small
        simp only [List.length_append, List.length_cons] at this ⊢
        omega }

/-- Splitting a list at the last element that satisfies a predicate. -/
theorem split_at_last {α : Type} (P : α → Prop) (l : List α) (h : ∃ a ∈ l, P a) :
    ∃ pre a post, l = pre ++ a :: post ∧ P a ∧ ∀ b ∈ post, ¬ P b := by
  induction l with
  | nil => obtain ⟨a, ha, _⟩ := h; cases ha
  | cons c cs ih =>
    by_cases hc : ∃ a ∈ cs, P a
    · obtain ⟨pre, a, post, rfl, ha, hpost⟩ := ih hc
      exact ⟨c :: pre, a, post, rfl, ha, hpost⟩
    · obtain ⟨a, ha, hPa⟩ := h
      rcases List.mem_cons.1 ha with rfl | ha
      · exact ⟨[], a, cs, rfl, hPa, fun b hb hPb => hc ⟨b, hb, hPb⟩⟩
      · exact absurd ⟨a, ha, hPa⟩ hc

theorem MemMngr.memFree_untracked {m : MemMngr} {xs : List Slot} (hinv : m.Inv xs) (p : Ptr)
    (habs : ∀ x ∈ xs, x.2.itsMemPtr ≠ p) (type : MemType) (file : Option String)
    (line fuel : Nat) (hf : xs.length ≤ fuel) :
    (m.memFree fuel type p file line).1 = .error .undefined := by
  have hget : m.itsMemEntries.getEntry fuel m.entries p = .ok 0 := by
    unfold MemList.getEntry
    rw [hinv.repr.last]
    refine MemList.getEntryLoop_absent (xs.map Prod.fst) 0 fuel hinv.repr.seg ?_
      (by simpa using hf)
    intro d hd
    obtain ⟨y, hy, rfl⟩ := List.mem_map.1 hd
    exact ⟨y.2, hinv.recs y hy, habs y hy⟩
  unfold MemMngr.memFree
  simp only [hget]
  by_cases hxs : xs = []
  · subst hxs
    rw [MemList.remove_empty (by simpa using hinv.repr)]
  · rw [MemList.remove_absent hinv.repr (by simpa using hxs) 0 ?_ fuel
      (by simp only [List.length_map]; omega)]
    · simp [deref]
    · intro d hd
      obtain ⟨y, hy, rfl⟩ := List.mem_map.1 hd
      exact (hinv.elem_live y hy).1

/-! ## More fuel never changes a result -/

theorem MemList.getEntryLoop_mono (nodes : Ptr → Option Node) (entries : Ptr → Option MemEntry)
    (memPtr : Ptr) (j : Nat) :
    ∀ (k : Nat) (node : Ptr),
      MemList.getEntryLoop nodes entries memPtr k node ≠ .error .fuel →
      MemList.getEntryLoop nodes entries memPtr (k + j) node
        = MemList.getEntryLoop nodes entries memPtr k node := by
  intro k
  induction k with
  | zero =>
    intro node h
    unfold MemList.getEntryLoop at h ⊢
    by_cases h0 : node = 0
    · simp [h0]
    · simp [h0] at h
  | succ k ih =>
    intro node h
    rw [Nat.add_right_comm]
    unfold MemList.getEntryLoop at h ⊢
    by_cases h0 : node = 0
    · simp [h0]
    · simp only [h0, if_false] at h ⊢
      cases hn : nodes node with
      | none => simp
      | some n =>
        simp only [hn] at h ⊢
        cases hc : deref entries n.itsElement with
        | none => simp
        | some c =>
          simp only [hc] at h ⊢
          by_cases hp : memPtr = c.itsMemPtr
          · simp [hp]
          · simp only [hp, if_false] at h ⊢
            exact ih _ h

theorem MemList.removeFind_mono (nodes : Ptr → Option Node) (element : Ptr) (j : Nat) :
    ∀ (k : Nat) (current : Ptr),
      MemList.removeFind nodes element k current ≠ .error .fuel →
      MemList.removeFind nodes element (k + j) current
        = MemList.removeFind nodes element k current := by
  intro k
  induction k with
  | zero =>
    intro current h
    unfold MemList.removeFind at h ⊢
    cases hn : deref nodes current with
    | none => simp
    | some n =>
      simp only [hn] at h ⊢
      by_cases he : element = n.itsElement
      · simp [he]
      · by_cases hp : n.itsPrevious = 0
        · simp [he, hp]
        · simp [he, hp] at h
  | succ k ih =>
    intro current h
    rw [Nat.add_right_comm]
    unfold MemList.removeFind at h ⊢
    cases hn : deref nodes current with
    | none => simp
    | some n =>
      simp only [hn] at h ⊢
      by_cases he : element = n.itsElement
      · simp [he]
      · by_cases hp : n.itsPrevious = 0
        · simp [he, hp]
        · simp only [he, hp, if_false] at h ⊢
          exact ih _ h

theorem MemList.remove_mono (l : MemList) (element : Ptr) (k j : Nat)
    (h : (l.remove k element).1 ≠ .error .fuel) :
    l.remove (k + j) element = l.remove k element := by
  have hfind : MemList.removeFind l.nodes element k l.itsLast ≠ .error .fuel := by
    intro hf
    apply h
    unfold MemList.remove
    rw [hf]
  unfold MemList.remove
  rw [MemList.removeFind_mono l.nodes element j k l.itsLast hfind]

theorem MemMngr.memFree_mono (m : MemMngr) (type : MemType) (p : Ptr) (file : Option String)
    (line k j : Nat) (h : (m.memFree k type p file line).1 ≠ .error .fuel) :
    m.memFree (k + j) type p file line = m.memFree k type p file line := by
  have hget : m.itsMemEntries.getEntry k m.entries p ≠ .error .fuel := by
    intro hf
    apply h
    unfold MemMngr.memFree
    rw [hf]
  have hget2 : m.itsMemEntries.getEntry (k + j) m.entries p
      = m.itsMemEntries.getEntry k m.entries p :=
    MemList.getEntryLoop_mono _ _ _ j k _ hget
  cases hg : m.itsMemEntries.getEntry k m.entries p with
  | error e =>
    unfold MemMngr.memFree
    rw [hget2, hg]
  | ok entry =>
    have hrem : (m.itsMemEntries.remove k entry).1 ≠ .error .fuel := by
      intro hf
      apply h
      unfold MemMngr.memFree
      rw [hg]
      rcases hr : m.itsMemEntries.remove k entry with ⟨res, l2⟩
      rw [hr] at hf
      simp only at hf
      subst hf
      simp only [hr]
    unfold MemMngr.memFree
    rw [hget2, hg]
    simp only [MemList.remove_mono _ _ _ _ hrem]

/-! ## One surviving call on a consistent state -/

theorem survives_ne_fuel {α : Type} {r : Except Err α}
    (h : survives (r.map (fun _ => ())) = true) : r ≠ .error .fuel := by
  intro hr
  subst hr
  simp [survives, Except.map] at h

theorem sumSizes_append (xs ys : List MemEntry) :
    sumSizes (xs ++ ys) = sumSizes xs + sumSizes ys := by
  simp [sumSizes]

theorem sumSizes_cons (x : MemEntry) (xs : List MemEntry) :
    sumSizes (x :: xs) = x.itsSize + sumSizes xs := by
  simp [sumSizes]

theorem MemMngr.alloc_step {m : MemMngr} {xs : List Slot} (hinv : m.Inv xs)
    (hlim : m.itsMemSize < ALLOCLIMIT) (type : MemType) (size : Nat) (file : Option String)
    (line : Nat) (e p n : Ptr)
    (hal : (Call.memAlloc type size file line e p n).Allowed m)
    (hs : survives ((m.memAlloc type size file line e p n).1.map (fun _ => ())) = true) :
    ((m.memAlloc type size file line e p n).1 = .error .bad_alloc ∧
      (e = 0 ∨ p = 0) ∧
      (m.memAlloc type size file line e p n).2.Inv xs ∧
      (m.memAlloc type size file line e p n).2.itsMemSize = m.itsMemSize ∧
      (m.memAlloc type size file line e p n).2.itsMemSizeMax = m.itsMemSizeMax ∧
      (m.memAlloc type size file line e p n).2.itsAllocCounter = m.itsAllocCounter) ∨
    (e ≠ 0 ∧ p ≠ 0 ∧ m.itsMemSize + size < ALLOCLIMIT ∧
      (m.memAlloc type size file line e p n).2.itsMemSize = m.itsMemSize + size ∧
      (m.memAlloc type size file line e p n).2.itsMemSizeMax
        = max (m.itsMemSize + size) m.itsMemSizeMax ∧
      (m.memAlloc type size file line e p n).2.itsAllocCounter
        = (m.itsAllocCounter + 1) % UINT_MOD ∧
      (((m.memAlloc type size file line e p n).1 = .error .bad_alloc ∧ n = 0 ∧
          (m.memAlloc type size file line e p n).2.Inv xs) ∨
        ((m.memAlloc type size file line e p n).1
            = .ok (p, printAlloc (m.newEntry type size file line p)) ∧ n ≠ 0 ∧
          (m.memAlloc type size file line e p n).2.Inv
            (xs ++ [((n, e), m.newEntry type size file line p)])))) := by
  obtain ⟨hsz, _, hfe, hfn, hpd⟩ := hal
  cases hceil : m.ceilingOk size with
  | false =>
    rw [MemMngr.memAlloc_reject m type size file line e p n hceil] at hs
    simp [survives, Except.map] at hs
  | true =>
    by_cases he : e = 0
    · subst he
      left
      rw [MemMngr.memAlloc_noEntry m type size file line p n hceil]
      exact ⟨rfl, Or.inl rfl, hinv, rfl, rfl, rfl⟩
    · by_cases hp : p = 0
      · subst hp
        left
        rw [MemMngr.memAlloc_noBlock m type size file line e n hceil he]
        exact ⟨rfl, Or.inr rfl, hinv.leaked e _ (hfe he), rfl, rfl, rfl⟩
      · right
        have hsum : m.itsMemSize + size < SIZE_MOD := by
          have := hpd hp
          unfold PTRDIFF_MAX at this
          unfold ALLOCLIMIT at hlim
          unfold SIZE_MOD
          omega
        have hlt : m.itsMemSize + size < ALLOCLIMIT := by
          have := hceil
          unfold MemMngr.ceilingOk at this
          rw [Nat.mod_eq_of_lt hsum] at this
          exact of_decide_eq_true this
        have hmod : ((m.itsMemSize + size) % SIZE_MOD) % UINT_MOD = m.itsMemSize + size := by
          rw [Nat.mod_eq_of_lt hsum]
          apply Nat.mod_eq_of_lt
          unfold ALLOCLIMIT at hlt
          unfold UINT_MOD
          omega
        by_cases hlen : xs.length + 1 < UINT_MOD
        · by_cases hn : n = 0
          · subst hn
            rw [MemMngr.memAlloc_noNode hinv type size file line e p hceil he hp hlen]
            refine ⟨he, hp, hlt, hmod, ?_, rfl, Or.inl ⟨rfl, rfl, hinv.booked _ _ _ (hfe he)⟩⟩
            show max (((m.itsMemSize + size) % SIZE_MOD) % UINT_MOD) m.itsMemSizeMax = _
            rw [hmod]
          · obtain ⟨h1, h2, h3, h4, h5⟩ := MemMngr.memAlloc_ok hinv type size file line e p n
              hceil he hp hn (hfe he) (hfn hn) hlen
            refine ⟨he, hp, hlt, ?_, ?_, h5, Or.inr ⟨h1, hn, h2⟩⟩
            · rw [h3, hmod]
            · rw [h4, hmod]
        · have := MemMngr.memAlloc_full hinv type size file line e p n hceil he hp hlen
          rw [this] at hs
          simp [survives, Except.map] at hs

theorem MemMngr.free_step {m : MemMngr} {xs : List Slot} (hinv : m.Inv xs)
    (hbytes : sumSizes (xs.map Prod.snd) ≤ m.itsMemSize) (hlim : m.itsMemSize < ALLOCLIMIT)
    (type : MemType) (p : Ptr) (file : Option String) (line fuel : Nat)
    (hs : survives ((m.memFree fuel type p file line).1.map (fun _ => ())) = true) :
    ∃ pre x post, xs = pre ++ x :: post ∧ x.2.itsMemPtr = p ∧
      (∀ y ∈ post, y.2.itsMemPtr ≠ p) ∧
      (m.memFree fuel type p file line).1 = .ok (printFree type x.2 file line) ∧
      (m.memFree fuel type p file line).2.Inv (pre ++ post) ∧
      (m.memFree fuel type p file line).2.itsMemSize + x.2.itsSize = m.itsMemSize ∧
      (m.memFree fuel type p file line).2.itsMemSizeMax = m.itsMemSizeMax ∧
      (m.memFree fuel type p file line).2.itsAllocCounter = m.itsAllocCounter := by
  have hmono := MemMngr.memFree_mono m type p file line fuel (xs.length + 1)
    (survives_ne_fuel hs)
  by_cases htr : ∃ x ∈ xs, x.2.itsMemPtr = p
  · obtain ⟨pre, x, post, rfl, hx, hpost⟩ :=
      split_at_last (fun x : Slot => x.2.itsMemPtr = p) xs htr
    subst hx
    obtain ⟨h1, h2, h3, h4, h5⟩ := MemMngr.memFree_ok hinv hpost type file line
      (fuel + ((pre ++ x :: post).length + 1))
      (by simp only [List.length_append, List.length_cons]; omega)
    rw [hmono] at h1 h2 h3 h4 h5
    refine ⟨pre, x, post, rfl, rfl, hpost, h1, h2, ?_, h4, h5⟩
    rw [h3]
    have hx : x.2.itsSize ≤ m.itsMemSize := by
      rw [List.map_append, List.map_cons, sumSizes_append, sumSizes_cons] at hbytes
      omega
    unfold ALLOCLIMIT at hlim
    unfold SIZE_MOD UINT_MOD
    omega
  · exfalso
    have hun := MemMngr.memFree_untracked hinv p
      (fun x hx hxp => htr ⟨x, hx, hxp⟩) type file line (fuel + (xs.length + 1)) (by omega)
    rw [hmono] at hun
    rw [hun] at hs
    simp [survives, Except.map] at hs

/-! ## Invariants of every reachable state -/

theorem MemMngr.fresh_inv : MemMngr.fresh.Inv [] :=
  { repr :=
      { seg := trivial
        nodup := List.nodup_nil
        first := rfl
        last := rfl
        size := rfl }
    recs := fun _ h => by cases h
    elems := List.nodup_nil
    small := by simp [UINT_MOD] }

theorem Run.invariant {log : List Event} {m : MemMngr} (h : Run log m) :
    ∃ xs, m.Inv xs ∧ m.itsMemSize = sumSizes (xs.map Prod.snd) + lostBytes log ∧
      m.itsMemSize < ALLOCLIMIT ∧ m.itsMemSizeMax = maxOf (liveHistory log) ∧
      m.itsMemSize ≤ m.itsMemSizeMax ∧ xs.length + freesOk log = allocsOk log := by
  induction h with
  | fresh =>
    exact ⟨[], MemMngr.fresh_inv, by simp [sumSizes, lostBytes, MemMngr.fresh],
      by simp [MemMngr.fresh, ALLOCLIMIT], rfl, Nat.le_refl _, rfl⟩
  | @step log m fuel call hrun hal hs ih =>
    obtain ⟨xs, hinv, hexact, hlim, hpeak, hle, hcount⟩ := ih
    have hbytes : sumSizes (xs.map Prod.snd) ≤ m.itsMemSize := by omega
    have hlost : lostBytes (⟨fuel, call, m⟩ :: log)
        = Event.lostBytes ⟨fuel, call, m⟩ + lostBytes log := by
      simp [lostBytes]
    rw [hlost]
    have hhist : maxOf (liveHistory (⟨fuel, call, m⟩ :: log))
        = max (call.exec fuel m).2.itsMemSize m.itsMemSizeMax := by
      rw [hpeak]; rfl
    rw [hhist]
    cases call with
    | memAlloc type size file line e p n =>
      rcases MemMngr.alloc_step hinv hlim type size file line e p n hal hs with
        ⟨h1, hep, h2, h3, h4, _⟩ | ⟨he, hp, hlt, h3, h4, _, hcase⟩
      · have hl0 : Event.lostBytes ⟨fuel, .memAlloc type size file line e p n, m⟩ = 0 := by
          rcases hep with h0 | h0 <;> simp [Event.lostBytes, h0]
        refine ⟨xs, h2, ?_, ?_, ?_, ?_, ?_⟩
        · show (m.memAlloc type size file line e p n).2.itsMemSize = _
          rw [h3, hl0]; omega
        · show (m.memAlloc type size file line e p n).2.itsMemSize < _
          rw [h3]; exact hlim
        · show (m.memAlloc type size file line e p n).2.itsMemSizeMax
            = max (m.memAlloc type size file line e p n).2.itsMemSize _
          rw [h3, h4]; omega
        · show (m.memAlloc type size file line e p n).2.itsMemSize
            ≤ (m.memAlloc type size file line e p n).2.itsMemSizeMax
          rw [h3, h4]; exact hle
        · have ha : Event.allocOk ⟨fuel, .memAlloc type size file line e p n, m⟩ = false := by
            simp [Event.allocOk, Event.result, Call.exec, h1, Except.map]
          have hf : Event.freeOk ⟨fuel, .memAlloc type size file line e p n, m⟩ = false := by
            simp [Event.freeOk]
          simp only [allocsOk, freesOk, List.countP_cons, ha, hf] at hcount ⊢
          simpa using hcount
      · have hf : Event.freeOk ⟨fuel, .memAlloc type size file line e p n, m⟩ = false := by
          simp [Event.freeOk]
        rcases hcase with ⟨h1, hn, h2⟩ | ⟨h1, hn, h2⟩
        · have hl : Event.lostBytes ⟨fuel, .memAlloc type size file line e p n, m⟩
              = size := by
            subst hn
            simp [Event.lostBytes, Event.result, Call.exec, h1, Except.map, he, hp]
          refine ⟨xs, h2, ?_, ?_, ?_, ?_, ?_⟩
          · show (m.memAlloc type size file line e p n).2.itsMemSize = _
            rw [h3, hl]; omega
          · show (m.memAlloc type size file line e p n).2.itsMemSize < _
            rw [h3]; exact hlt
          · show (m.memAlloc type size file line e p n).2.itsMemSizeMax
              = max (m.memAlloc type size file line e p n).2.itsMemSize _
            rw [h3, h4]
          · show (m.memAlloc type size file line e p n).2.itsMemSize
              ≤ (m.memAlloc type size file line e p n).2.itsMemSizeMax
            rw [h3, h4]; omega
          · have ha : Event.allocOk ⟨fuel, .memAlloc type size file line e p n, m⟩
                = false := by
              simp [Event.allocOk, Event.result, Call.exec, h1, Except.map]
            simp only [allocsOk, freesOk, List.countP_cons, ha, hf] at hcount ⊢
            simpa using hcount
        · have hl0 : Event.lostBytes ⟨fuel, .memAlloc type size file line e p n, m⟩
              = 0 := by
            simp [Event.lostBytes, hn]
          refine ⟨_, h2, ?_, ?_, ?_, ?_, ?_⟩
          · show (m.memAlloc type size file line e p n).2.itsMemSize = _
            rw [h3, hl0, List.map_append, sumSizes_append]
            simp only [List.map_cons, List.map_nil, sumSizes_cons]
            simp only [sumSizes, List.map_nil, List.sum_nil, MemMngr.newEntry]
            unfold sumSizes at hexact
            omega
          · show (m.memAlloc type size file line e p n).2.itsMemSize < _
            rw [h3]; exact hlt
          · show (m.memAlloc type size file line e p n).2.itsMemSizeMax
              = max (m.memAlloc type size file line e p n).2.itsMemSize _
            rw [h3, h4]
          · show (m.memAlloc type size file line e p n).2.itsMemSize
              ≤ (m.memAlloc type size file line e p n).2.itsMemSizeMax
            rw [h3, h4]; omega
          · have ha : Event.allocOk ⟨fuel, .memAlloc type size file line e p n, m⟩
                = true := by
              simp [Event.allocOk, Event.result, Call.exec, h1, Except.map]
            simp only [allocsOk, freesOk, List.countP_cons, ha, hf] at hcount ⊢
            simp only [List.length_append, List.length_singleton]
            simp at hcount ⊢
            omega
    | memFree type p file line =>
      obtain ⟨pre, x, post, rfl, _, _, h1, h2, h3, h4, _⟩ :=
        MemMngr.free_step hinv hbytes hlim type p file line fuel hs
      have ha : Event.allocOk ⟨fuel, .memFree type p file line, m⟩ = false := by
        simp [Event.allocOk]
      have hf : Event.freeOk ⟨fuel, .memFree type p file line, m⟩ = true := by
        simp [Event.freeOk, Event.result, Call.exec, h1, Except.map]
      have hl0 : Event.lostBytes ⟨fuel, .memFree type p file line, m⟩ = 0 := rfl
      rw [List.map_append, List.map_cons, sumSizes_append, sumSizes_cons] at hexact
      refine ⟨pre ++ post, h2, ?_, ?_, ?_, ?_, ?_⟩
      · show (m.memFree fuel type p file line).2.itsMemSize = _
        rw [List.map_append, sumSizes_append, hl0]
        omega
      · show (m.memFree fuel type p file line).2.itsMemSize < _
        omega
      · show (m.memFree fuel type p file line).2.itsMemSizeMax
          = max (m.memFree fuel type p file line).2.itsMemSize _
        rw [h4]; omega
      · show (m.memFree fuel type p file line).2.itsMemSize
          ≤ (m.memFree fuel type p file line).2.itsMemSizeMax
        rw [h4]; omega
      · simp only [allocsOk, freesOk, List.countP_cons, ha, hf] at hcount ⊢
        simp only [List.length_append, List.length_cons] at hcount ⊢
        simp at hcount ⊢
        omega

/-- The exact account of `itsMemSize` in a reachable state: the sizes of the
records of the registry plus the sizes of the requests that failed inside
`List::add`. -/
theorem Run.live_bytes {log : List Event} {m : MemMngr} (h : Run log m) :
    m.itsMemSize = sumSizes m.records + lostBytes log := by
  obtain ⟨xs, hinv, hexact, _⟩ := h.invariant
  rw [hinv.records]; exact hexact

/-! ## The example run -/

theorem demoRun2 : Run demoLog2 demoState2 :=
  Run.step 0 demoAlloc2
    (Run.step 0 demoAlloc1 Run.fresh (by decide) (by decide)) (by decide) (by decide)

theorem demoRun3 : Run demoLog3 demoState3 :=
  Run.step 2 demoFree1 demoRun2 (by decide) (by decide)

theorem lostRun : Run [⟨0, lostAlloc, MemMngr.fresh⟩] lostState :=
  Run.step 0 lostAlloc Run.fresh (by decide) (by decide)

theorem Run.valid {log : List Event} {m : MemMngr} (h : Run log m) : m.Valid := by
  obtain ⟨xs, hinv, hexact, hlim, _, hle, _⟩ := h.invariant
  exact
    { inv := ⟨xs, hinv⟩
      bytes := by rw [hinv.records]; omega
      limit := hlim
      peak := hle }

theorem le_maxOf (l : List Nat) : ∀ v ∈ l, v ≤ maxOf l := by
  induction l with
  | nil => intro v hv; cases hv
  | cons x xs ih =>
    intro v hv
    rcases List.mem_cons.1 hv with rfl | hv
    · exact Nat.le_max_left _ _
    · exact Nat.le_trans (ih v hv) (Nat.le_max_right _ _)

theorem maxOf_mem (l : List Nat) (hne : l ≠ []) : maxOf l ∈ l := by
  induction l with
  | nil => exact absurd rfl hne
  | cons x xs ih =>
    by_cases hxs : xs = []
    · subst hxs; simp [maxOf]
    · have := ih hxs
      show max x (maxOf xs) ∈ x :: xs
      rcases Nat.le_total x (maxOf xs) with hle | hle
      · rw [Nat.max_eq_right hle]; exact List.mem_cons_of_mem _ this
      · rw [Nat.max_eq_left hle]; exact List.mem_cons_self _ _

theorem Run.peak_mono {log : List Event} {m : MemMngr} (h : Run log m) :
    ∀ ev ∈ log, ev.before.itsMemSizeMax ≤ ev.after.itsMemSizeMax := by
  induction h with
  | fresh => intro ev hev; cases hev
  | @step log m fuel call hrun hal hs ih =>
    intro ev hev
    rcases List.mem_cons.1 hev with rfl | hev
    · obtain ⟨_, _, _, _, h1, _, _⟩ := hrun.invariant
      obtain ⟨_, _, _, _, h2, _, _⟩ := (Run.step fuel call hrun hal hs).invariant
      show m.itsMemSizeMax ≤ (call.exec fuel m).2.itsMemSizeMax
      rw [h2, h1]
      exact Nat.le_max_right _ _
    · exact ih ev hev

/-! ## The claims -/

/-- C1: after any sequence of `memAlloc` and `memFree` calls on a freshly
constructed manager, `size()` of the registry equals the number of `memAlloc`
calls that returned minus the number of `memFree` calls that returned, and
this is the number of records in the registry. -/
theorem size_is_allocs_minus_frees (log : List Event) (m : MemMngr) (h : Run log m) :
    m.itsMemEntries.size = allocsOk log - freesOk log ∧ freesOk log ≤ allocsOk log ∧
      m.itsMemEntries.size = m.records.length := by
  obtain ⟨xs, hinv, _, _, _, _, hcount⟩ := h.invariant
  have hsize : m.itsMemEntries.size = xs.length := hinv.size_eq
  refine ⟨by omega, by omega, ?_⟩
  rw [hsize, hinv.records, List.length_map]

theorem size_is_allocs_minus_frees_witness :
    Run demoLog3 demoState3 ∧
      (demoState3.itsMemEntries.size = allocsOk demoLog3 - freesOk demoLog3 ∧
        freesOk demoLog3 ≤ allocsOk demoLog3 ∧
        demoState3.itsMemEntries.size = demoState3.records.length) :=
  ⟨demoRun3, size_is_allocs_minus_frees demoLog3 demoState3 demoRun3⟩

/-- C2 (the code departs from it): when `malloc` returns `NULL` inside
`List::add`, `memAlloc` throws `bad_alloc` after `itsMemSize += size`; the state
it leaves is reachable, has `itsMemSize = 4` and an empty registry, whose sizes
sum to `0`. -/
theorem live_bytes_exceed_registry_sum :
    Run [⟨0, lostAlloc, MemMngr.fresh⟩] lostState ∧ lostState.itsMemSize = 4 ∧
      lostState.records = [] ∧ sumSizes lostState.records = 0 :=
  ⟨lostRun, by decide, by decide, by decide⟩

/-- C3: after any sequence of calls on a fresh manager, `itsMemSizeMax` is the
largest value `itsMemSize` has had (initially or after any call so far): it is
one of these values and none of them exceeds it.  Hence no call decreases it
and it is never below the current `itsMemSize`. -/
theorem peak_is_largest_live_bytes (log : List Event) (m : MemMngr) (h : Run log m) :
    m.itsMemSizeMax = maxOf (liveHistory log) ∧
      m.itsMemSizeMax ∈ liveHistory log ∧ (∀ v ∈ liveHistory log, v ≤ m.itsMemSizeMax) ∧
      (∀ ev ∈ log, ev.before.itsMemSizeMax ≤ ev.after.itsMemSizeMax) ∧
      m.itsMemSize ≤ m.itsMemSizeMax := by
  obtain ⟨_, _, _, _, hpeak, hle, _⟩ := h.invariant
  refine ⟨hpeak, ?_, ?_, h.peak_mono, hle⟩
  · rw [hpeak]
    exact maxOf_mem _ (by simp [liveHistory])
  · rw [hpeak]
    exact le_maxOf _

theorem peak_is_largest_live_bytes_witness :
    Run demoLog3 demoState3 ∧ demoState3.itsMemSizeMax = 404 ∧ demoState3.itsMemSize = 400 ∧
      (demoState3.itsMemSizeMax = maxOf (liveHistory demoLog3) ∧
        demoState3.itsMemSizeMax ∈ liveHistory demoLog3 ∧
        (∀ v ∈ liveHistory demoLog3, v ≤ demoState3.itsMemSizeMax) ∧
        (∀ ev ∈ demoLog3, ev.before.itsMemSizeMax ≤ ev.after.itsMemSizeMax) ∧
        demoState3.itsMemSize ≤ demoState3.itsMemSizeMax) :=
  ⟨demoRun3, by decide, by decide, peak_is_largest_live_bytes demoLog3 demoState3 demoRun3⟩

theorem MemList.add_ne_allocLimit (element node : Ptr) (l : MemList) :
    (l.add element node).1 ≠ .error .allocLimit := by
  unfold MemList.add
  split
  · simp
  · split
    · simp
    · split <;> (try simp) <;> split <;> simp

theorem MemMngr.memAlloc_allocLimit_iff (m : MemMngr) (type : MemType) (size : Nat)
    (file : Option String) (line : Nat) (e p n : Ptr) :
    (m.memAlloc type size file line e p n).1 = .error .allocLimit ↔
      m.ceilingOk size = false := by
  constructor
  · intro h
    cases hceil : m.ceilingOk size with
    | false => rfl
    | true =>
      exfalso
      by_cases he : e = 0
      · subst he
        rw [MemMngr.memAlloc_noEntry m type size file line p n hceil] at h
        cases h
      · by_cases hp : p = 0
        · subst hp
          rw [MemMngr.memAlloc_noBlock m type size file line e n hceil he] at h
          cases h
        · rw [MemMngr.memAlloc_booked m type size file line e p n hceil he hp] at h
          have hadd := MemList.add_ne_allocLimit e n m.itsMemEntries
          cases hres : (m.itsMemEntries.add e n).1 with
          | error er =>
            rw [hres] at h hadd
            simp only at h
            cases h
            exact hadd rfl
          | ok b =>
            rw [hres] at h
            cases h
  · intro h
    rw [MemMngr.memAlloc_reject m type size file line e p n h]

/-- C4 (as stated it fails): a request that brings `itsMemSize + size` to
exactly 1073741824, which does not exceed the limit, is rejected by the
assertion. -/
theorem ceiling_rejects_exactly_one_gib :
    MemMngr.fresh.itsMemSize + 1073741824 = 1073741824 ∧
      ¬ (MemMngr.fresh.itsMemSize + 1073741824 > 1073741824) ∧
      (MemMngr.fresh.memAlloc .Single 1073741824 (some UNKNOWN) 0 100 200 300).1
        = .error .allocLimit :=
  ⟨by decide, by decide, by decide⟩

/-- C4 (amended): for every manager state and every request size whose sum
`itsMemSize + size` is representable in `size_t`, `memAlloc` is rejected by the
ceiling assertion exactly when `itsMemSize + size` is at least 1073741824; in
particular a request that brings the sum to exactly 1073741824 is rejected. -/
theorem ceiling_rejects_iff_limit_reached (m : MemMngr) (type : MemType) (size : Nat)
    (file : Option String) (line : Nat) (e p n : Ptr)
    (h : m.itsMemSize + size < SIZE_MOD) :
    ((m.memAlloc type size file line e p n).1 = .error .allocLimit ↔
        1073741824 ≤ m.itsMemSize + size) ∧
      (m.itsMemSize + size = 1073741824 →
        (m.memAlloc type size file line e p n).1 = .error .allocLimit) := by
  have key : (m.memAlloc type size file line e p n).1 = .error .allocLimit ↔
      1073741824 ≤ m.itsMemSize + size := by
    rw [MemMngr.memAlloc_allocLimit_iff]
    unfold MemMngr.ceilingOk
    rw [Nat.mod_eq_of_lt h, decide_eq_false_iff_not]
    unfold ALLOCLIMIT
    omega
  exact ⟨key, fun heq => key.2 (by omega)⟩

theorem ceiling_rejects_iff_limit_reached_witness :
    demoState2.itsMemSize + 1073741420 < SIZE_MOD ∧
      (((demoState2.memAlloc .Single 1073741420 (some UNKNOWN) 0 102 202 302).1
            = .error .allocLimit ↔
          1073741824 ≤ demoState2.itsMemSize + 1073741420) ∧
        (demoState2.itsMemSize + 1073741420 = 1073741824 →
          (demoState2.memAlloc .Single 1073741420 (some UNKNOWN) 0 102 202 302).1
            = .error .allocLimit)) :=
  ⟨by decide,
    ceiling_rejects_iff_limit_reached demoState2 .Single 1073741420 (some UNKNOWN) 0 102 202 302
      (by decide)⟩

/-- C5 (the code departs from it): `memAlloc` on a fresh manager, with `malloc`
returning `NULL` inside `List::add`, fails with `bad_alloc` but has already
changed `itsMemSize`, `itsMemSizeMax` and `itsAllocCounter`; the registry is
still empty. -/
theorem memAlloc_fails_after_bookkeeping :
    (MemMngr.fresh.memAlloc .Single 4 (some UNKNOWN) 0 100 200 0).1 = .error .bad_alloc ∧
      (MemMngr.fresh.itsMemSize = 0 ∧
        (MemMngr.fresh.memAlloc .Single 4 (some UNKNOWN) 0 100 200 0).2.itsMemSize = 4) ∧
      (MemMngr.fresh.itsMemSizeMax = 0 ∧
        (MemMngr.fresh.memAlloc .Single 4 (some UNKNOWN) 0 100 200 0).2.itsMemSizeMax = 4) ∧
      (MemMngr.fresh.itsAllocCounter = 0 ∧
        (MemMngr.fresh.memAlloc .Single 4 (some UNKNOWN) 0 100 200 0).2.itsAllocCounter = 1) ∧
      (MemMngr.fresh.memAlloc .Single 4 (some UNKNOWN) 0 100 200 0).2.records = [] ∧
      (MemMngr.fresh.memAlloc .Single 4 (some UNKNOWN) 0 100 200 0).2.itsMemEntries.size = 0 :=
  ⟨by decide, ⟨by decide, by decide⟩, ⟨by decide, by decide⟩, ⟨by decide, by decide⟩,
    by decide, by decide⟩

/-- C6 (the code departs from it): `memFree` of an address without a record
dereferences a null pointer.  On an empty registry `List::remove` reads
`itsLast->itsElement` with `itsLast == NULL`; on a non-empty registry `remove`
returns `false` and `memFree` then reads `entry->itsSize` with
`entry == NULL`.  No failure is reported in either case. -/
theorem memFree_untracked_dereferences_null :
    MemMngr.fresh.records = [] ∧
      (MemMngr.fresh.memFree 8 .Single 200 (some UNKNOWN) 0).1 = .error .undefined ∧
      MemMngr.fresh.itsMemEntries.remove 8 0 = (.error .undefined, MemMngr.fresh.itsMemEntries) ∧
      demoState2.records.map MemEntry.itsMemPtr = [200, 201] ∧
      (demoState2.memFree 8 .Single 999 (some UNKNOWN) 0).1 = .error .undefined ∧
      demoState2.itsMemEntries.getEntry 8 demoState2.entries 999 = .ok 0 ∧
      (demoState2.itsMemEntries.remove 8 0).1 = .ok false ∧
      deref demoState2.entries 0 = none ∧
      demoState3.records.map MemEntry.itsMemPtr = [201] ∧
      (demoState3.memFree 8 .Single 200 (some UNKNOWN) 0).1 = .error .undefined := by
  refine ⟨by decide, by decide, ?_, by decide, by decide, by decide, by decide, by decide,
    by decide, by decide⟩
  exact MemList.remove_empty MemMngr.fresh_inv.repr 0 8

theorem MemMngr.getEntry_absent {m : MemMngr} {xs : List Slot} (hinv : m.Inv xs) (p : Ptr)
    (habs : ∀ x ∈ xs, x.2.itsMemPtr ≠ p) (fuel : Nat) (hf : xs.length ≤ fuel) :
    m.itsMemEntries.getEntry fuel m.entries p = .ok 0 := by
  unfold MemList.getEntry
  rw [hinv.repr.last]
  refine MemList.getEntryLoop_absent (xs.map Prod.fst) 0 fuel hinv.repr.seg ?_
    (by simpa using hf)
  intro d hd
  obtain ⟨y, hy, rfl⟩ := List.mem_map.1 hd
  exact ⟨y.2, hinv.recs y hy, habs y hy⟩

/-- C7: in every manager state whose registry is a well-formed list of live
records with pairwise distinct addresses, and whose `itsMemSize` (an
`unsigned int`) accounts for the record `r`, `memFree` of the address of `r`
returns (for any fuel of at least `size()`), leaves the registry equal to the
old one with exactly `r` deleted, the other records unchanged and in the same
order, decreases `itsMemSize` by `r.itsSize`, and afterwards `getEntry` of that
address returns `NULL`. -/
theorem memFree_deletes_exactly_the_record (m : MemMngr) (hwf : m.WellFormed)
    (hd : (m.records.map MemEntry.itsMemPtr).Nodup) (r : MemEntry) (hr : r ∈ m.records)
    (hbytes : r.itsSize ≤ m.itsMemSize) (htyped : m.itsMemSize < UINT_MOD)
    (type : MemType) (file : Option String) (line fuel : Nat)
    (hf : m.itsMemEntries.size ≤ fuel) :
    (m.memFree fuel type r.itsMemPtr file line).1 = .ok (printFree type r file line) ∧
      (∃ pre post, m.records = pre ++ r :: post ∧ r ∉ pre ∧ r ∉ post ∧
        (m.memFree fuel type r.itsMemPtr file line).2.records = pre ++ post) ∧
      (m.memFree fuel type r.itsMemPtr file line).2.records = m.records.erase r ∧
      (m.memFree fuel type r.itsMemPtr file line).2.itsMemSize + r.itsSize = m.itsMemSize ∧
      (m.memFree fuel type r.itsMemPtr file line).2.itsMemEntries.getEntry fuel
        (m.memFree fuel type r.itsMemPtr file line).2.entries r.itsMemPtr = .ok 0 := by
  obtain ⟨xs, hinv⟩ := hwf
  have hrec := hinv.records
  rw [hrec] at hd hr
  obtain ⟨x, hx, rfl⟩ := List.mem_map.1 hr
  obtain ⟨pre, post, rfl⟩ := List.append_of_mem hx
  have hsize : m.itsMemEntries.size = (pre ++ x :: post).length := hinv.size_eq
  rw [List.map_append, List.map_cons, List.map_append, List.map_cons, List.nodup_append,
    List.nodup_cons] at hd
  obtain ⟨_, ⟨hnpost, _⟩, hdisj⟩ := hd
  have hpost : ∀ y ∈ post, y.2.itsMemPtr ≠ x.2.itsMemPtr := by
    intro y hy he
    exact hnpost (List.mem_map.2 ⟨y.2, List.mem_map.2 ⟨y, hy, rfl⟩, he⟩)
  have hpre : ∀ y ∈ pre, y.2.itsMemPtr ≠ x.2.itsMemPtr := by
    intro y hy he
    exact hdisj (List.mem_map.2 ⟨y.2, List.mem_map.2 ⟨y, hy, rfl⟩, he⟩)
      (List.mem_cons_self _ _)
  have hxpre : x.2 ∉ pre.map Prod.snd := by
    intro hmem
    obtain ⟨y, hy, he⟩ := List.mem_map.1 hmem
    exact hpre y hy (by rw [he])
  have hxpost : x.2 ∉ post.map Prod.snd := by
    intro hmem
    obtain ⟨y, hy, he⟩ := List.mem_map.1 hmem
    exact hpost y hy (by rw [he])
  have hlen : post.length + 1 ≤ fuel := by
    rw [hsize] at hf
    simp only [List.length_append, List.length_cons] at hf
    omega
  obtain ⟨h1, h2, h3, _, _⟩ := MemMngr.memFree_ok hinv hpost type file line fuel hlen
  have hrec2 := h2.records
  refine ⟨h1, ⟨pre.map Prod.snd, post.map Prod.snd, ?_, hxpre, hxpost, ?_⟩, ?_, ?_, ?_⟩
  · rw [hrec, List.map_append, List.map_cons]
  · rw [hrec2, List.map_append]
  · rw [hrec2, hrec, List.map_append, List.map_append, List.map_cons,
      List.erase_append_right _ hxpre, List.erase_cons_head]
  · rw [h3]
    unfold UINT_MOD at htyped
    unfold SIZE_MOD UINT_MOD
    omega
  · refine MemMngr.getEntry_absent h2 x.2.itsMemPtr ?_ fuel ?_
    · intro y hy
      rcases List.mem_append.1 hy with hy | hy
      · exact hpre y hy
      · exact hpost y hy
    · rw [hsize] at hf
      simp only [List.length_append, List.length_cons] at hf ⊢
      omega

theorem memFree_deletes_exactly_the_record_witness :
    demoState2.WellFormed ∧ (demoState2.records.map MemEntry.itsMemPtr).Nodup ∧
      demoEntry1 ∈ demoState2.records ∧ demoEntry1.itsSize ≤ demoState2.itsMemSize ∧
      demoState2.itsMemSize < UINT_MOD ∧ demoState2.itsMemEntries.size ≤ 2 ∧
      demoState2.records = [demoEntry1, demoEntry2] ∧
      ((demoState2.memFree 2 .Array demoEntry1.itsMemPtr (some UNKNOWN) 0).1
          = .ok (printFree .Array demoEntry1 (some UNKNOWN) 0) ∧
        (∃ pre post, demoState2.records = pre ++ demoEntry1 :: post ∧ demoEntry1 ∉ pre ∧
          demoEntry1 ∉ post ∧
          (demoState2.memFree 2 .Array demoEntry1.itsMemPtr (some UNKNOWN) 0).2.records
            = pre ++ post) ∧
        (demoState2.memFree 2 .Array demoEntry1.itsMemPtr (some UNKNOWN) 0).2.records
          = demoState2.records.erase demoEntry1 ∧
        (demoState2.memFree 2 .Array demoEntry1.itsMemPtr (some UNKNOWN) 0).2.itsMemSize
          + demoEntry1.itsSize = demoState2.itsMemSize ∧
        (demoState2.memFree 2 .Array demoEntry1.itsMemPtr (some UNKNOWN) 0).2.itsMemEntries.getEntry
          2 (demoState2.memFree 2 .Array demoEntry1.itsMemPtr (some UNKNOWN) 0).2.entries
          demoEntry1.itsMemPtr = .ok 0) :=
  ⟨demoRun2.valid.inv, by decide, by decide, by decide, by decide, by decide, by decide,
    memFree_deletes_exactly_the_record demoState2 demoRun2.valid.inv (by decide) demoEntry1
      (by decide) (by decide) (by decide) .Array (some UNKNOWN) 0 2 (by decide)⟩

/-! ## What one surviving call does to the records -/

theorem MemMngr.step_records_alloc {m : MemMngr} (hv : m.Valid) (type : MemType) (size : Nat)
    (file : Option String) (line : Nat) (e p n : Ptr)
    (hal : (Call.memAlloc type size file line e p n).Allowed m)
    (hs : survives ((m.memAlloc type size file line e p n).1.map (fun _ => ())) = true) :
    ((m.memAlloc type size file line e p n).1
          = .ok (p, printAlloc (m.newEntry type size file line p)) ∧ p ≠ 0 ∧
        (m.memAlloc type size file line e p n).2.records
          = m.records ++ [m.newEntry type size file line p]) ∨
      ((m.memAlloc type size file line e p n).1 = .error .bad_alloc ∧
        (m.memAlloc type size file line e p n).2.records = m.records) := by
  obtain ⟨xs, hinv⟩ := hv.inv
  rcases MemMngr.alloc_step hinv hv.limit type size file line e p n hal hs with
    ⟨h1, _, h2, _⟩ | ⟨_, hp, _, _, _, _, hcase⟩
  · right
    exact ⟨h1, by rw [h2.records, hinv.records]⟩
  · rcases hcase with ⟨h1, _, h2⟩ | ⟨h1, _, h2⟩
    · right
      exact ⟨h1, by rw [h2.records, hinv.records]⟩
    · left
      refine ⟨h1, hp, ?_⟩
      rw [h2.records, hinv.records, List.map_append]
      rfl

theorem MemMngr.step_records_free {m : MemMngr} (hv : m.Valid) (type : MemType) (p : Ptr)
    (file : Option String) (line fuel : Nat)
    (hs : survives ((m.memFree fuel type p file line).1.map (fun _ => ())) = true) :
    ∃ pre r post, m.records = pre ++ r :: post ∧ r.itsMemPtr = p ∧
      (∀ q ∈ post, q.itsMemPtr ≠ p) ∧
      (m.memFree fuel type p file line).1 = .ok (printFree type r file line) ∧
      (m.memFree fuel type p file line).2.records = pre ++ post := by
  obtain ⟨xs, hinv⟩ := hv.inv
  have hbytes := hv.bytes
  rw [hinv.records] at hbytes
  obtain ⟨pre, x, post, rfl, hx, hpost, h1, h2, _⟩ :=
    MemMngr.free_step hinv hbytes hv.limit type p file line fuel hs
  refine ⟨pre.map Prod.snd, x.2, post.map Prod.snd, ?_, hx, ?_, h1, ?_⟩
  · rw [hinv.records, List.map_append, List.map_cons]
  · intro q hq
    obtain ⟨y, hy, rfl⟩ := List.mem_map.1 hq
    exact hpost y hy
  · rw [h2.records, List.map_append]

theorem MemMngr.step_addresses {m : MemMngr} (hv : m.Valid) (hnd : m.addresses.Nodup)
    (call : Call) (fuel : Nat) (hal : call.Allowed m)
    (hs : survives (call.exec fuel m).1 = true)
    (hfr : call.FreshBlock m) :
    (call.exec fuel m).2.addresses.Nodup ∧ Event.KeepsAddresses ⟨fuel, call, m⟩ := by
  cases call with
  | memAlloc type size file line e p n =>
    have hstep := MemMngr.step_records_alloc hv type size file line e p n hal hs
    rcases hstep with ⟨h1, hp, h2⟩ | ⟨h1, h2⟩
    · have hpnot : p ∉ m.addresses := by
        intro hmem
        obtain ⟨r, hr, he⟩ := List.mem_map.1 hmem
        exact hfr hp r hr he
      have haddr : (m.memAlloc type size file line e p n).2.addresses = m.addresses ++ [p] := by
        unfold MemMngr.addresses
        rw [h2, List.map_append]
        rfl
      have hcount : (m.addresses ++ [p]).count p = 1 := by
        rw [List.count_append, List.count_eq_zero_of_not_mem hpnot]
        simp
      refine ⟨?_, ?_, ?_⟩
      · show (m.memAlloc type size file line e p n).2.addresses.Nodup
        rw [haddr, List.nodup_append]
        refine ⟨hnd, by simp, ?_⟩
        intro a ha hb
        simp only [List.mem_singleton] at hb
        subst hb
        exact hpnot ha
      · intro type2 size2 file2 line2 e2 p2 n2 hcall _
        cases hcall
        refine ⟨m.newEntry type size file line p, h2, rfl, rfl, rfl, ?_⟩
        show (m.memAlloc type size file line e p n).2.addresses.count p = 1
        rw [haddr]; exact hcount
      · intro q hq
        refine ⟨fun _ => ?_, fun hex => ?_⟩
        · show (m.memAlloc type size file line e p n).2.addresses.count q = 1
          have hqmem : q ∈ m.addresses := List.count_pos_iff.1 (by
            show 0 < List.count q m.addresses
            rw [show List.count q m.addresses = 1 from hq]; exact Nat.one_pos)
          have hqp : q ≠ p := fun he => hpnot (he ▸ hqmem)
          rw [haddr, List.count_append, show List.count q m.addresses = 1 from hq]
          simp [List.count_cons, Ne.symm hqp]
        · obtain ⟨_, _, _, hc⟩ := hex
          cases hc
    · have haddr : (m.memAlloc type size file line e p n).2.addresses = m.addresses := by
        unfold MemMngr.addresses
        rw [h2]
      refine ⟨?_, ?_, ?_⟩
      · show (m.memAlloc type size file line e p n).2.addresses.Nodup
        rw [haddr]; exact hnd
      · intro type2 size2 file2 line2 e2 p2 n2 hcall hres
        cases hcall
        have : (m.memAlloc type size file line e p n).1.map (fun _ => ())
            = Except.ok () := hres
        rw [h1] at this
        cases this
      · intro q hq
        refine ⟨fun _ => ?_, fun hex => ?_⟩
        · show (m.memAlloc type size file line e p n).2.addresses.count q = 1
          rw [haddr]; exact hq
        · obtain ⟨_, _, _, hc⟩ := hex
          cases hc
  | memFree type p file line =>
    obtain ⟨pre, r, post, hrec, hrp, _, _, h2⟩ :=
      MemMngr.step_records_free hv type p file line fuel hs
    have hbefore : m.addresses
        = pre.map MemEntry.itsMemPtr ++ p :: post.map MemEntry.itsMemPtr := by
      unfold MemMngr.addresses
      rw [hrec, List.map_append, List.map_cons, hrp]
    have hafter : (m.memFree fuel type p file line).2.addresses
        = pre.map MemEntry.itsMemPtr ++ post.map MemEntry.itsMemPtr := by
      unfold MemMngr.addresses
      rw [h2, List.map_append]
    rw [hbefore] at hnd
    refine ⟨?_, ?_, ?_⟩
    · show (m.memFree fuel type p file line).2.addresses.Nodup
      rw [hafter]
      rw [List.nodup_append, List.nodup_cons] at hnd
      rw [List.nodup_append]
      exact ⟨hnd.1, hnd.2.1.2, fun a ha hb => hnd.2.2 ha (List.mem_cons_of_mem _ hb)⟩
    · intro type2 size2 file2 line2 e2 p2 n2 hcall _
      cases hcall
    · intro q hq
      have hq2 : List.count q
          (pre.map MemEntry.itsMemPtr ++ p :: post.map MemEntry.itsMemPtr) = 1 := by
        rw [← hbefore]; exact hq
      rw [List.count_append, List.count_cons] at hq2
      refine ⟨fun hne => ?_, fun hex => ?_⟩
      · show (m.memFree fuel type p file line).2.addresses.count q = 1
        have hpq : p ≠ q := fun he => hne type file line (by rw [he])
        rw [hafter, List.count_append]
        simp only [beq_iff_eq, hpq, if_false] at hq2
        omega
      · show (m.memFree fuel type p file line).2.addresses.count q = 0
        obtain ⟨_, _, _, hc⟩ := hex
        cases hc
        rw [hafter, List.count_append]
        simp only [beq_self_eq_true, if_true] at hq2
        omega

theorem Run.addresses {log : List Event} {m : MemMngr} (h : Run log m)
    (hfresh : AddrFresh log) :
    m.addresses.Nodup ∧ ∀ ev ∈ log, ev.KeepsAddresses := by
  induction h with
  | fresh => exact ⟨by decide, fun ev hev => by cases hev⟩
  | @step log m fuel call hrun hal hs ih =>
    have hfresh2 : AddrFresh log := fun ev hev => hfresh ev (List.mem_cons_of_mem _ hev)
    obtain ⟨hnd, hall⟩ := ih hfresh2
    have hhead := hfresh ⟨fuel, call, m⟩ (List.mem_cons_self _ _)
    obtain ⟨h1, h2⟩ := MemMngr.step_addresses hrun.valid hnd call fuel hal hs hhead
    refine ⟨h1, ?_⟩
    intro ev hev
    rcases List.mem_cons.1 hev with rfl | hev
    · exact h2
    · exact hall ev hev

/-- The kind, file and line passed to `memFree` reach `printFree` only: the
state after the call and whether it returns do not depend on them. -/
theorem MemMngr.memFree_kind_irrelevant (m : MemMngr) (fuel : Nat) (kind1 kind2 : MemType)
    (p : Ptr) (file1 file2 : Option String) (line1 line2 : Nat) :
    (m.memFree fuel kind1 p file1 line1).2 = (m.memFree fuel kind2 p file2 line2).2 ∧
      (m.memFree fuel kind1 p file1 line1).1.map (fun _ => ())
        = (m.memFree fuel kind2 p file2 line2).1.map (fun _ => ()) ∧
      (m.memFree fuel .Single p file1 line1).2.records
        = (m.memFree fuel .Array p file1 line1).2.records ∧
      (m.memFree fuel .Single p file1 line1).2.itsMemSize
        = (m.memFree fuel .Array p file1 line1).2.itsMemSize := by
  have key : ∀ (k1 k2 : MemType) (f1 f2 : Option String) (l1 l2 : Nat),
      (m.memFree fuel k1 p f1 l1).2 = (m.memFree fuel k2 p f2 l2).2 ∧
        (m.memFree fuel k1 p f1 l1).1.map (fun _ => ())
          = (m.memFree fuel k2 p f2 l2).1.map (fun _ => ()) := by
    intro k1 k2 f1 f2 l1 l2
    unfold MemMngr.memFree
    cases m.itsMemEntries.getEntry fuel m.entries p with
    | error e => exact ⟨rfl, rfl⟩
    | ok entry =>
      simp only
      rcases m.itsMemEntries.remove fuel entry with ⟨res, l2⟩
      cases res with
      | error e => exact ⟨rfl, rfl⟩
      | ok b =>
        simp only
        cases deref m.entries entry with
        | none => exact ⟨rfl, rfl⟩
        | some r => exact ⟨rfl, rfl⟩
  refine ⟨(key _ _ _ _ _ _).1, (key _ _ _ _ _ _).2, ?_, ?_⟩
  · rw [(key .Single .Array file1 file1 line1 line1).1]
  · rw [(key .Single .Array file1 file1 line1 line1).1]

/-- What `memFree` does for a tracked address `p` in a well-formed state, with
fuel of at least `size()`: it returns, having printed the `printFree` line of
the record `r` nearest the tail whose address is `p`, removed exactly `r` from
the registry and subtracted `r.itsSize` from `itsMemSize` in `unsigned int`. -/
theorem MemMngr.memFree_tracked {m : MemMngr} (hwf : m.WellFormed) (p : Ptr)
    (htracked : ∃ r ∈ m.records, r.itsMemPtr = p) (fuel : Nat)
    (hf : m.itsMemEntries.size ≤ fuel) :
    ∃ pre r post, m.records = pre ++ r :: post ∧ r.itsMemPtr = p ∧
      (∀ q ∈ post, q.itsMemPtr ≠ p) ∧
      ∀ (type : MemType) (file : Option String) (line : Nat),
        (m.memFree fuel type p file line).1 = .ok (printFree type r file line) ∧
          (m.memFree fuel type p file line).2.records = pre ++ post ∧
          (m.memFree fuel type p file line).2.itsMemEntries.size + 1
            = m.itsMemEntries.size ∧
          (m.memFree fuel type p file line).2.itsMemSize
            = ((m.itsMemSize + SIZE_MOD - r.itsSize % SIZE_MOD) % SIZE_MOD) % UINT_MOD ∧
          (m.memFree fuel type p file line).2.itsMemSizeMax = m.itsMemSizeMax ∧
          (m.memFree fuel type p file line).2.itsAllocCounter = m.itsAllocCounter := by
  obtain ⟨xs, hinv⟩ := hwf
  have hrec := hinv.records
  have hsize : m.itsMemEntries.size = xs.length := hinv.size_eq
  have hex : ∃ x ∈ xs, x.2.itsMemPtr = p := by
    obtain ⟨r, hr, hp⟩ := htracked
    rw [hrec] at hr
    obtain ⟨x, hx, rfl⟩ := List.mem_map.1 hr
    exact ⟨x, hx, hp⟩
  obtain ⟨pre, x, post, rfl, hx, hpost⟩ :=
    split_at_last (fun x : Slot => x.2.itsMemPtr = p) xs hex
  subst hx
  have hlen : post.length + 1 ≤ fuel := by
    rw [hsize] at hf
    simp only [List.length_append, List.length_cons] at hf
    omega
  refine ⟨pre.map Prod.snd, x.2, post.map Prod.snd, ?_, rfl, ?_, ?_⟩
  · rw [hrec, List.map_append, List.map_cons]
  · intro q hq
    obtain ⟨y, hy, rfl⟩ := List.mem_map.1 hq
    exact hpost y hy
  · intro type file line
    obtain ⟨h1, h2, h3, h4, h5⟩ := MemMngr.memFree_ok hinv hpost type file line fuel hlen
    refine ⟨h1, ?_, ?_, h3, h4, h5⟩
    · rw [h2.records, List.map_append]
    · have hs2 : (m.memFree fuel type x.2.itsMemPtr file line).2.itsMemEntries.size
          = (pre ++ post).length := h2.size_eq
      rw [hs2, hsize]
      simp only [List.length_append, List.length_cons]
      omega

/-- C9: in every manager state whose registry is a well-formed list of live
records and whose `itsMemSize` (an `unsigned int`) accounts for the records of
the address, `memFree` of a tracked address `p` returns whatever kind it is
called with (for any fuel of at least `size()`), and with either kind it
removes from the registry exactly the record `r` nearest the tail whose address
is `p`, keeps the other records in order, decreases `size()` by one and
`itsMemSize` by `r.itsSize`, and leaves `itsMemSizeMax` and `itsAllocCounter`
as they were; the states after a release with kind `Single` and after a release
with kind `Array` are equal.  So a release whose kind differs from the kind of
the record removes the record and decrements `itsMemSize` exactly as a matching
release does. -/
theorem release_kind_does_not_matter (m : MemMngr) (hwf : m.WellFormed) (p : Ptr)
    (htracked : ∃ r ∈ m.records, r.itsMemPtr = p)
    (hbytes : ∀ r ∈ m.records, r.itsMemPtr = p → r.itsSize ≤ m.itsMemSize)
    (htyped : m.itsMemSize < UINT_MOD) (fuel : Nat) (hf : m.itsMemEntries.size ≤ fuel) :
    ∃ pre r post, m.records = pre ++ r :: post ∧ r.itsMemPtr = p ∧
      (∀ q ∈ post, q.itsMemPtr ≠ p) ∧
      (∀ (kind : MemType) (file : Option String) (line : Nat),
        (∃ out, (m.memFree fuel kind p file line).1 = .ok out) ∧
          (m.memFree fuel kind p file line).2.records = pre ++ post ∧
          (m.memFree fuel kind p file line).2.itsMemEntries.size + 1
            = m.itsMemEntries.size ∧
          (m.memFree fuel kind p file line).2.itsMemSize + r.itsSize = m.itsMemSize ∧
          (m.memFree fuel kind p file line).2.itsMemSizeMax = m.itsMemSizeMax ∧
          (m.memFree fuel kind p file line).2.itsAllocCounter = m.itsAllocCounter) ∧
      (∀ (file1 file2 : Option String) (line1 line2 : Nat),
        (m.memFree fuel .Single p file1 line1).2
          = (m.memFree fuel .Array p file2 line2).2) := by
  obtain ⟨pre, r, post, hrec, hp, hpost, hall⟩ := MemMngr.memFree_tracked hwf p htracked fuel hf
  have hr : r ∈ m.records := by rw [hrec]; simp
  have hle := hbytes r hr hp
  refine ⟨pre, r, post, hrec, hp, hpost, ?_, ?_⟩
  · intro kind file line
    obtain ⟨h1, h2, h3, h4, h5, h6⟩ := hall kind file line
    refine ⟨⟨_, h1⟩, h2, h3, ?_, h5, h6⟩
    rw [h4]
    unfold UINT_MOD at htyped
    unfold SIZE_MOD UINT_MOD
    omega
  · intro file1 file2 line1 line2
    exact (MemMngr.memFree_kind_irrelevant m fuel .Single .Array p file1 file2 line1 line2).1

theorem release_kind_does_not_matter_witness :
    demoState2.WellFormed ∧ demoState2.records = [demoEntry1, demoEntry2] ∧
      demoEntry1.itsMemPtr = 200 ∧ demoEntry1.itsType = .Single ∧ demoEntry1.itsSize = 4 ∧
      demoState2.itsMemSize = 404 ∧
      (demoState2.memFree 2 .Array 200 (some UNKNOWN) 0).2.records = [demoEntry2] ∧
      (demoState2.memFree 2 .Array 200 (some UNKNOWN) 0).2.itsMemSize = 400 ∧
      (demoState2.memFree 2 .Single 200 (some UNKNOWN) 0).2.records = [demoEntry2] ∧
      (demoState2.memFree 2 .Single 200 (some UNKNOWN) 0).2.itsMemSize = 400 ∧
      ∃ pre r post, demoState2.records = pre ++ r :: post ∧ r.itsMemPtr = 200 ∧
        (∀ q ∈ post, q.itsMemPtr ≠ 200) ∧
        (∀ (kind : MemType) (file : Option String) (line : Nat),
          (∃ out, (demoState2.memFree 2 kind 200 file line).1 = .ok out) ∧
            (demoState2.memFree 2 kind 200 file line).2.records = pre ++ post ∧
            (demoState2.memFree 2 kind 200 file line).2.itsMemEntries.size + 1
              = demoState2.itsMemEntries.size ∧
            (demoState2.memFree 2 kind 200 file line).2.itsMemSize + r.itsSize
              = demoState2.itsMemSize ∧
            (demoState2.memFree 2 kind 200 file line).2.itsMemSizeMax
              = demoState2.itsMemSizeMax ∧
            (demoState2.memFree 2 kind 200 file line).2.itsAllocCounter
              = demoState2.itsAllocCounter) ∧
        (∀ (file1 file2 : Option String) (line1 line2 : Nat),
          (demoState2.memFree 2 .Single 200 file1 line1).2
            = (demoState2.memFree 2 .Array 200 file2 line2).2) :=
  ⟨demoRun2.valid.inv, by decide, by decide, by decide, by decide, by decide, by decide,
    by decide, by decide, by decide,
    release_kind_does_not_matter demoState2 demoRun2.valid.inv 200
      ⟨demoEntry1, by decide, by decide⟩ (by decide) (by decide) 2 (by decide)⟩

theorem MemList.getEntryLoop_result (nodes : Ptr → Option Node)
    (entries : Ptr → Option MemEntry) (memPtr : Ptr) :
    ∀ (k : Nat) (node e : Ptr),
      MemList.getEntryLoop nodes entries memPtr k node = .ok e →
      e = 0 ∨ ∃ r, deref entries e = some r ∧ r.itsMemPtr = memPtr := by
  intro k
  induction k with
  | zero =>
    intro node e h
    unfold MemList.getEntryLoop at h
    by_cases h0 : node = 0
    · simp [h0] at h; exact Or.inl h.symm
    · simp [h0] at h
  | succ k ih =>
    intro node e h
    unfold MemList.getEntryLoop at h
    by_cases h0 : node = 0
    · simp [h0] at h; exact Or.inl h.symm
    · simp only [h0, if_false] at h
      cases hn : nodes node with
      | none => simp [hn] at h
      | some n =>
        simp only [hn] at h
        cases hc : deref entries n.itsElement with
        | none => simp [hc] at h
        | some c =>
          simp only [hc] at h
          by_cases hp : memPtr = c.itsMemPtr
          · simp only [hp, if_true] at h
            cases h
            exact Or.inr ⟨c, hc, hp.symm⟩
          · simp only [hp, if_false] at h
            exact ih _ _ h

theorem printFree_marker (type : MemType) (r : MemEntry) (file : Option String) (line : Nat) :
    (Tok.str WRONG_DELETE ∈ printFree type r file line ↔ type ≠ r.itsType) ∧
      Tok.ptr r.itsMemPtr ∈ printFree type r file line ∧
      Tok.num r.itsAllocNumber ∈ printFree type r file line := by
  have hd : Tok.str "operator delete" ≠ Tok.str WRONG_DELETE := by decide
  have h1 : Tok.str "[]" ≠ Tok.str WRONG_DELETE := by decide
  have h2 : Tok.str "  " ≠ Tok.str WRONG_DELETE := by decide
  have h3 : Tok.str ":" ≠ Tok.str WRONG_DELETE := by decide
  have h4 : Tok.str "\t" ≠ Tok.str WRONG_DELETE := by decide
  have h5 : Tok.str ", " ≠ Tok.str WRONG_DELETE := by decide
  have h6 : Tok.str "#" ≠ Tok.str WRONG_DELETE := by decide
  refine ⟨?_, by simp [printFree], by simp [printFree]⟩
  unfold printFree
  by_cases hk : type = r.itsType
  · simp only [hk, ne_eq, not_true_eq_false, if_false, List.append_nil, iff_false]
    intro hmem
    simp only [List.cons_append, List.nil_append, List.mem_cons, List.mem_singleton,
      List.not_mem_nil, or_false] at hmem
    rcases hmem with h | h | h | h | h | h | h | h | h
    · exact hd h.symm
    · by_cases ha : r.itsType = MemType.Array
      · rw [if_pos ha] at h; exact h1 h.symm
      · rw [if_neg ha] at h; exact h2 h.symm
    · exact h3 h.symm
    · exact h4 h.symm
    · cases h
    · exact h5 h.symm
    · exact h6 h.symm
    · cases h
    · cases h
  · simp [hk]

/-- C10: in every manager state whose registry is a well-formed list of live
records, `memFree` of a tracked address `p` returns (for any fuel of at least
`size()`) and the line it has printed is
`operator delete` + `[]` or two blanks + `:` + tab + address + `, ` + `#` +
allocation number, then `, *** Wrong delete ***` when the kinds differ, then
`endl`, where the address and the allocation number are those of the record `r`
nearest the tail whose address is `p`.  The line contains the text
`, *** Wrong delete ***` if and only if the kind of the call differs from the
kind stored in `r`, and in both cases it contains the address and the
allocation number of `r`. -/
theorem wrong_delete_flag_iff_kinds_differ (m : MemMngr) (hwf : m.WellFormed) (p : Ptr)
    (htracked : ∃ r ∈ m.records, r.itsMemPtr = p) (fuel : Nat)
    (hf : m.itsMemEntries.size ≤ fuel) :
    ∃ pre r post, m.records = pre ++ r :: post ∧ r.itsMemPtr = p ∧
      (∀ q ∈ post, q.itsMemPtr ≠ p) ∧
      ∀ (type : MemType) (file : Option String) (line : Nat),
        ∃ out, (m.memFree fuel type p file line).1 = .ok out ∧
          out = [Tok.str "operator delete",
                 Tok.str (if type = MemType.Array then "[]" else "  "),
                 Tok.str ":", Tok.str "\t", Tok.ptr p, Tok.str ", ", Tok.str "#",
                 Tok.num r.itsAllocNumber]
                ++ (if type ≠ r.itsType then [Tok.str ", *** Wrong delete ***"] else [])
                ++ [Tok.endl] ∧
          (Tok.str ", *** Wrong delete ***" ∈ out ↔ type ≠ r.itsType) ∧
          Tok.ptr p ∈ out ∧ Tok.num r.itsAllocNumber ∈ out := by
  obtain ⟨pre, r, post, hrec, hp, hpost, hall⟩ := MemMngr.memFree_tracked hwf p htracked fuel hf
  refine ⟨pre, r, post, hrec, hp, hpost, ?_⟩
  intro type file line
  obtain ⟨hm1, hm2, hm3⟩ := printFree_marker type r file line
  refine ⟨_, (hall type file line).1, ?_, hm1, hp ▸ hm2, hm3⟩
  rw [← hp]
  rfl

theorem wrong_delete_flag_iff_kinds_differ_witness :
    demoState2.WellFormed ∧ demoState2.records = [demoEntry1, demoEntry2] ∧
      demoEntry1.itsMemPtr = 200 ∧ demoEntry1.itsType = .Single ∧
      demoEntry1.itsAllocNumber = 1 ∧
      (demoState2.memFree 2 .Array 200 (some UNKNOWN) 0).1
        = .ok [Tok.str "operator delete", Tok.str "[]", Tok.str ":", Tok.str "\t",
            Tok.ptr 200, Tok.str ", ", Tok.str "#", Tok.num 1,
            Tok.str ", *** Wrong delete ***", Tok.endl] ∧
      (demoState2.memFree 2 .Single 200 (some UNKNOWN) 0).1
        = .ok [Tok.str "operator delete", Tok.str "  ", Tok.str ":", Tok.str "\t",
            Tok.ptr 200, Tok.str ", ", Tok.str "#", Tok.num 1, Tok.endl] ∧
      ∃ pre r post, demoState2.records = pre ++ r :: post ∧ r.itsMemPtr = 200 ∧
        (∀ q ∈ post, q.itsMemPtr ≠ 200) ∧
        ∀ (type : MemType) (file : Option String) (line : Nat),
          ∃ out, (demoState2.memFree 2 type 200 file line).1 = .ok out ∧
            out = [Tok.str "operator delete",
                   Tok.str (if type = MemType.Array then "[]" else "  "),
                   Tok.str ":", Tok.str "\t", Tok.ptr 200, Tok.str ", ", Tok.str "#",
                   Tok.num r.itsAllocNumber]
                  ++ (if type ≠ r.itsType then [Tok.str ", *** Wrong delete ***"] else [])
                  ++ [Tok.endl] ∧
            (Tok.str ", *** Wrong delete ***" ∈ out ↔ type ≠ r.itsType) ∧
            Tok.ptr 200 ∈ out ∧ Tok.num r.itsAllocNumber ∈ out :=
  ⟨demoRun2.valid.inv, by decide, by decide, by decide, by decide, by decide, by decide,
    wrong_delete_flag_iff_kinds_differ demoState2 demoRun2.valid.inv 200
      ⟨demoEntry1, by decide, by decide⟩ 2 (by decide)⟩

/-! ## `List::remove` and `MemList::getEntry` as specified -/

/-- On a well-formed list that is not empty, `List::remove` does what its
documentation says: it returns `true` exactly when the element is stored,
unlinks the occurrence nearest the tail in that case, and returns `false`
without changing the list otherwise. -/
theorem MemList.remove_nonempty {l : MemList} {cs : List Cell} (h : l.Repr cs) (hne : cs ≠ [])
    (hsz : l.itsSize < UINT_MOD) (e : Ptr) (fuel : Nat) (hf : cs.length ≤ fuel) :
    (e ∈ cs.map Prod.snd →
        ∃ pre n post l2, cs = pre ++ (n, e) :: post ∧ e ∉ post.map Prod.snd ∧
          l.remove fuel e = (.ok true, l2) ∧ l2.Repr (pre ++ post) ∧
          l2.itsSize + 1 = l.itsSize ∧
          l2.elements = pre.map Prod.snd ++ post.map Prod.snd) ∧
      (e ∉ cs.map Prod.snd → l.remove fuel e = (.ok false, l)) := by
  constructor
  · intro hmem
    obtain ⟨pre, c, post, rfl, hc, hpost⟩ :=
      split_at_last (fun c : Cell => c.2 = e) cs (by
        obtain ⟨c, hc, he⟩ := List.mem_map.1 hmem
        exact ⟨c, hc, he⟩)
    obtain ⟨n, e2⟩ := c
    simp only at hc
    subst hc
    obtain ⟨l2, hl2, hrep⟩ := MemList.remove_found h hsz (fun d hd => hpost d hd) fuel (by
      simp only [List.length_append, List.length_cons] at hf
      omega)
    refine ⟨pre, n, post, l2, rfl, ?_, hl2, hrep, ?_, ?_⟩
    · intro hm
      obtain ⟨d, hd, he⟩ := List.mem_map.1 hm
      exact hpost d hd he
    · rw [hrep.size, h.size]
      simp only [List.length_append, List.length_cons]
      omega
    · rw [hrep.elements, List.map_append]
  · intro habs
    exact MemList.remove_absent h hne e
      (fun d hd he => habs (List.mem_map.2 ⟨d, hd, he⟩)) fuel (by omega)

/-- C16 (the code departs from it): on the empty list `List::remove` does not
return `false`; it reads `current->itsElement` with `current == itsLast == NULL`,
which is undefined behaviour, whatever the element and the fuel. -/
theorem remove_on_empty_list_dereferences_null :
    MemList.init.elements = [] ∧ MemList.init.size = 0 ∧ MemList.init.last = 0 ∧
      (MemList.init.remove 8 100).1 = .error .undefined ∧
      (MemList.init.remove 0 0).1 = .error .undefined ∧
      (∀ fuel e, (MemList.init.remove fuel e).1 = .error .undefined) := by
  refine ⟨by decide, by decide, by decide, by decide, by decide, ?_⟩
  intro fuel e
  have h : MemList.init.Repr [] := MemMngr.fresh_inv.repr
  rw [MemList.remove_empty h e fuel]

/-- C17: in every manager state whose registry is a well-formed list of live
records, `getEntry(p)` (with fuel of at least `size()`) returns the pointer to
the record nearest the tail whose address is `p`, when there is one, and it
returns `NULL` exactly when no record of the registry has address `p`.
`getEntry` is a `const` method: it yields a pointer and no new state. -/
theorem getEntry_returns_record_nearest_tail (m : MemMngr) (hwf : m.WellFormed) (p : Ptr)
    (fuel : Nat) (hf : m.itsMemEntries.size ≤ fuel) :
    ((∃ r ∈ m.records, r.itsMemPtr = p) →
        ∃ e pre r post, m.itsMemEntries.getEntry fuel m.entries p = .ok e ∧ e ≠ 0 ∧
          deref m.entries e = some r ∧ r.itsMemPtr = p ∧
          m.records = pre ++ r :: post ∧ ∀ q ∈ post, q.itsMemPtr ≠ p) ∧
      (m.itsMemEntries.getEntry fuel m.entries p = .ok 0 ↔
        ∀ r ∈ m.records, r.itsMemPtr ≠ p) := by
  obtain ⟨xs, hinv⟩ := hwf
  have hsize : m.itsMemEntries.size = xs.length := hinv.size_eq
  have hrec := hinv.records
  have hfound : (∃ r ∈ m.records, r.itsMemPtr = p) →
      ∃ e pre r post, m.itsMemEntries.getEntry fuel m.entries p = .ok e ∧ e ≠ 0 ∧
        deref m.entries e = some r ∧ r.itsMemPtr = p ∧
        m.records = pre ++ r :: post ∧ ∀ q ∈ post, q.itsMemPtr ≠ p := by
    intro hex
    have hex2 : ∃ x ∈ xs, x.2.itsMemPtr = p := by
      obtain ⟨r, hr, hp⟩ := hex
      rw [hrec] at hr
      obtain ⟨x, hx, rfl⟩ := List.mem_map.1 hr
      exact ⟨x, hx, hp⟩
    obtain ⟨pre, x, post, rfl, hx, hpost⟩ :=
      split_at_last (fun x : Slot => x.2.itsMemPtr = p) xs hex2
    have hlast : m.itsMemEntries.itsLast = lastAddr x.1.1 (post.map Prod.fst) := by
      rw [hinv.repr.last, List.map_append, List.map_cons, lastAddr_append]; rfl
    have hget : m.itsMemEntries.getEntry fuel m.entries p = .ok x.1.2 := by
      unfold MemList.getEntry
      rw [hlast]
      refine MemList.getEntryLoop_found (pre.map Prod.fst) x.1 x.2 (post.map Prod.fst) 0 0 fuel
        (by simpa using hinv.repr.seg) (hinv.recs x (by simp)) hx ?_ ?_
      · intro d hd
        obtain ⟨y, hy, rfl⟩ := List.mem_map.1 hd
        exact ⟨y.2, hinv.recs y (by simp [hy]), hpost y hy⟩
      · rw [hsize] at hf
        simp only [List.length_append, List.length_cons, List.length_map] at hf ⊢
        omega
    refine ⟨x.1.2, pre.map Prod.snd, x.2, post.map Prod.snd, hget,
      (hinv.elem_live x (by simp)).1, hinv.recs x (by simp), hx, ?_, ?_⟩
    · rw [hrec, List.map_append, List.map_cons]
    · intro q hq
      obtain ⟨y, hy, rfl⟩ := List.mem_map.1 hq
      exact hpost y hy
  refine ⟨hfound, ?_, ?_⟩
  · intro hnull r hr hp
    obtain ⟨e, _, _, _, hget, he, _⟩ := hfound ⟨r, hr, hp⟩
    rw [hget] at hnull
    cases hnull
    exact he rfl
  · intro habs
    refine MemMngr.getEntry_absent hinv p ?_ fuel (by rw [← hsize]; exact hf)
    intro x hx
    exact habs x.2 (by rw [hrec]; exact List.mem_map_of_mem _ hx)

theorem getEntry_returns_record_nearest_tail_witness :
    demoState2.WellFormed ∧ demoState2.itsMemEntries.size ≤ 2 ∧
      demoState2.itsMemEntries.getEntry 2 demoState2.entries 201 = .ok 101 ∧
      deref demoState2.entries 101 = some demoEntry2 ∧
      (((∃ r ∈ demoState2.records, r.itsMemPtr = 201) →
          ∃ e pre r post, demoState2.itsMemEntries.getEntry 2 demoState2.entries 201 = .ok e ∧
            e ≠ 0 ∧ deref demoState2.entries e = some r ∧ r.itsMemPtr = 201 ∧
            demoState2.records = pre ++ r :: post ∧ ∀ q ∈ post, q.itsMemPtr ≠ 201) ∧
        (demoState2.itsMemEntries.getEntry 2 demoState2.entries 201 = .ok 0 ↔
          ∀ r ∈ demoState2.records, r.itsMemPtr ≠ 201)) :=
  ⟨demoRun2.valid.inv, by decide, by decide, by decide,
    getEntry_returns_record_nearest_tail demoState2 demoRun2.valid.inv 201 2 (by decide)⟩

/-! ## Lists reached by `add` and `remove` -/

theorem chainNext_of_Seg {nodes : Ptr → Option Node} {prev : Ptr} {cs : List Cell}
    (h : Seg nodes 0 prev cs) :
    chainNext nodes (cs.length + 1) (hdAddr 0 cs) = cs.map Prod.fst := by
  induction cs generalizing prev with
  | nil => simp [chainNext, deref]
  | cons c cs ih =>
    obtain ⟨h0, h1, h2⟩ := h
    simp only [List.length_cons, hdAddr_cons, List.map_cons]
    rw [chainNext]
    simp only [deref, h0, if_false, h1]
    rw [ih h2]

theorem chainPrev_of_Seg {nodes : Ptr → Option Node} (cs : List Cell) :
    ∀ (nxt : Ptr), Seg nodes nxt 0 cs →
      chainPrev nodes (cs.length + 1) (lastAddr 0 cs) = (cs.map Prod.fst).reverse := by
  induction cs using List.reverseRecOn with
  | nil => intro _ _; simp [chainPrev, deref]
  | append_singleton xs d ih =>
    intro nxt h
    obtain ⟨hs, hd0, hdn⟩ := Seg_last h
    rw [lastAddr_append]
    simp only [lastAddr_cons, lastAddr_nil, List.length_append, List.length_singleton,
      List.map_append, List.map_cons, List.map_nil, List.reverse_append, List.reverse_cons,
      List.reverse_nil, List.nil_append, List.singleton_append]
    rw [chainPrev]
    simp only [deref, hd0, if_false, hdn]
    rw [ih d.1 hs]

theorem ListRun.repr {l : MemList} (h : ListRun l) : ∃ cs, l.Repr cs ∧ cs.length < UINT_MOD := by
  induction h with
  | init => exact ⟨[], MemMngr.fresh_inv.repr, by simp [UINT_MOD]⟩
  | @add l element node _ hfresh hres ih =>
    obtain ⟨cs, hrep, hlen⟩ := ih
    by_cases hsz : cs.length + 1 < UINT_MOD
    · by_cases hn : node = 0
      · subst hn
        have hadd : l.add element 0 = (.error .bad_alloc, l) := by
          unfold MemList.add
          rw [hrep.size, Nat.mod_eq_of_lt hsz]
          simp
        rw [hadd]
        exact ⟨cs, hrep, hlen⟩
      · obtain ⟨_, h2⟩ := MemList.add_spec hrep hsz element node hn (hfresh hn)
        exact ⟨_, h2, by simpa using hsz⟩
    · exfalso
      have hadd : l.add element node = (.error .sizeGrowing, l) := by
        have hs : l.itsSize + 1 = UINT_MOD := by rw [hrep.size]; omega
        unfold MemList.add
        rw [hs]
        simp
      rw [hadd] at hres
      rcases hres with h1 | h1 <;> cases h1
  | @remove l fuel element _ hres ih =>
    obtain ⟨cs, hrep, hlen⟩ := ih
    obtain ⟨b, hb⟩ := hres
    have hmono := MemList.remove_mono l element fuel cs.length (by rw [hb]; simp)
    have hsz : l.itsSize < UINT_MOD := by rw [hrep.size]; exact hlen
    by_cases hne : cs = []
    · subst hne
      rw [MemList.remove_empty hrep element fuel] at hb
      cases hb
    · obtain ⟨hin, hout⟩ :=
        MemList.remove_nonempty hrep hne hsz element (fuel + cs.length) (by omega)
      by_cases hmem : element ∈ cs.map Prod.snd
      · obtain ⟨pre, n, post, l2, hcs, _, hrem, hrep2, _, _⟩ := hin hmem
        rw [← hmono, hrem]
        refine ⟨_, hrep2, ?_⟩
        rw [hcs] at hlen
        simp only [List.length_append, List.length_cons] at hlen ⊢
        omega
      · rw [← hmono, hout hmem]
        exact ⟨cs, hrep, hlen⟩

theorem MemList.Repr.first_null_iff {l : MemList} {cs : List Cell} (h : l.Repr cs) :
    (l.itsFirst = 0 ↔ l.itsSize = 0) ∧ (l.itsLast = 0 ↔ l.itsSize = 0) := by
  rw [h.first, h.last, h.size]
  cases cs with
  | nil => simp
  | cons c cs =>
    have h1 : c.1 ≠ 0 := h.seg.1
    have h2 : lastAddr 0 (c :: cs) ≠ 0 := lastAddr_ne_zero h.seg (by simp) 0
    rw [lastAddr_cons] at h2
    simp [h1, h2]

theorem MemList.Repr.ends {l : MemList} {cs : List Cell} (h : l.Repr cs) :
    (∀ n, deref l.nodes l.itsFirst = some n → n.itsPrevious = 0) ∧
      (∀ n, deref l.nodes l.itsLast = some n → n.itsNext = 0) ∧
      (l.itsSize ≠ 0 →
        (deref l.nodes l.itsFirst).isSome = true ∧ (deref l.nodes l.itsLast).isSome = true) := by
  rcases List.eq_nil_or_concat cs with rfl | ⟨xs, a, rfl⟩
  · have hf : l.itsFirst = 0 := h.first
    have hl : l.itsLast = 0 := h.last
    have hs : l.itsSize = 0 := h.size
    simp [hf, hl, hs, deref]
  · have hxa : xs.concat a = xs ++ [a] := by simp
    rw [hxa] at h
    obtain ⟨_, ha0, han⟩ := Seg_last h.seg
    have hl : l.itsLast = a.1 := by rw [h.last, lastAddr_append]; rfl
    have hfirst : ∃ c : Cell, l.itsFirst = c.1 ∧ c.1 ≠ 0 ∧
        ∃ nx, l.nodes c.1 = some ⟨c.2, 0, nx⟩ := by
      cases xs with
      | nil =>
        refine ⟨a, ?_, ha0, 0, ?_⟩
        · rw [h.first]; rfl
        · simpa using han
      | cons c ys =>
        obtain ⟨hc0, hcn, _⟩ := h.seg
        exact ⟨c, by rw [h.first]; rfl, hc0, _, hcn⟩
    obtain ⟨c, hfc, hc0, nx, hcn⟩ := hfirst
    refine ⟨?_, ?_, ?_⟩
    · intro n hn
      rw [hfc] at hn
      simp only [deref, hc0, if_false, hcn, Option.some.injEq] at hn
      rw [← hn]
    · intro n hn
      rw [hl] at hn
      simp only [deref, ha0, if_false, han, Option.some.injEq] at hn
      rw [← hn]
    · intro _
      rw [hfc, hl]
      simp [deref, hc0, ha0, hcn, han]

theorem getLast_addresses (cs : List Cell) :
    (cs.map Prod.fst).getLast? = if cs.length = 0 then none else some (lastAddr 0 cs) := by
  rcases List.eq_nil_or_concat cs with rfl | ⟨xs, a, rfl⟩
  · rfl
  · have hxa : xs.concat a = xs ++ [a] := by simp
    rw [hxa, lastAddr_append]
    simp

theorem MemList.Repr.add_returns {l : MemList} {cs : List Cell} (h : l.Repr cs)
    (hlen : cs.length < UINT_MOD) (e node : Ptr) (hfresh : node ≠ 0 → l.nodes node = none)
    (b : Bool) (hb : (l.add e node).1 = .ok b) :
    b = true ∧ (l.add e node).2.elements = l.elements ++ [e] := by
  by_cases hsz : cs.length + 1 < UINT_MOD
  · by_cases hn : node = 0
    · exfalso
      subst hn
      have hadd : l.add e 0 = (.error .bad_alloc, l) := by
        unfold MemList.add
        rw [h.size, Nat.mod_eq_of_lt hsz]
        simp
      rw [hadd] at hb
      cases hb
    · obtain ⟨h1, h2⟩ := MemList.add_spec h hsz e node hn (hfresh hn)
      rw [h1] at hb
      cases hb
      refine ⟨rfl, ?_⟩
      rw [h2.elements, h.elements, List.map_append]
      rfl
  · exfalso
    have hadd : l.add e node = (.error .sizeGrowing, l) := by
      have hs : l.itsSize + 1 = UINT_MOD := by rw [h.size]; omega
      unfold MemList.add
      rw [hs]
      simp
    rw [hadd] at hb
    cases hb

/-- C19: every list reached from an empty list by `List::add` and
`List::remove` is a well-formed doubly-linked chain.  Following `itsNext` from
`itsFirst` visits exactly `itsSize` nodes, all different, and ends at `itsLast`;
following `itsPrevious` from `itsLast` visits the same nodes in reverse order;
the first node has no previous and the last node has no next; `itsFirst` and
`itsLast` are `NULL` exactly when `itsSize` is 0.  Whenever `add(e)` returns it
returns `true` and the head-to-tail element sequence is the old one followed by
`e`; it does return when `malloc` yields a node and `itsSize + 1` does not wrap. -/
theorem reachable_list_is_doubly_linked_chain (l : MemList) (h : ListRun l) :
    (chainNext l.nodes (l.itsSize + 1) l.itsFirst).length = l.itsSize ∧
      (chainNext l.nodes (l.itsSize + 1) l.itsFirst).Nodup ∧
      (chainNext l.nodes (l.itsSize + 1) l.itsFirst).getLast?
        = (if l.itsSize = 0 then none else some l.itsLast) ∧
      chainPrev l.nodes (l.itsSize + 1) l.itsLast
        = (chainNext l.nodes (l.itsSize + 1) l.itsFirst).reverse ∧
      (∀ n, deref l.nodes l.itsFirst = some n → n.itsPrevious = 0) ∧
      (∀ n, deref l.nodes l.itsLast = some n → n.itsNext = 0) ∧
      (l.itsSize ≠ 0 →
        (deref l.nodes l.itsFirst).isSome = true ∧ (deref l.nodes l.itsLast).isSome = true) ∧
      (l.itsFirst = 0 ↔ l.itsSize = 0) ∧ (l.itsLast = 0 ↔ l.itsSize = 0) ∧
      (∀ e node b, (node ≠ 0 → l.nodes node = none) → (l.add e node).1 = .ok b →
        b = true ∧ (l.add e node).2.elements = l.elements ++ [e]) ∧
      (∀ e node, node ≠ 0 → l.nodes node = none → l.itsSize + 1 < UINT_MOD →
        (l.add e node).1 = .ok true) := by
  obtain ⟨cs, hrep, hlen⟩ := h.repr
  have hnext : chainNext l.nodes (l.itsSize + 1) l.itsFirst = cs.map Prod.fst := by
    rw [hrep.size, hrep.first]
    exact chainNext_of_Seg hrep.seg
  have hprev : chainPrev l.nodes (l.itsSize + 1) l.itsLast = (cs.map Prod.fst).reverse := by
    rw [hrep.size, hrep.last]
    exact chainPrev_of_Seg cs 0 hrep.seg
  obtain ⟨he1, he2, he3⟩ := hrep.ends
  obtain ⟨hn1, hn2⟩ := hrep.first_null_iff
  refine ⟨?_, ?_, ?_, ?_, he1, he2, he3, hn1, hn2, ?_, ?_⟩
  · rw [hnext, hrep.size, List.length_map]
  · rw [hnext]; exact hrep.nodup
  · rw [hnext, getLast_addresses, hrep.size, hrep.last]
  · rw [hprev, hnext]
  · intro e node b hfresh hb
    exact hrep.add_returns hlen e node hfresh b hb
  · intro e node hn hfresh hsz
    exact (MemList.add_spec hrep (by rw [← hrep.size]; exact hsz) e node hn hfresh).1

theorem demoListRun : ListRun demoList2 :=
  ListRun.remove 3 20
    (ListRun.add 30 302
      (ListRun.add 20 301
        (ListRun.add 10 300 ListRun.init (by decide) (by decide))
        (by decide) (by decide))
      (by decide) (by decide))
    (by decide)

theorem reachable_list_is_doubly_linked_chain_witness :
    ListRun demoList2 ∧ demoList2.elements = [10, 30] ∧
      chainNext demoList2.nodes 3 demoList2.itsFirst = [300, 302] ∧
      chainPrev demoList2.nodes 3 demoList2.itsLast = [302, 300] ∧
      ((chainNext demoList2.nodes (demoList2.itsSize + 1) demoList2.itsFirst).length
          = demoList2.itsSize ∧
        (chainNext demoList2.nodes (demoList2.itsSize + 1) demoList2.itsFirst).Nodup ∧
        (chainNext demoList2.nodes (demoList2.itsSize + 1) demoList2.itsFirst).getLast?
          = (if demoList2.itsSize = 0 then none else some demoList2.itsLast) ∧
        chainPrev demoList2.nodes (demoList2.itsSize + 1) demoList2.itsLast
          = (chainNext demoList2.nodes (demoList2.itsSize + 1) demoList2.itsFirst).reverse ∧
        (∀ n, deref demoList2.nodes demoList2.itsFirst = some n → n.itsPrevious = 0) ∧
        (∀ n, deref demoList2.nodes demoList2.itsLast = some n → n.itsNext = 0) ∧
        (demoList2.itsSize ≠ 0 →
          (deref demoList2.nodes demoList2.itsFirst).isSome = true ∧
            (deref demoList2.nodes demoList2.itsLast).isSome = true) ∧
        (demoList2.itsFirst = 0 ↔ demoList2.itsSize = 0) ∧
        (demoList2.itsLast = 0 ↔ demoList2.itsSize = 0) ∧
        (∀ e node b, (node ≠ 0 → demoList2.nodes node = none) →
          (demoList2.add e node).1 = .ok b →
          b = true ∧ (demoList2.add e node).2.elements = demoList2.elements ++ [e]) ∧
        (∀ e node, node ≠ 0 → demoList2.nodes node = none →
          demoList2.itsSize + 1 < UINT_MOD → (demoList2.add e node).1 = .ok true)) :=
  ⟨demoListRun, by decide, by decide, by decide,
    reachable_list_is_doubly_linked_chain demoList2 demoListRun⟩

/-! ## The shutdown report -/

theorem atExitLoop_spec {nodes : Ptr → Option Node} (xs : List Slot) :
    ∀ (nxt : Ptr) (fuel : Nat) (entries : Ptr → Option MemEntry),
      xs ≠ [] → Seg nodes nxt 0 (xs.map Prod.fst) →
      (∀ x ∈ xs, deref entries x.1.2 = some x.2) →
      (xs.map (fun x => x.1.2)).Nodup →
      (∀ x ∈ xs, x.2.itsFile ≠ none) → xs.length ≤ fuel + 1 →
      ∃ entries2,
        atExitLoop nodes fuel (lastAddr 0 (xs.map Prod.fst)) entries
          = (.ok ((xs.reverse.map (fun x => leakLine x.2 (x.2.itsFile.getD ""))).flatten),
              entries2) ∧
        (∀ x ∈ xs, entries2 x.1.2 = none) ∧
        (∀ q, (∀ x ∈ xs, x.1.2 ≠ q) → entries2 q = entries q) := by
  induction xs using List.reverseRecOn with
  | nil => intro _ _ _ h; exact absurd rfl h
  | append_singleton ys d ih =>
    intro nxt fuel entries _ hseg hrecs hnd hfiles hf
    have hseg2 : Seg nodes nxt 0 (ys.map Prod.fst ++ [d.1]) := by simpa using hseg
    obtain ⟨hs, hd0, hdn⟩ := Seg_last hseg2
    have hd := hrecs d (by simp)
    obtain ⟨f, hfile⟩ : ∃ f, d.2.itsFile = some f := by
      cases hfd : d.2.itsFile with
      | none => exact absurd hfd (hfiles d (by simp))
      | some f => exact ⟨f, rfl⟩
    have hlast : lastAddr 0 ((ys ++ [d]).map Prod.fst) = d.1.1 := by
      rw [List.map_append, lastAddr_append]; rfl
    have hne : ∀ y ∈ ys, y.1.2 ≠ d.1.2 := by
      intro y hy he
      rw [List.map_append, List.nodup_append] at hnd
      exact hnd.2.2 (List.mem_map.2 ⟨y, hy, rfl⟩) (by simp [he])
    rw [hlast]
    unfold atExitLoop
    simp only [deref, hd0, if_false, hdn]
    have hd2 : (if d.1.2 = 0 then none else entries d.1.2) = some d.2 := hd
    simp only [hd2, hfile]
    by_cases hys : ys = []
    · subst hys
      refine ⟨Function.update entries d.1.2 none, ?_, ?_, ?_⟩
      · simp [hfile]
      · intro x hx
        simp only [List.nil_append, List.mem_singleton] at hx
        subst hx
        exact Function.update_same _ _ _
      · intro q hq
        exact Function.update_noteq (Ne.symm (hq d (by simp))) _ _
    · have hpne : lastAddr 0 (ys.map Prod.fst) ≠ 0 :=
        lastAddr_ne_zero hs (by simpa using hys) 0
      simp only [hpne, if_false]
      obtain ⟨k, rfl⟩ : ∃ k, fuel = k + 1 := by
        cases fuel with
        | zero =>
          cases ys with
          | nil => exact absurd rfl hys
          | cons _ _ => simp at hf
        | succ k => exact ⟨k, rfl⟩
      obtain ⟨entries3, h1, h2, h3⟩ := ih d.1.1 k (Function.update entries d.1.2 none) hys hs
        (by
          intro y hy
          have hy2 := hrecs y (by simp [hy])
          unfold deref at hy2 ⊢
          by_cases h0 : y.1.2 = 0
          · simp [h0] at hy2
          · simp only [h0, if_false] at hy2 ⊢
            rw [Function.update_noteq (hne y hy)]
            exact hy2)
        (by
          rw [List.map_append, List.nodup_append] at hnd
          exact hnd.1)
        (fun y hy => hfiles y (by simp [hy]))
        (by simp only [List.length_append, List.length_singleton] at hf; omega)
      refine ⟨entries3, ?_, ?_, ?_⟩
      · simp only [h1]
        simp [hfile]
      · intro x hx
        rcases List.mem_append.1 hx with hx | hx
        · exact h2 x hx
        · simp only [List.mem_singleton] at hx
          subst hx
          rw [h3 _ (fun y hy => hne y hy)]
          exact Function.update_same _ _ _
      · intro q hq
        rw [h3 q (fun y hy => hq y (by simp [hy]))]
        exact Function.update_noteq (Ne.symm (hq d (by simp))) _ _

theorem MemMngr.atExit_spec {m : MemMngr} {xs : List Slot} (hinv : m.Inv xs)
    (hfiles : ∀ r ∈ m.records, r.itsFile ≠ none) (fuel : Nat) (hf : xs.length ≤ fuel + 1) :
    (m.atExit fuel).1
        = .ok (shutdownReport m.records.length m.itsMemSize m.itsMemSizeMax m.records.reverse) ∧
      (m.atExit fuel).2.itsMemEntries = m.itsMemEntries ∧
      (∀ x ∈ xs, (m.atExit fuel).2.entries x.1.2 = none) := by
  have hrec := hinv.records
  have hsize : m.itsMemEntries.size = xs.length := hinv.size_eq
  by_cases hxs : xs = []
  · subst hxs
    have h0 : m.itsMemEntries.size = 0 := hsize
    have hr0 : m.records = [] := by rw [hrec]; rfl
    unfold MemMngr.atExit
    simp only [h0, ne_eq, not_true_eq_false, if_false, hr0]
    refine ⟨?_, trivial, fun x hx => by cases hx⟩
    simp [shutdownReport]
  · have hpos : m.itsMemEntries.size ≠ 0 := by
      rw [hsize]
      cases xs with
      | nil => exact absurd rfl hxs
      | cons _ _ => simp
    obtain ⟨entries2, h1, h2, _⟩ := atExitLoop_spec xs 0 fuel m.entries hxs hinv.repr.seg
      hinv.recs hinv.elems
      (fun x hx => hfiles x.2 (by rw [hrec]; exact List.mem_map_of_mem _ hx)) hf
    have hlast : m.itsMemEntries.last = lastAddr 0 (xs.map Prod.fst) := hinv.repr.last
    have hrne : ¬ (List.map Prod.snd xs).reverse = [] := by
      simpa using hxs
    unfold MemMngr.atExit
    simp only [hpos, ne_eq, not_false_eq_true, if_true, hlast, h1]
    refine ⟨?_, trivial, h2⟩
    rw [hrec]
    simp only [shutdownReport, hrne, if_false, hsize, List.length_map, List.map_reverse,
      List.map_map]
    rfl

/-- On a list reached by `add` and `remove`, `clear` never returns with the
list empty: it can only return when `remove` has returned `false`, which it
does on a list that still has nodes. -/
theorem MemList.clear_returns_nonempty (rfuel : Nat) (entries : Ptr → Option MemEntry) :
    ∀ (fuel : Nat) (l : MemList), ListRun l →
      (l.clear rfuel entries fuel).1 = .ok () →
      (l.clear rfuel entries fuel).2.itsSize ≠ 0 ∧ ListRun (l.clear rfuel entries fuel).2 := by
  intro fuel
  induction fuel with
  | zero =>
    intro l hrun hok
    obtain ⟨cs, hrep, _⟩ := hrun.repr
    unfold MemList.clear at hok ⊢
    cases hn : deref l.nodes l.itsLast with
    | none => rw [hn] at hok; cases hok
    | some n =>
      rw [hn] at hok
      simp only at hok ⊢
      cases hr : deref entries n.itsElement with
      | none => rw [hr] at hok; cases hok
      | some r =>
        rw [hr] at hok
        simp only at hok ⊢
        rcases hrem : l.remove rfuel r.itsMemPtr with ⟨res, l2⟩
        rw [hrem] at hok
        cases res with
        | error e => cases hok
        | ok b =>
          cases b with
          | true => cases hok
          | false =>
            simp only
            have hl2 : l2 = l := by
              have := hrem
              unfold MemList.remove at this
              cases hfind : MemList.removeFind l.nodes r.itsMemPtr rfuel l.itsLast with
              | error e => rw [hfind] at this; cases this
              | ok o =>
                rw [hfind] at this
                cases o with
                | none => simp only [Prod.mk.injEq] at this; exact this.2.symm
                | some c =>
                  simp only at this
                  cases hu : l.unlink c with
                  | none => rw [hu] at this; cases this
                  | some l3 => rw [hu] at this; cases this
            subst hl2
            refine ⟨?_, hrun⟩
            intro hs
            have hlast := hrep.first_null_iff.2.2 hs
            rw [hlast] at hn
            simp [deref] at hn
  | succ k ih =>
    intro l hrun hok
    obtain ⟨cs, hrep, _⟩ := hrun.repr
    unfold MemList.clear at hok ⊢
    cases hn : deref l.nodes l.itsLast with
    | none => rw [hn] at hok; cases hok
    | some n =>
      rw [hn] at hok
      simp only at hok ⊢
      cases hr : deref entries n.itsElement with
      | none => rw [hr] at hok; cases hok
      | some r =>
        rw [hr] at hok
        simp only at hok ⊢
        rcases hrem : l.remove rfuel r.itsMemPtr with ⟨res, l2⟩
        rw [hrem] at hok
        cases res with
        | error e => cases hok
        | ok b =>
          have hrun2 : ListRun l2 := by
            have := ListRun.remove rfuel r.itsMemPtr hrun ⟨b, by rw [hrem]⟩
            rw [hrem] at this
            exact this
          cases b with
          | true =>
            simp only at hok ⊢
            exact ih l2 hrun2 hok
          | false =>
            simp only
            have hl2 : l2 = l := by
              have := hrem
              unfold MemList.remove at this
              cases hfind : MemList.removeFind l.nodes r.itsMemPtr rfuel l.itsLast with
              | error e => rw [hfind] at this; cases this
              | ok o =>
                rw [hfind] at this
                cases o with
                | none => simp only [Prod.mk.injEq] at this; exact this.2.symm
                | some c =>
                  simp only at this
                  cases hu : l.unlink c with
                  | none => rw [hu] at this; cases this
                  | some l3 => rw [hu] at this; cases this
            subst hl2
            refine ⟨?_, hrun⟩
            intro hs
            have hlast := hrep.first_null_iff.2.2 hs
            rw [hlast] at hn
            simp [deref] at hn

/-- C15 (the code departs from it): `clear` does not empty a list.  On the empty
list it reads `itsLast->itsElement` with `itsLast == NULL`.  On the registry of
two live records it passes `*element`, the block address stored first in the
record, to `remove`, which finds no such element and returns `false`: `clear`
returns with both nodes still linked. -/
theorem clear_does_not_empty_the_list :
    MemList.init.elements = [] ∧
      (MemList.init.clear 8 MemMngr.fresh.entries 8).1 = .error .undefined ∧
      demoState2.itsMemEntries.elements = [100, 101] ∧
      (demoState2.itsMemEntries.clear 8 demoState2.entries 8).1 = .ok () ∧
      (demoState2.itsMemEntries.clear 8 demoState2.entries 8).2.size = 2 ∧
      (demoState2.itsMemEntries.clear 8 demoState2.entries 8).2.elements = [100, 101] ∧
      (demoState2.itsMemEntries.clear 8 demoState2.entries 8).2.last = 301 ∧
      deref demoState2.entries 101 = some demoEntry2 ∧
      (demoState2.itsMemEntries.remove 8 demoEntry2.itsMemPtr).1 = .ok false :=
  ⟨by decide, by decide, by decide, by decide, by decide, by decide, by decide, by decide,
    by decide⟩

/-- In a state whose registry is a well-formed list of live records with file
names, the destructor always runs into undefined behaviour: `atExit` frees the
records and leaves the nodes, and `clear` then reads through `NULL` (empty
registry) or through a freed record. -/
theorem MemMngr.destroy_undefined {m : MemMngr} (hwf : m.WellFormed)
    (hfiles : ∀ r ∈ m.records, r.itsFile ≠ none) (fuel : Nat)
    (hf : m.itsMemEntries.size ≤ fuel) :
    (m.destroy fuel).1 = .error .undefined := by
  obtain ⟨xs, hinv⟩ := hwf
  have hsize : m.itsMemEntries.size = xs.length := hinv.size_eq
  obtain ⟨h1, h2, h3⟩ := MemMngr.atExit_spec hinv hfiles fuel (by omega)
  unfold MemMngr.destroy
  rcases hat : m.atExit fuel with ⟨res, m1⟩
  rw [hat] at h1 h2 h3
  simp only at h1 h2 h3
  subst h1
  simp only
  have hclear : (m1.itsMemEntries.clear fuel m1.entries fuel).1 = .error .undefined := by
    rw [h2]
    rcases List.eq_nil_or_concat xs with rfl | ⟨ys, d, rfl⟩
    · have hl : m.itsMemEntries.itsLast = 0 := hinv.repr.last
      unfold MemList.clear
      cases fuel <;> simp [hl, deref]
    · have hyd : ys.concat d = ys ++ [d] := by simp
      rw [hyd] at hinv h3
      have hseg : Seg m.itsMemEntries.nodes 0 0 (ys.map Prod.fst ++ [d.1]) := by
        simpa using hinv.repr.seg
      obtain ⟨_, hd0, hdn⟩ := Seg_last hseg
      have hl : m.itsMemEntries.itsLast = d.1.1 := by
        rw [hinv.repr.last, List.map_append, lastAddr_append]; rfl
      have hfreed : m1.entries d.1.2 = none := h3 d (by simp)
      unfold MemList.clear
      cases fuel <;> simp [hl, deref, hd0, hdn, hfreed]
  rcases hc : m1.itsMemEntries.clear fuel m1.entries fuel with ⟨res2, l2⟩
  rw [hc] at hclear
  simp only at hclear
  subst hclear
  rfl

/-- C14 (the code departs from it): the destructor does not leave an empty
registry.  `atExit` prints the report and frees the records but removes no
node; `clear` then dereferences `NULL` when the registry is empty and reads a
freed record when it is not.  After `atExit` on two leaked records the registry
still has size 2 and both nodes. -/
theorem teardown_does_not_empty_the_registry :
    MemMngr.fresh.records = [] ∧
      (MemMngr.fresh.atExit 8).1 = .ok (shutdownReport 0 0 0 []) ∧
      (MemMngr.fresh.destroy 8).1 = .error .undefined ∧
      demoState2.records = [demoEntry1, demoEntry2] ∧
      (demoState2.atExit 8).1 = .ok (shutdownReport 2 404 404 [demoEntry2, demoEntry1]) ∧
      (demoState2.atExit 8).2.itsMemEntries.size = 2 ∧
      (demoState2.atExit 8).2.itsMemEntries.first = 300 ∧
      (demoState2.atExit 8).2.itsMemEntries.last = 301 ∧
      (demoState2.atExit 8).2.itsMemEntries.elements = [100, 101] ∧
      (demoState2.atExit 8).2.entries 100 = none ∧
      (demoState2.atExit 8).2.entries 101 = none ∧
      (demoState2.destroy 8).1 = .error .undefined ∧
      (demoState2.destroy 8).2.itsMemEntries.size = 2 :=
  ⟨by decide, by decide, by decide, by decide, by decide, by decide, by decide, by decide,
    by decide, by decide, by decide, by decide, by decide⟩

/-! ## The hooks -/

/-- When a hook returns it has called `memAlloc` or `memFree` with its own kind
and the pending call site, and the pending call site is back at the sentinel
and line 0. -/
theorem hooks_on_return (g g2 : Globals) :
    (∀ size e p n r, operatorNew size e p n g = (.ok r, g2) →
        g.memMngr.memAlloc .Single size g.file g.line e p n = (.ok r, g2.memMngr) ∧
          g2.file = some UNKNOWN ∧ g2.line = 0) ∧
      (∀ size e p n r, operatorNewArray size e p n g = (.ok r, g2) →
        g.memMngr.memAlloc .Array size g.file g.line e p n = (.ok r, g2.memMngr) ∧
          g2.file = some UNKNOWN ∧ g2.line = 0) ∧
      (∀ fuel p out, operatorDelete fuel p g = (.ok out, g2) →
        g.memMngr.memFree fuel .Single p g.file g.line = (.ok out, g2.memMngr) ∧
          g2.file = some UNKNOWN ∧ g2.line = 0) ∧
      (∀ fuel p out, operatorDeleteArray fuel p g = (.ok out, g2) →
        g.memMngr.memFree fuel .Array p g.file g.line = (.ok out, g2.memMngr) ∧
          g2.file = some UNKNOWN ∧ g2.line = 0) := by
  refine ⟨?_, ?_, ?_, ?_⟩
  · intro size e p n r h
    unfold operatorNew at h
    rcases hm : g.memMngr.memAlloc .Single size g.file g.line e p n with ⟨res, m⟩
    rw [hm] at h
    cases res with
    | error er => cases h
    | ok r2 => cases h; exact ⟨rfl, rfl, rfl⟩
  · intro size e p n r h
    unfold operatorNewArray at h
    rcases hm : g.memMngr.memAlloc .Array size g.file g.line e p n with ⟨res, m⟩
    rw [hm] at h
    cases res with
    | error er => cases h
    | ok r2 => cases h; exact ⟨rfl, rfl, rfl⟩
  · intro fuel p out h
    unfold operatorDelete at h
    rcases hm : g.memMngr.memFree fuel .Single p g.file g.line with ⟨res, m⟩
    rw [hm] at h
    cases res with
    | error er => cases h
    | ok r2 => cases h; exact ⟨rfl, rfl, rfl⟩
  · intro fuel p out h
    unfold operatorDeleteArray at h
    rcases hm : g.memMngr.memFree fuel .Array p g.file g.line with ⟨res, m⟩
    rw [hm] at h
    cases res with
    | error er => cases h
    | ok r2 => cases h; exact ⟨rfl, rfl, rfl⟩

/-- C18 (the code departs from it): when `memAlloc` throws, `operator new`
leaves before `__file__ = UNKNOWN; __line__ = 0;`.  After a `new` at
`Demo.cpp:62` whose block `malloc` fails, the pending call site is still
`Demo.cpp:62`, and the next `operator new`, reached with no capture since,
records `Demo.cpp` and line 62 instead of the sentinel and 0. -/
theorem failed_new_leaves_stale_call_site :
    hookStart.file = some "Demo.cpp" ∧ hookStart.line = 62 ∧
      hookFailed.1 = .error .bad_alloc ∧
      hookFailed.2.file = some "Demo.cpp" ∧ hookFailed.2.line = 62 ∧
      hookFailed.2.memMngr.records = [] ∧
      hookLater.1.toBool = true ∧
      hookLater.2.memMngr.records =
        [{ itsMemPtr := 201, itsSize := 4, itsType := .Single, itsAllocNumber := 1,
           itsFile := some "Demo.cpp", itsLine := 62 }] ∧
      hookLater.2.memMngr.records.map MemEntry.itsFile ≠ [some UNKNOWN] ∧
      hookLater.2.file = some UNKNOWN ∧ hookLater.2.line = 0 :=
  ⟨by decide, by decide, by decide, by decide, by decide, by decide, by decide, by decide,
    by decide, by decide, by decide⟩

/-! ## The allocation counter -/

theorem MemMngr.memFree_counter (m : MemMngr) (fuel : Nat) (type : MemType) (p : Ptr)
    (file : Option String) (line : Nat) :
    (m.memFree fuel type p file line).2.itsAllocCounter = m.itsAllocCounter := by
  unfold MemMngr.memFree
  cases m.itsMemEntries.getEntry fuel m.entries p with
  | error e => rfl
  | ok entry =>
    simp only
    rcases m.itsMemEntries.remove fuel entry with ⟨res, l2⟩
    cases res with
    | error e => rfl
    | ok b =>
      simp only
      cases deref m.entries entry with
      | none => rfl
      | some r => rfl

theorem MemMngr.step_counter {m : MemMngr} (hv : m.Valid) (call : Call) (fuel : Nat)
    (hal : call.Allowed m) (hs : survives (call.exec fuel m).1 = true) :
    ((Event.booked ⟨fuel, call, m⟩ = true →
        (call.exec fuel m).2.itsAllocCounter = (m.itsAllocCounter + 1) % UINT_MOD) ∧
      (Event.booked ⟨fuel, call, m⟩ = false →
        (call.exec fuel m).2.itsAllocCounter = m.itsAllocCounter)) ∧
      (Event.allocOk ⟨fuel, call, m⟩ = true →
        Event.booked ⟨fuel, call, m⟩ = true ∧
          Event.assigned ⟨fuel, call, m⟩ = some ((m.itsAllocCounter + 1) % UINT_MOD)) := by
  cases call with
  | memAlloc type size file line e p n =>
    obtain ⟨xs, hinv⟩ := hv.inv
    rcases MemMngr.alloc_step hinv hv.limit type size file line e p n hal hs with
      ⟨h1, hep, _, _, _, h5⟩ | ⟨he, hp, hlt, _, _, h5, hcase⟩
    · have hb : Event.booked ⟨fuel, .memAlloc type size file line e p n, m⟩ = false := by
        rcases hep with h0 | h0 <;> simp [Event.booked, h0]
      have ha : Event.allocOk ⟨fuel, .memAlloc type size file line e p n, m⟩ = false := by
        simp [Event.allocOk, Event.result, Call.exec, h1, Except.map]
      refine ⟨⟨fun h => ?_, fun _ => h5⟩, fun h => ?_⟩
      · rw [hb] at h; cases h
      · rw [ha] at h; cases h
    · have hceil : m.ceilingOk size = true := by
        unfold MemMngr.ceilingOk
        have : m.itsMemSize + size < SIZE_MOD := by
          unfold ALLOCLIMIT at hlt
          unfold SIZE_MOD
          omega
        rw [Nat.mod_eq_of_lt this]
        exact decide_eq_true hlt
      have hb : Event.booked ⟨fuel, .memAlloc type size file line e p n, m⟩ = true := by
        simp [Event.booked, hceil, he, hp]
      refine ⟨⟨fun _ => h5, fun h => ?_⟩, fun h => ⟨hb, ?_⟩⟩
      · rw [hb] at h; cases h
      · rcases MemMngr.step_records_alloc hv type size file line e p n hal hs with
          ⟨_, _, h2⟩ | ⟨h1, _⟩
        · have hafter : (Event.after ⟨fuel, .memAlloc type size file line e p n, m⟩).records
              = m.records ++ [m.newEntry type size file line p] := h2
          unfold Event.assigned
          rw [if_pos h, hafter]
          simp [MemMngr.newEntry]
        · exfalso
          have ha : Event.allocOk ⟨fuel, .memAlloc type size file line e p n, m⟩ = false := by
            simp [Event.allocOk, Event.result, Call.exec, h1, Except.map]
          rw [ha] at h; cases h
  | memFree type p file line =>
    have hb : Event.booked ⟨fuel, .memFree type p file line, m⟩ = false := rfl
    have ha : Event.allocOk ⟨fuel, .memFree type p file line, m⟩ = false := by
      simp [Event.allocOk]
    refine ⟨⟨fun h => ?_, fun _ => MemMngr.memFree_counter m fuel type p file line⟩,
      fun h => ?_⟩
    · rw [hb] at h; cases h
    · rw [ha] at h; cases h

theorem bookings_cons (ev : Event) (log : List Event) :
    bookings (ev :: log) = bookings log + (if ev.booked = true then 1 else 0) := by
  simp [bookings, List.countP_cons]

theorem allocsOk_cons (ev : Event) (log : List Event) :
    allocsOk (ev :: log) = allocsOk log + (if ev.allocOk = true then 1 else 0) := by
  simp [allocsOk, List.countP_cons]

theorem Run.sequence {log : List Event} {m : MemMngr} (h : Run log m) :
    m.itsAllocCounter = bookings log % UINT_MOD ∧
      ∀ ev rest, List.IsSuffix (ev :: rest) log →
        ev.after.itsAllocCounter = bookings (ev :: rest) % UINT_MOD ∧
          (ev.allocOk = true →
            ev.booked = true ∧ ev.assigned = some (bookings (ev :: rest) % UINT_MOD)) := by
  induction h with
  | fresh =>
    refine ⟨rfl, ?_⟩
    intro ev rest hsuf
    have := List.IsSuffix.length_le hsuf
    simp at this
  | @step log m fuel call hrun hal hs ih =>
    obtain ⟨hc, hall⟩ := ih
    obtain ⟨⟨hb1, hb0⟩, ha⟩ := MemMngr.step_counter hrun.valid call fuel hal hs
    have hnew : (call.exec fuel m).2.itsAllocCounter
        = bookings (⟨fuel, call, m⟩ :: log) % UINT_MOD := by
      rw [bookings_cons]
      by_cases hb : Event.booked ⟨fuel, call, m⟩ = true
      · rw [hb1 hb, if_pos hb, hc]
        unfold UINT_MOD
        omega
      · have hb2 : Event.booked ⟨fuel, call, m⟩ = false := by
          cases hx : Event.booked ⟨fuel, call, m⟩ with
          | true => exact absurd hx hb
          | false => rfl
        rw [hb0 hb2, if_neg hb, hc, Nat.add_zero]
    refine ⟨hnew, ?_⟩
    intro ev rest hsuf
    rcases List.suffix_cons_iff.1 hsuf with heq | hsuf2
    · cases heq
      refine ⟨hnew, fun hok => ?_⟩
      obtain ⟨h1, h2⟩ := ha hok
      refine ⟨h1, ?_⟩
      rw [h2, bookings_cons, if_pos h1, hc]
      congr 1
      unfold UINT_MOD
      omega
    · exact hall ev rest hsuf2

/-! ## Rounds of `new char` and `delete` -/

theorem idle_alloc (c M : Nat) :
    cycleAlloc.exec 0 (idle c M) = (.ok (), busy ((c + 1) % UINT_MOD) (max 1 M)) := by
  simp [cycleAlloc, Call.exec, idle, busy, MemMngr.memAlloc, MemMngr.ceilingOk, MemList.add,
    MemList.init, SIZE_MOD, ALLOCLIMIT, UINT_MOD, Except.map]

theorem busy_free_bytes : ((1 + SIZE_MOD - 1 % SIZE_MOD) % SIZE_MOD) % UINT_MOD = 0 := by
  unfold SIZE_MOD UINT_MOD
  norm_num

theorem busy_free (c M : Nat) : cycleFree.exec 1 (busy c M) = (.ok (), idle c M) := by
  have hn : Function.update (Function.update (fun _ => (none : Option Node)) 300
      (some ⟨100, 0, 0⟩)) 300 none = fun _ => none := by
    funext q; by_cases h : q = 300 <;> simp [Function.update, h]
  have he : ∀ v : MemEntry, Function.update (Function.update (fun _ => (none : Option MemEntry))
      100 (some v)) 100 none = fun _ => none := by
    intro v; funext q; by_cases h : q = 100 <;> simp [Function.update, h]
  simp only [cycleFree, Call.exec, idle, busy, MemMngr.memFree, MemList.getEntry,
    MemList.getEntryLoop, MemList.remove, MemList.removeFind, MemList.unlink,
    MemList.setNextOf, MemList.setPreviousOf, deref, modify, MemList.init]
  simp [Except.map, hn, he, busy_free_bytes]

theorem cycleState_succ (n : Nat) :
    cycleState (n + 1) = (cycleFree.exec 1 (cycleAlloc.exec 0 (cycleState n)).2).2 := rfl

theorem cycleLog_succ (n : Nat) :
    cycleLog (n + 1) =
      ⟨1, cycleFree, (cycleAlloc.exec 0 (cycleState n)).2⟩ ::
        ⟨0, cycleAlloc, cycleState n⟩ :: cycleLog n := rfl

theorem cycleState_eq (n : Nat) : cycleState n = idle (n % UINT_MOD) (min n 1) := by
  induction n with
  | zero => rfl
  | succ n ih =>
    rw [cycleState_succ, ih, idle_alloc, busy_free]
    have h1 : (n % UINT_MOD + 1) % UINT_MOD = (n + 1) % UINT_MOD := by
      unfold UINT_MOD; omega
    have h2 : max 1 (min n 1) = min (n + 1) 1 := by omega
    rw [h1, h2]

theorem cycleRun (n : Nat) : Run (cycleLog n) (cycleState n) := by
  induction n with
  | zero => exact Run.fresh
  | succ n ih =>
    have hal : cycleAlloc.Allowed (cycleState n) := by
      rw [cycleState_eq]
      simp [cycleAlloc, Call.Allowed, idle, MemList.init, SIZE_MOD, PTRDIFF_MAX]
    have hs1 : survives (cycleAlloc.exec 0 (cycleState n)).1 = true := by
      rw [cycleState_eq, idle_alloc]; rfl
    have hstep := Run.step 0 cycleAlloc ih hal hs1
    have hal2 : cycleFree.Allowed (cycleAlloc.exec 0 (cycleState n)).2 := by
      simp [cycleFree, Call.Allowed, SIZE_MOD]
    have hs2 : survives (cycleFree.exec 1 (cycleAlloc.exec 0 (cycleState n)).2).1 = true := by
      rw [cycleState_eq, idle_alloc, busy_free]; rfl
    exact Run.step 1 cycleFree hstep hal2 hs2

theorem cycle_allocOk (n : Nat) : Event.allocOk ⟨0, cycleAlloc, cycleState n⟩ = true := by
  have h : (cycleAlloc.exec 0 (cycleState n)).1 = .ok () := by
    rw [cycleState_eq, idle_alloc]
  unfold Event.allocOk Event.result
  simp only [h]
  rfl

theorem cycle_free_not_alloc (n : Nat) :
    Event.allocOk ⟨1, cycleFree, (cycleAlloc.exec 0 (cycleState n)).2⟩ = false := by
  simp [Event.allocOk, cycleFree]

theorem cycle_booked (n : Nat) : Event.booked ⟨0, cycleAlloc, cycleState n⟩ = true := by
  have hsuf : List.IsSuffix (⟨0, cycleAlloc, cycleState n⟩ :: cycleLog n) (cycleLog (n + 1)) :=
    ⟨[⟨1, cycleFree, (cycleAlloc.exec 0 (cycleState n)).2⟩], rfl⟩
  exact (((cycleRun (n + 1)).sequence.2 _ _ hsuf).2 (cycle_allocOk n)).1

theorem bookings_cycleLog (n : Nat) : bookings (cycleLog n) = n := by
  induction n with
  | zero => rfl
  | succ n ih =>
    have hf : Event.booked ⟨1, cycleFree, (cycleAlloc.exec 0 (cycleState n)).2⟩ = false := rfl
    rw [cycleLog_succ, bookings_cons, bookings_cons, ih, hf, cycle_booked]
    simp

theorem allocsOk_cycleLog (n : Nat) : allocsOk (cycleLog n) = n := by
  induction n with
  | zero => rfl
  | succ n ih =>
    rw [cycleLog_succ, allocsOk_cons, allocsOk_cons, ih, cycle_free_not_alloc, cycle_allocOk]
    simp

theorem cycle_assigned (n : Nat) :
    Event.assigned ⟨0, cycleAlloc, cycleState n⟩ = some ((n + 1) % UINT_MOD) ∧
      (Event.after ⟨0, cycleAlloc, cycleState n⟩).itsAllocCounter = (n + 1) % UINT_MOD := by
  have hsuf : List.IsSuffix (⟨0, cycleAlloc, cycleState n⟩ :: cycleLog n) (cycleLog (n + 1)) :=
    ⟨[⟨1, cycleFree, (cycleAlloc.exec 0 (cycleState n)).2⟩], rfl⟩
  obtain ⟨h1, h2⟩ := (cycleRun (n + 1)).sequence.2 _ _ hsuf
  have hb : bookings (⟨0, cycleAlloc, cycleState n⟩ :: cycleLog n) = n + 1 := by
    rw [bookings_cons, bookings_cycleLog, cycle_booked]
    simp
  rw [hb] at h1 h2
  exact ⟨(h2 (cycle_allocOk n)).2, h1⟩

theorem cycle_mem (n : Nat) : ∀ k, k < n → (⟨0, cycleAlloc, cycleState k⟩ : Event) ∈ cycleLog n := by
  induction n with
  | zero => intro k hk; omega
  | succ n ih =>
    intro k hk
    rw [cycleLog_succ]
    by_cases hkn : k = n
    · subst hkn
      exact List.mem_cons_of_mem _ (List.mem_cons_self _ _)
    · exact List.mem_cons_of_mem _ (List.mem_cons_of_mem _ (ih k (by omega)))

theorem bookings_suffix_le {l1 l2 : List Event} (h : List.IsSuffix l1 l2) :
    bookings l1 ≤ bookings l2 :=
  List.Sublist.countP_le _ h.sublist

theorem suffix_of_mem {ev : Event} {log : List Event} (h : ev ∈ log) :
    ∃ rest, List.IsSuffix (ev :: rest) log := by
  obtain ⟨s, t, rfl⟩ := List.append_of_mem h
  exact ⟨t, s, rfl⟩

theorem Run.records_sorted {log : List Event} {m : MemMngr} (h : Run log m)
    (hlt : bookings log < UINT_MOD) :
    (m.records.map MemEntry.itsAllocNumber).Pairwise (fun a b => a < b) ∧
      ∀ r ∈ m.records, 1 ≤ r.itsAllocNumber ∧ r.itsAllocNumber ≤ m.itsAllocCounter := by
  induction h with
  | fresh => exact ⟨by simp [MemMngr.records, MemList.elements, walkNext, MemMngr.fresh,
      MemList.init], fun r hr => by
        simp [MemMngr.records, MemList.elements, walkNext, MemMngr.fresh, MemList.init] at hr⟩
  | @step log m fuel call hrun hal hs ih =>
    have hle : bookings log ≤ bookings (⟨fuel, call, m⟩ :: log) := by
      rw [bookings_cons]; omega
    obtain ⟨hsorted, hbound⟩ := ih (by omega)
    have hc : m.itsAllocCounter = bookings log := by
      rw [hrun.sequence.1, Nat.mod_eq_of_lt (by omega)]
    obtain ⟨⟨hb1, hb0⟩, ha⟩ := MemMngr.step_counter hrun.valid call fuel hal hs
    have hmono : m.itsAllocCounter ≤ (call.exec fuel m).2.itsAllocCounter := by
      by_cases hb : Event.booked ⟨fuel, call, m⟩ = true
      · rw [hb1 hb]
        have : bookings log + 1 < UINT_MOD := by
          rw [bookings_cons, if_pos hb] at hlt; exact hlt
        rw [Nat.mod_eq_of_lt (by omega)]
        omega
      · have hb2 : Event.booked ⟨fuel, call, m⟩ = false := by
          cases hx : Event.booked ⟨fuel, call, m⟩ with
          | true => exact absurd hx hb
          | false => rfl
        rw [hb0 hb2]
    cases call with
    | memAlloc type size file line e p n =>
      rcases MemMngr.step_records_alloc hrun.valid type size file line e p n hal hs with
        ⟨h1, _, h2⟩ | ⟨_, h2⟩
      · have hok : Event.allocOk ⟨fuel, .memAlloc type size file line e p n, m⟩ = true := by
          simp [Event.allocOk, Event.result, Call.exec, h1, Except.map]
        have hb := (ha hok).1
        have hlt2 : bookings log + 1 < UINT_MOD := by
          rw [bookings_cons, if_pos hb] at hlt; exact hlt
        have hnum : (m.newEntry type size file line p).itsAllocNumber
            = m.itsAllocCounter + 1 := by
          show (m.itsAllocCounter + 1) % UINT_MOD = _
          rw [Nat.mod_eq_of_lt (by omega)]
        have hafter : (Call.exec fuel (.memAlloc type size file line e p n) m).2.itsAllocCounter
            = m.itsAllocCounter + 1 := by
          rw [hb1 hb, Nat.mod_eq_of_lt (by omega)]
        have hrec : (Call.exec fuel (.memAlloc type size file line e p n) m).2.records
            = m.records ++ [m.newEntry type size file line p] := h2
        rw [hrec, hafter]
        refine ⟨?_, ?_⟩
        · rw [List.map_append, List.pairwise_append]
          refine ⟨hsorted, by simp, ?_⟩
          intro a ha2 b hb2
          simp only [List.map_cons, List.map_nil, List.mem_singleton] at hb2
          obtain ⟨r, hr, rfl⟩ := List.mem_map.1 ha2
          have := (hbound r hr).2
          rw [hb2, hnum]
          omega
        · intro r hr
          rcases List.mem_append.1 hr with hr | hr
          · have := hbound r hr
            omega
          · simp only [List.mem_singleton] at hr
            rw [hr, hnum]
            omega
      · have hrec : (Call.exec fuel (.memAlloc type size file line e p n) m).2.records
            = m.records := h2
        rw [hrec]
        refine ⟨hsorted, fun r hr => ?_⟩
        have := hbound r hr
        omega
    | memFree type p file line =>
      obtain ⟨pre, r0, post, hrec, _, _, _, h2⟩ :=
        MemMngr.step_records_free hrun.valid type p file line fuel hs
      have hrec2 : (Call.exec fuel (.memFree type p file line) m).2.records = pre ++ post := h2
      rw [hrec2]
      rw [hrec] at hsorted hbound
      refine ⟨?_, fun r hr => ?_⟩
      · refine List.Pairwise.sublist ?_ hsorted
        exact List.Sublist.map _
          (List.Sublist.append (List.Sublist.refl _) (List.sublist_cons_self _ _))
      · have := hbound r (by
          rcases List.mem_append.1 hr with h | h
          · simp [h]
          · simp [h])
        omega

/-- C11 (as stated it fails): after 4294967296 rounds of `new char` and
`delete` on a fresh manager, the 4294967296-th `memAlloc` that returned has
stored sequence number 0 and left `itsAllocCounter` at 0: the counter is an
`unsigned int`. -/
theorem counter_wraps_after_4294967296_allocations :
    Run (cycleLog (4294967295 + 1)) (cycleState (4294967295 + 1)) ∧
      List.IsSuffix (⟨0, cycleAlloc, cycleState 4294967295⟩ :: cycleLog 4294967295)
        (cycleLog (4294967295 + 1)) ∧
      Event.allocOk ⟨0, cycleAlloc, cycleState 4294967295⟩ = true ∧
      allocsOk (⟨0, cycleAlloc, cycleState 4294967295⟩ :: cycleLog 4294967295) = 4294967296 ∧
      Event.assigned ⟨0, cycleAlloc, cycleState 4294967295⟩ = some 0 ∧
      (Event.after ⟨0, cycleAlloc, cycleState 4294967295⟩).itsAllocCounter = 0 := by
  have hmod : (4294967295 + 1) % UINT_MOD = 0 := by unfold UINT_MOD; norm_num
  obtain ⟨h1, h2⟩ := cycle_assigned 4294967295
  rw [hmod] at h1 h2
  refine ⟨cycleRun _, ⟨[⟨1, cycleFree, (cycleAlloc.exec 0 (cycleState 4294967295)).2⟩], rfl⟩,
    cycle_allocOk _, ?_, h1, h2⟩
  rw [allocsOk_cons, allocsOk_cycleLog, cycle_allocOk]
  simp

/-- C11 (amended): starting from a fresh manager, in a run in which every
`memAlloc` that reached "update statistics" has returned, the k-th `memAlloc`
that returned stores sequence number `k mod 2^32` in its record and leaves
`itsAllocCounter` equal to it, which is `k` itself while `k < 2^32` (the first
allocation is #1); `memFree` never changes `itsAllocCounter`. -/
theorem kth_allocation_gets_number_k (log : List Event) (m : MemMngr) (h : Run log m)
    (hno : ∀ ev ∈ log, ev.booked = true → ev.allocOk = true) :
    m.itsAllocCounter = allocsOk log % UINT_MOD ∧
      (∀ ev rest, List.IsSuffix (ev :: rest) log → ev.allocOk = true →
        ev.assigned = some (allocsOk (ev :: rest) % UINT_MOD) ∧
          ev.after.itsAllocCounter = allocsOk (ev :: rest) % UINT_MOD ∧
          (allocsOk (ev :: rest) < UINT_MOD →
            ev.assigned = some (allocsOk (ev :: rest)) ∧
              ev.after.itsAllocCounter = allocsOk (ev :: rest))) ∧
      (∀ (m2 : MemMngr) (fuel : Nat) (type : MemType) (p : Ptr) (file : Option String)
          (line : Nat),
        (m2.memFree fuel type p file line).2.itsAllocCounter = m2.itsAllocCounter) := by
  obtain ⟨hc, hall⟩ := h.sequence
  have hsame : ∀ ev ∈ log, ev.booked = ev.allocOk := by
    intro ev hev
    obtain ⟨rest, hsuf⟩ := suffix_of_mem hev
    cases hb : ev.booked with
    | true => exact (hno ev hev hb).symm
    | false =>
      cases ha : ev.allocOk with
      | false => rfl
      | true =>
        have := ((hall ev rest hsuf).2 ha).1
        rw [hb] at this; cases this
  have hcount : ∀ l : List Event, (∀ ev ∈ l, ev ∈ log) → bookings l = allocsOk l := by
    intro l hl
    unfold bookings allocsOk
    exact List.countP_congr (fun ev hev => by rw [hsame ev (hl ev hev)])
  refine ⟨?_, ?_, fun m2 fuel type p file line => MemMngr.memFree_counter m2 fuel type p file line⟩
  · rw [hc, hcount log (fun _ h => h)]
  · intro ev rest hsuf hok
    obtain ⟨h1, h2⟩ := hall ev rest hsuf
    have hk : bookings (ev :: rest) = allocsOk (ev :: rest) :=
      hcount _ (fun x hx => List.IsSuffix.subset hsuf hx)
    rw [hk] at h1 h2
    refine ⟨(h2 hok).2, h1, fun hlt => ?_⟩
    rw [← Nat.mod_eq_of_lt hlt]
    exact ⟨(h2 hok).2, h1⟩

theorem kth_allocation_gets_number_k_witness :
    Run demoLog3 demoState3 ∧ (∀ ev ∈ demoLog3, ev.booked = true → ev.allocOk = true) ∧
      allocsOk demoLog2 = 2 ∧
      Event.assigned ⟨0, demoAlloc2, demoState1⟩ = some 2 ∧
      Event.assigned ⟨0, demoAlloc1, MemMngr.fresh⟩ = some 1 ∧
      (demoState3.itsAllocCounter = allocsOk demoLog3 % UINT_MOD ∧
        (∀ ev rest, List.IsSuffix (ev :: rest) demoLog3 → ev.allocOk = true →
          ev.assigned = some (allocsOk (ev :: rest) % UINT_MOD) ∧
            ev.after.itsAllocCounter = allocsOk (ev :: rest) % UINT_MOD ∧
            (allocsOk (ev :: rest) < UINT_MOD →
              ev.assigned = some (allocsOk (ev :: rest)) ∧
                ev.after.itsAllocCounter = allocsOk (ev :: rest))) ∧
        (∀ (m2 : MemMngr) (fuel : Nat) (type : MemType) (p : Ptr) (file : Option String)
            (line : Nat),
          (m2.memFree fuel type p file line).2.itsAllocCounter = m2.itsAllocCounter)) :=
  ⟨demoRun3, by decide, by decide, by decide, by decide,
    kth_allocation_gets_number_k demoLog3 demoState3 demoRun3 (by decide)⟩

/-- After a `memAlloc` that failed inside `List::add`, the first `memAlloc`
that returns stores sequence number 2: the failed call has used number 1. -/
theorem lost_alloc_uses_a_number :
    (lostAlloc.exec 0 MemMngr.fresh).1 = .error .bad_alloc ∧
      lostState.itsAllocCounter = 1 ∧
      Event.allocOk ⟨0, demoAlloc2, lostState⟩ = true ∧
      Event.assigned ⟨0, demoAlloc2, lostState⟩ = some 2 :=
  ⟨by decide, by decide, by decide, by decide⟩

/-- C12 (as stated it fails): in the run of 4294967297 rounds of `new char` and
`delete`, the allocation of the last round is assigned sequence number 1, the
number the allocation of the first round was assigned. -/
theorem sequence_number_reused_after_wrap :
    Run (cycleLog (4294967296 + 1)) (cycleState (4294967296 + 1)) ∧
      List.IsSuffix (⟨0, cycleAlloc, cycleState 4294967296⟩ :: cycleLog 4294967296)
        (cycleLog (4294967296 + 1)) ∧
      (⟨0, cycleAlloc, cycleState 0⟩ : Event) ∈ cycleLog 4294967296 ∧
      Event.allocOk ⟨0, cycleAlloc, cycleState 0⟩ = true ∧
      Event.allocOk ⟨0, cycleAlloc, cycleState 4294967296⟩ = true ∧
      Event.assigned ⟨0, cycleAlloc, cycleState 0⟩ = some 1 ∧
      Event.assigned ⟨0, cycleAlloc, cycleState 4294967296⟩ = some 1 := by
  have hmod : (4294967296 + 1) % UINT_MOD = 1 := by unfold UINT_MOD; norm_num
  have hmod0 : (0 + 1) % UINT_MOD = 1 := by unfold UINT_MOD; norm_num
  have h1 := (cycle_assigned 4294967296).1
  have h0 := (cycle_assigned 0).1
  rw [hmod] at h1
  rw [hmod0] at h0
  exact ⟨cycleRun _, ⟨[⟨1, cycleFree, (cycleAlloc.exec 0 (cycleState 4294967296)).2⟩], rfl⟩,
    cycle_mem 4294967296 0 (by norm_num), cycle_allocOk _, cycle_allocOk _, h0, h1⟩

/-- C12 (amended): in every run from a fresh manager in which fewer than 2^32
`memAlloc` calls have reached "update statistics", a `memAlloc` that returned
is assigned a strictly larger sequence number than every earlier one, so no two
of them carry the same number, and the records of the registry are in strictly
increasing order of sequence number from head to tail, all between 1 and
`itsAllocCounter`. -/
theorem sequence_numbers_increase_before_wrap (log : List Event) (m : MemMngr)
    (h : Run log m) (hlt : bookings log < UINT_MOD) :
    (∀ ev rest ev0, List.IsSuffix (ev :: rest) log → ev0 ∈ rest →
        ev.allocOk = true → ev0.allocOk = true →
        ∃ a b, ev0.assigned = some a ∧ ev.assigned = some b ∧ a < b) ∧
      (m.records.map MemEntry.itsAllocNumber).Pairwise (fun a b => a < b) ∧
      (∀ r ∈ m.records, 1 ≤ r.itsAllocNumber ∧ r.itsAllocNumber ≤ m.itsAllocCounter) := by
  obtain ⟨hsorted, hbound⟩ := h.records_sorted hlt
  refine ⟨?_, hsorted, hbound⟩
  intro ev rest ev0 hsuf hev0 hok hok0
  obtain ⟨rest0, hsuf0⟩ := suffix_of_mem hev0
  have hsufc : List.IsSuffix rest log :=
    List.IsSuffix.trans (List.suffix_cons ev rest) hsuf
  have hsuf0' : List.IsSuffix (ev0 :: rest0) log := List.IsSuffix.trans hsuf0 hsufc
  obtain ⟨hb, ha⟩ := (h.sequence.2 ev rest hsuf).2 hok
  obtain ⟨_, ha0⟩ := (h.sequence.2 ev0 rest0 hsuf0').2 hok0
  have hle1 := bookings_suffix_le hsuf
  have hle0 := bookings_suffix_le hsuf0
  have hcons : bookings (ev :: rest) = bookings rest + 1 := by
    rw [bookings_cons, if_pos hb]
  refine ⟨_, _, ha0, ha, ?_⟩
  rw [Nat.mod_eq_of_lt (by omega), Nat.mod_eq_of_lt (by omega)]
  omega

theorem sequence_numbers_increase_before_wrap_witness :
    Run demoLog2 demoState2 ∧ bookings demoLog2 < UINT_MOD ∧
      demoState2.records.map MemEntry.itsAllocNumber = [1, 2] ∧
      ((∀ ev rest ev0, List.IsSuffix (ev :: rest) demoLog2 → ev0 ∈ rest →
          ev.allocOk = true → ev0.allocOk = true →
          ∃ a b, ev0.assigned = some a ∧ ev.assigned = some b ∧ a < b) ∧
        (demoState2.records.map MemEntry.itsAllocNumber).Pairwise (fun a b => a < b) ∧
        (∀ r ∈ demoState2.records,
          1 ≤ r.itsAllocNumber ∧ r.itsAllocNumber ≤ demoState2.itsAllocCounter)) :=
  ⟨demoRun2, by decide, by decide,
    sequence_numbers_increase_before_wrap demoLog2 demoState2 demoRun2 (by decide)⟩

/-! ## No wrap-around of the byte counters -/

theorem Run.history_below {log : List Event} {m : MemMngr} (h : Run log m) :
    ∀ v ∈ liveHistory log, v < ALLOCLIMIT := by
  induction h with
  | fresh =>
    intro v hv
    simp only [liveHistory, List.map_nil, List.nil_append, List.mem_singleton] at hv
    subst hv
    simp [MemMngr.fresh, ALLOCLIMIT]
  | @step log m fuel call hrun hal hs ih =>
    intro v hv
    have hcons : liveHistory (⟨fuel, call, m⟩ :: log)
        = (call.exec fuel m).2.itsMemSize :: liveHistory log := rfl
    rw [hcons] at hv
    rcases List.mem_cons.1 hv with rfl | hv
    · exact (Run.step fuel call hrun hal hs).valid.limit
    · exact ih v hv

theorem Run.peak_below {log : List Event} {m : MemMngr} (h : Run log m) :
    m.itsMemSizeMax < ALLOCLIMIT := by
  obtain ⟨_, _, _, _, hpeak, _, _⟩ := h.invariant
  rw [hpeak]
  exact h.history_below _ (maxOf_mem _ (by simp [liveHistory]))

theorem MemMngr.step_noWrap {m : MemMngr} (hv : m.Valid) (call : Call) (fuel : Nat)
    (hal : call.Allowed m) (hs : survives (call.exec fuel m).1 = true) :
    Event.NoWrap ⟨fuel, call, m⟩ := by
  obtain ⟨xs, hinv⟩ := hv.inv
  cases call with
  | memAlloc type size file line e p n =>
    rcases MemMngr.alloc_step hinv hv.limit type size file line e p n hal hs with
      ⟨_, _, _, h3, _, _⟩ | ⟨_, _, hlt, h3, _, _, _⟩
    · exact Or.inl h3
    · exact Or.inr ⟨h3, hlt⟩
  | memFree type p file line =>
    have hbytes := hv.bytes
    rw [hinv.records] at hbytes
    obtain ⟨pre, x, post, hxs, hx, _, _, _, h3, _, _⟩ :=
      MemMngr.free_step hinv hbytes hv.limit type p file line fuel hs
    refine ⟨x.2, ?_, hx, ?_, h3⟩
    · rw [hinv.records, hxs]
      exact List.mem_map_of_mem _ (by simp)
    · show x.2.itsSize ≤ m.itsMemSize
      have h4 : (m.memFree fuel type p file line).2.itsMemSize + x.2.itsSize = m.itsMemSize := h3
      omega

theorem Run.noWrap {log : List Event} {m : MemMngr} (h : Run log m) :
    ∀ ev ∈ log, ev.before.itsMemSize < ALLOCLIMIT ∧ ev.after.itsMemSize < ALLOCLIMIT ∧
      ev.after.itsMemSizeMax < ALLOCLIMIT ∧ ev.NoWrap := by
  induction h with
  | fresh => intro ev hev; cases hev
  | @step log m fuel call hrun hal hs ih =>
    intro ev hev
    rcases List.mem_cons.1 hev with rfl | hev
    · exact ⟨hrun.valid.limit, (Run.step fuel call hrun hal hs).valid.limit,
        (Run.step fuel call hrun hal hs).peak_below,
        MemMngr.step_noWrap hrun.valid call fuel hal hs⟩
    · exact ih ev hev

theorem MemMngr.wrapping_request {m : MemMngr} (hlim : m.itsMemSize < ALLOCLIMIT)
    (type : MemType) (size : Nat) (file : Option String) (line : Nat) (e p n : Ptr)
    (hal : (Call.memAlloc type size file line e p n).Allowed m)
    (hwrap : SIZE_MOD ≤ m.itsMemSize + size) :
    p = 0 ∧ (∀ r, (m.memAlloc type size file line e p n).1 ≠ .ok r) ∧
      (m.memAlloc type size file line e p n).2.itsMemSize = m.itsMemSize ∧
      (m.memAlloc type size file line e p n).2.itsMemSizeMax = m.itsMemSizeMax := by
  obtain ⟨_, _, _, _, hpd⟩ := hal
  have hp : p = 0 := by
    by_contra hne
    have := hpd hne
    unfold PTRDIFF_MAX at this
    unfold ALLOCLIMIT at hlim
    unfold SIZE_MOD at hwrap
    omega
  subst hp
  refine ⟨rfl, ?_⟩
  cases hceil : m.ceilingOk size with
  | false =>
    rw [MemMngr.memAlloc_reject m type size file line e 0 n hceil]
    exact ⟨(fun r hr => by cases hr), rfl, rfl⟩
  | true =>
    by_cases he : e = 0
    · subst he
      rw [MemMngr.memAlloc_noEntry m type size file line 0 n hceil]
      exact ⟨(fun r hr => by cases hr), rfl, rfl⟩
    · rw [MemMngr.memAlloc_noBlock m type size file line e n hceil he]
      exact ⟨(fun r hr => by cases hr), rfl, rfl⟩

/-- C20: in every state reached from a fresh manager, `itsMemSize` and
`itsMemSizeMax` are strictly below 1073741824, and no call has wrapped the
arithmetic: every `memAlloc` left `itsMemSize` alone or added `size` with a sum
below the limit, every `memFree` subtracted the size of a record that was not
larger than `itsMemSize`.  A request whose sum `itsMemSize + size` wraps around
in `size_t` may pass the assertion, but `malloc` returns `NULL` for it, so
`memAlloc` throws and leaves both counters as they were. -/
theorem live_bytes_stay_below_limit (log : List Event) (m : MemMngr) (h : Run log m) :
    m.itsMemSize < 1073741824 ∧ m.itsMemSizeMax < 1073741824 ∧
      (∀ ev ∈ log, ev.before.itsMemSize < 1073741824 ∧ ev.after.itsMemSize < 1073741824 ∧
        ev.after.itsMemSizeMax < 1073741824 ∧ ev.NoWrap) ∧
      (∀ type size file line e p n,
        (Call.memAlloc type size file line e p n).Allowed m →
        SIZE_MOD ≤ m.itsMemSize + size →
        p = 0 ∧ (∀ r, (m.memAlloc type size file line e p n).1 ≠ .ok r) ∧
          (m.memAlloc type size file line e p n).2.itsMemSize = m.itsMemSize ∧
          (m.memAlloc type size file line e p n).2.itsMemSizeMax = m.itsMemSizeMax) :=
  ⟨h.valid.limit, h.peak_below, h.noWrap,
    fun type size file line e p n hal hwrap =>
      MemMngr.wrapping_request h.valid.limit type size file line e p n hal hwrap⟩

theorem hugeRun : Run hugeLog hugeState :=
  Run.step 0 hugeAlloc demoRun2 (by decide) (by decide)

theorem live_bytes_stay_below_limit_witness :
    Run hugeLog hugeState ∧ demoState2.itsMemSize = 404 ∧
      SIZE_MOD ≤ demoState2.itsMemSize + 18446744073709551212 ∧
      demoState2.ceilingOk 18446744073709551212 = true ∧
      (hugeAlloc.exec 0 demoState2).1 = .error .bad_alloc ∧ hugeState.itsMemSize = 404 ∧
      (hugeState.itsMemSize < 1073741824 ∧ hugeState.itsMemSizeMax < 1073741824 ∧
        (∀ ev ∈ hugeLog, ev.before.itsMemSize < 1073741824 ∧
          ev.after.itsMemSize < 1073741824 ∧ ev.after.itsMemSizeMax < 1073741824 ∧
          ev.NoWrap) ∧
        (∀ type size file line e p n,
          (Call.memAlloc type size file line e p n).Allowed hugeState →
          SIZE_MOD ≤ hugeState.itsMemSize + size →
          p = 0 ∧ (∀ r, (hugeState.memAlloc type size file line e p n).1 ≠ .ok r) ∧
            (hugeState.memAlloc type size file line e p n).2.itsMemSize
              = hugeState.itsMemSize ∧
            (hugeState.memAlloc type size file line e p n).2.itsMemSizeMax
              = hugeState.itsMemSizeMax)) :=
  ⟨hugeRun, by decide, by decide, by decide, by decide, by decide,
    live_bytes_stay_below_limit hugeLog hugeState hugeRun⟩

/-- What `Call.Allowed` excludes: were `malloc` to return a block for the
wrapping request, `itsMemSize` would drop from 404 to 0 while a record of
`2^64 - 404` bytes is added, and the release of the 4-byte block would then
wrap `itsMemSize` to `2^32 - 4`, above the limit. -/
theorem served_wrapping_request_would_wrap :
    ¬ servedHugeAlloc.Allowed demoState2 ∧
      (servedHugeAlloc.exec 0 demoState2).1 = .ok () ∧
      (servedHugeAlloc.exec 0 demoState2).2.itsMemSize = 0 ∧
      sumSizes (servedHugeAlloc.exec 0 demoState2).2.records = 18446744073709551616 ∧
      (demoFree1.exec 3 (servedHugeAlloc.exec 0 demoState2).2).1 = .ok () ∧
      (demoFree1.exec 3 (servedHugeAlloc.exec 0 demoState2).2).2.itsMemSize = 4294967292 :=
  ⟨by decide, by decide, by decide, by decide, by decide, by decide⟩

end MM
